import Mathlib

/-!
Verification of the document-structure inference and audio-chunking pipeline
of a PDF-to-audiobook converter.

The TypeScript sources are shallowly embedded here.  JavaScript strings are
modelled as `List Char` (sequences of Unicode scalar values); `length` and
`slice` therefore count scalars where JavaScript counts UTF-16 units (the two
agree on all characters up to U+FFFF), and `Buffer.byteLength(s, "utf8")` is
the sum of the UTF-8 sizes of the scalars.  JavaScript regular expressions
used by the sources are small and concrete, and each one is embedded as a
recursive scanner whose semantics (greediness, non-overlapping global
replacement, word boundaries over the ASCII `\w` class) mirrors the engine's
behaviour on the pattern in question.  Floating-point threshold comparisons
(`< 0.18`, `> 0.55`, `>= 0.92` …) are embedded as exact rational/integer
comparisons; for the operand ranges occurring here (small integer counts and
ratios) the double-precision comparison and the rational comparison agree.
-/

namespace PdfAudio

/-- JavaScript `\w` character class (ASCII letters, digits, underscore). -/
def isWordChar (c : Char) : Bool :=
  ('a' ≤ c && c ≤ 'z') || ('A' ≤ c && c ≤ 'Z') || ('0' ≤ c && c ≤ '9') || c = '_'

/-- ASCII digit, JavaScript `\d`. -/
def isDigit (c : Char) : Bool := '0' ≤ c && c ≤ '9'

/-- ASCII letter, the `[a-z]` class under the `i` flag. -/
def isAsciiLetter (c : Char) : Bool :=
  ('a' ≤ c && c ≤ 'z') || ('A' ≤ c && c ≤ 'Z')

/-- JavaScript `\s` (whitespace).  We model the common members: space, tab,
line feed, carriage return, vertical tab, form feed, NBSP and the BOM. -/
def isJsSpace (c : Char) : Bool :=
  c = ' ' || c = '\t' || c = '\n' || c = '\x0d' ||
  c = '\x0b' || c = '\x0c' || c = ' ' || c = '﻿'

/-- ASCII lowercasing (`String.prototype.toLowerCase` restricted to the
ASCII range, which is all the sources rely on). -/
def lowerChar (c : Char) : Char :=
  if 'A' ≤ c && c ≤ 'Z' then Char.ofNat (c.toNat + 32) else c

/-- ASCII uppercasing. -/
def upperChar (c : Char) : Char :=
  if 'a' ≤ c && c ≤ 'z' then Char.ofNat (c.toNat - 32) else c

def lowerStr (s : List Char) : List Char := s.map lowerChar

def upperStr (s : List Char) : List Char := s.map upperChar

/-- `String.prototype.trim`. -/
def trimStr (s : List Char) : List Char :=
  ((s.dropWhile isJsSpace).reverse.dropWhile isJsSpace).reverse

/-- UTF-8 byte length (`Buffer.byteLength(s, "utf8")`). -/
def utf8Len (s : List Char) : Nat := (s.map Char.utf8Size).sum

/-- Worker for `jsSplitRuns`: `building = some acc` means a piece (reversed
in `acc`) is being built, `none` means a separator run is being skipped
(the piece before it has already been emitted). -/
def jsSplitRunsAux (p : Char → Bool) (building : Option (List Char)) :
    List Char → List (List Char)
  | [] =>
    match building with
    | some acc => [acc.reverse]
    | none => [[]]
  | c :: rest =>
    match building with
    | some acc =>
      if p c then acc.reverse :: jsSplitRunsAux p none rest
      else jsSplitRunsAux p (some (c :: acc)) rest
    | none =>
      if p c then jsSplitRunsAux p none rest
      else jsSplitRunsAux p (some [c]) rest

/-- `s.split(re)` where `re` matches maximal runs of characters satisfying
`p` (e.g. `/\n+/`, `/\s+/`).  Like the JavaScript split, empty pieces are
produced at the ends when the string starts or ends with a separator run. -/
def jsSplitRuns (p : Char → Bool) (s : List Char) : List (List Char) :=
  jsSplitRunsAux p (some []) s

def jsSplitCharAux (sep : Char) (acc : List Char) :
    List Char → List (List Char)
  | [] => [acc.reverse]
  | c :: rest =>
    if c = sep then acc.reverse :: jsSplitCharAux sep [] rest
    else jsSplitCharAux sep (c :: acc) rest

/-- `s.split(sep)` for a single-character separator string. -/
def jsSplitChar (sep : Char) (s : List Char) : List (List Char) :=
  jsSplitCharAux sep [] s

/-- Whitespace-separated tokens of a string (`split(/\s+/).filter(Boolean)`). -/
def tokens (s : List Char) : List (List Char) :=
  (jsSplitRuns isJsSpace s).filter (fun t => t ≠ [])

def collapseWsAux (prevWs : Bool) : List Char → List Char
  | [] => []
  | c :: rest =>
    if isJsSpace c then
      if prevWs then collapseWsAux true rest
      else ' ' :: collapseWsAux true rest
    else c :: collapseWsAux false rest

/-- `s.replace(/\s+/g, " ")`: collapse every whitespace run to one space. -/
def collapseWs (s : List Char) : List Char :=
  collapseWsAux false s

/-- `s.join(sep)` for lists of strings. -/
def joinWith (sep : List Char) : List (List Char) → List Char
  | [] => []
  | [x] => x
  | x :: y :: rest => x ++ sep ++ joinWith sep (y :: rest)

/-- Insertion-order association-list counter bump (models a JS `Map` used as
a frequency table: first-insertion key order, value updated in place). -/
def bumpAssoc {α : Type} [DecidableEq α] (m : List (α × Nat)) (k : α) :
    List (α × Nat) :=
  match m with
  | [] => [(k, 1)]
  | (k0, v0) :: rest =>
    if k0 = k then (k0, v0 + 1) :: rest else (k0, v0) :: bumpAssoc rest k

/-! ## Embedding of `src/app/api/chapters/route.ts` -/

/-- A `\b` holding right after a word character: the remainder is empty or
starts with a non-word character. -/
def boundaryAfterWord (rest : List Char) : Bool :=
  match rest with
  | [] => true
  | c :: _ => !isWordChar c

def isRomanChar (c : Char) : Bool :=
  let l := lowerChar c
  l = 'i' || l = 'v' || l = 'x' || l = 'l' || l = 'c' || l = 'd' || l = 'm'

def isRomanOrDigit (c : Char) : Bool := isRomanChar c || isDigit c

/-- `/^chapter\s+\d+\b/i` -/
def testChapterNum (s : List Char) : Bool :=
  lowerStr (s.take 7) = "chapter".data &&
  (let r := s.drop 7
   (r.takeWhile isJsSpace ≠ []) &&
   (let r2 := r.dropWhile isJsSpace
    (r2.takeWhile isDigit ≠ []) && boundaryAfterWord (r2.dropWhile isDigit)))

/-- `/^chapter\s+[ivxlcdm]+\b/i` -/
def testChapterRoman (s : List Char) : Bool :=
  lowerStr (s.take 7) = "chapter".data &&
  (let r := s.drop 7
   (r.takeWhile isJsSpace ≠ []) &&
   (let r2 := r.dropWhile isJsSpace
    (r2.takeWhile isRomanChar ≠ []) &&
      boundaryAfterWord (r2.dropWhile isRomanChar)))

/-- `/^[ivxlcdm]+\.\s+[a-z]/i` -/
def testRomanDot (s : List Char) : Bool :=
  (s.takeWhile isRomanChar ≠ []) &&
  (match s.dropWhile isRomanChar with
   | '.' :: r2 =>
     (r2.takeWhile isJsSpace ≠ []) &&
     (match r2.dropWhile isJsSpace with
      | c :: _ => isAsciiLetter c
      | [] => false)
   | _ => false)

/-- Worker for `dotDigitsLoop`: consume a digit run, then another `.digits`
group if one follows, and so on. -/
def dotDigitsRun : List Char → List Char
  | [] => []
  | c :: rest =>
    if isDigit c then dotDigitsRun rest
    else
      match c, rest with
      | '.', d :: rest2 =>
        if isDigit d then dotDigitsRun rest2 else '.' :: d :: rest2
      | '.', [] => ['.']
      | _, _ => c :: rest

/-- Consume `(\.\d+)*` greedily (called after an initial digit run). -/
def dotDigitsLoop (s : List Char) : List Char :=
  match s with
  | '.' :: d :: rest => if isDigit d then dotDigitsRun rest else '.' :: d :: rest
  | _ => s

/-- `/^\d+(\.\d+)*\s+\S+/` -/
def testNumberedSection (s : List Char) : Bool :=
  (s.takeWhile isDigit ≠ []) &&
  (let r := dotDigitsLoop (s.dropWhile isDigit)
   (r.takeWhile isJsSpace ≠ []) && (r.dropWhile isJsSpace ≠ []))

/-- `/^\d+(\.\d+)*\s+/` (the legacy variant, no trailing `\S+`). -/
def testNumberedPrefix (s : List Char) : Bool :=
  (s.takeWhile isDigit ≠ []) &&
  (let r := dotDigitsLoop (s.dropWhile isDigit)
   r.takeWhile isJsSpace ≠ [])

/-- `/^part\s+[ivxlcdm\d]+\b/i` -/
def testPart (s : List Char) : Bool :=
  lowerStr (s.take 4) = "part".data &&
  (let r := s.drop 4
   (r.takeWhile isJsSpace ≠ []) &&
   (let r2 := r.dropWhile isJsSpace
    (r2.takeWhile isRomanOrDigit ≠ []) &&
      boundaryAfterWord (r2.dropWhile isRomanOrDigit)))

/-- Case-insensitive whole-word containment: `/\bword\b/i.test(s)`, for a
pattern that begins and ends with word characters.  `prevWord` records
whether the character before the current position is a word character. -/
def containsWordAt (w : List Char) (prevWord : Bool) (s : List Char) : Bool :=
  match s with
  | [] => false
  | c :: rest =>
    (!prevWord && lowerStr (s.take w.length) = w &&
      boundaryAfterWord (s.drop w.length)) ||
    containsWordAt w (isWordChar c) rest

/-- `/^\W*\d+\W*$/` -/
def testPureNumber (s : List Char) : Bool :=
  let r := s.dropWhile (fun c => !isWordChar c)
  (r.takeWhile isDigit ≠ []) &&
    (r.dropWhile isDigit).all (fun c => !isWordChar c)

/-- `/^\d+$/` -/
def testPureDigits (s : List Char) : Bool :=
  s ≠ [] && s.all isDigit

/-- `/^page\s+\d+$/i` -/
def testPageNum (s : List Char) : Bool :=
  lowerStr (s.take 4) = "page".data &&
  (let r := s.drop 4
   (r.takeWhile isJsSpace ≠ []) &&
   (let r2 := r.dropWhile isJsSpace
    r2 ≠ [] && r2.all isDigit))

/-- `/^(copyright|all rights reserved)\b/i` -/
def testCopyright (s : List Char) : Bool :=
  (lowerStr (s.take 9) = "copyright".data && boundaryAfterWord (s.drop 9)) ||
  (lowerStr (s.take 19) = "all rights reserved".data &&
    boundaryAfterWord (s.drop 19))

/-- `cleanTitle`: collapse whitespace, trim, cap at 120 characters,
defaulting to "Chapter". -/
def cleanTitle (s : List Char) : List Char :=
  let t := (trimStr (collapseWs s)).take 120
  if t = [] then "Chapter".data else t

/-- Characters kept by `normalizeLine`'s removal of everything outside
word characters, whitespace and `.` `:` `/` `-`. -/
def isNormKeep (c : Char) : Bool :=
  isWordChar c || isJsSpace c || c = '.' || c = ':' || c = '/' || c = '-'

/-- `normalizeLine`: lowercase, collapse whitespace, strip punctuation other
than `. : / -`, trim. -/
def normalizeLine (s : List Char) : List Char :=
  trimStr ((collapseWs (lowerStr s)).filter isNormKeep)

/-- Worker for `groupWords8`: `accG` holds the current group (reversed),
`cnt` its size. -/
def groupWords8Aux (cnt : Nat) (accG : List (List Char)) :
    List (List Char) → List (List Char)
  | [] => if accG.isEmpty then [] else [joinWith [' '] accG.reverse]
  | w :: rest =>
    if cnt + 1 = 8 then
      joinWith [' '] (accG.reverse ++ [w]) :: groupWords8Aux 0 [] rest
    else groupWords8Aux (cnt + 1) (w :: accG) rest

/-- Group whitespace-separated words eight to a line (`textToLines`'s
fallback when a page's text has no newlines). -/
def groupWords8 (ws : List (List Char)) : List (List Char) :=
  groupWords8Aux 0 [] ws

/-- `textToLines`. -/
def textToLines (text : List Char) : List (List Char) :=
  let baseLines :=
    ((jsSplitRuns (fun c => c = '\n') text).map trimStr).filter (fun l => l ≠ [])
  if baseLines.length > 1 then baseLines
  else
    let words :=
      (jsSplitChar ' ' (trimStr (collapseWs text))).filter (fun w => w ≠ [])
    if words = [] then [] else groupWords8 words

structure LayoutLine where
  text : List Char
  fontSize : ℚ
  indent : ℚ
deriving DecidableEq

structure PageText where
  pageNumber : Int
  text : List Char
  lines : List LayoutLine
  maxFontSize : ℚ
deriving DecidableEq

structure HeadingCandidate where
  page : Int
  title : List Char
  score : Int
deriving DecidableEq

/-- `layoutLinesForPage`. -/
def layoutLinesForPage (page : PageText) : List LayoutLine :=
  if page.lines ≠ [] then page.lines
  else (textToLines page.text).map (fun t => ⟨t, 0, 0⟩)

/-- Cross-page frequency table of normalized lines (`buildCommonLineSet`'s
counting map, in insertion order). -/
def lineCounts (pages : List PageText) : List (List Char × Nat) :=
  pages.foldl (fun m p =>
    ((layoutLinesForPage p).map LayoutLine.text).foldl (fun m line =>
      let n := normalizeLine line
      if n = [] || n.length < 4 then m else bumpAssoc m n) m) []

/-- `buildCommonLineSet`.  `Math.floor(pages.length * 0.25)` is exactly
`pages.length / 4` (0.25 is a dyadic rational). -/
def buildCommonLineSet (pages : List PageText) : List (List Char) :=
  let threshold := max 3 (pages.length / 4)
  (lineCounts pages).filterMap
    (fun kv => if kv.2 ≥ threshold then some kv.1 else none)

/-- `suppressLikelyHeaderFooter`. -/
def suppressLikelyHeaderFooter (lines : List (List Char))
    (common : List (List Char)) : List (List Char) :=
  lines.filter (fun line =>
    let trimmed := trimStr line
    trimmed ≠ [] && !testPureDigits trimmed && !testPageNum trimmed &&
      !common.contains (normalizeLine trimmed))

/-- `scoreHeadingCandidate`.  The letter-density test
`letters / chars > 0.55` is embedded as `letters * 20 > chars * 11`, and the
font-ratio thresholds `0.92` / `0.86` as exact rational comparisons. -/
def scoreHeadingCandidate (candidate : List Char) (common : List (List Char))
    (meta : Option LayoutLine) (pageMaxFont : ℚ) : Int :=
  let line := trimStr candidate
  if line = [] then -999
  else
    let letters := (line.filter isAsciiLetter).length
    let chars := if line.length = 0 then 1 else line.length
    (if testChapterNum line then 95 else 0) +
    (if testChapterRoman line then 90 else 0) +
    (if testRomanDot line then 58 else 0) +
    (if testNumberedSection line then 62 else 0) +
    (if testPart line then 55 else 0) +
    (if containsWordAt "table of contents".data false line then 20 else 0) +
    (if chars ≤ 80 && letters * 20 > chars * 11 then 18 else 0) +
    (if chars > 120 then -18 else 0) +
    (if testPureNumber line then -90 else 0) +
    (if common.contains (normalizeLine line) then -45 else 0) +
    (if testCopyright line then -40 else 0) +
    (match meta with
     | some m =>
       (if m.fontSize ≠ 0 ∧ pageMaxFont ≠ 0 then
          (if m.fontSize / pageMaxFont ≥ 92 / 100 then 24
           else if m.fontSize / pageMaxFont ≥ 86 / 100 then 12 else 0)
        else 0) +
       (if m.indent > 30 then -8 else 0)
     | none => 0)

/-- The candidate spans (1-line and adjacent 2-line) built per page by
`detectChapters`'s heading loop, with the layout metadata attached exactly as
the source attaches it (`layout[i] ?? null`, including its index
misalignment between suppressed lines and raw layout lines). -/
def pageCandidateSpans (p : PageText) (common : List (List Char)) :
    List (List Char × Option LayoutLine) :=
  let layout := layoutLinesForPage p
  let lines := (suppressLikelyHeaderFooter (layout.map LayoutLine.text) common).take 12
  (List.range lines.length).flatMap (fun i =>
    let one : List Char := lines.getD i []
    let oneC : List (List Char × Option LayoutLine) :=
      if one.isEmpty then [] else [(one, layout.get? i)]
    let two : List Char :=
      match layout.get? i, layout.get? (i + 1) with
      | some li, some lj => li.text ++ ' ' :: lj.text
      | _, _ =>
        if (lines.getD i []).isEmpty || (lines.getD (i + 1) []).isEmpty then []
        else lines.getD i [] ++ ' ' :: lines.getD (i + 1) []
    let twoC : List (List Char × Option LayoutLine) :=
      if two.isEmpty then [] else [(two, layout.get? i)]
    oneC ++ twoC)

/-- One step of the per-page best-candidate fold
(`!best || s > best.score`). -/
def bestStep (common : List (List Char)) (maxFont : ℚ)
    (best : Option (List Char × Int)) (c : List Char × Option LayoutLine) :
    Option (List Char × Int) :=
  let s := scoreHeadingCandidate c.1 common c.2 maxFont
  match best with
  | none => some (c.1, s)
  | some b => if s > b.2 then some (c.1, s) else some b

/-- The per-page best-candidate fold: keeps the first span attaining the
maximal score. -/
def bestSpan (common : List (List Char)) (maxFont : ℚ)
    (spans : List (List Char × Option LayoutLine)) :
    Option (List Char × Int) :=
  spans.foldl (bestStep common maxFont) none

/-- The heading candidate a page contributes (retained only when the best
score is at least 60). -/
def pageHeadingCandidate (common : List (List Char)) (p : PageText) :
    Option HeadingCandidate :=
  match bestSpan common p.maxFontSize (pageCandidateSpans p common) with
  | some (title, score) =>
    if score ≥ 60 then some ⟨p.pageNumber, cleanTitle title, score⟩ else none
  | none => none

def headingCandidatesOf (pages : List PageText) : List HeadingCandidate :=
  pages.filterMap (pageHeadingCandidate (buildCommonLineSet pages))

structure TocEntry where
  title : List Char
  page : Int
deriving DecidableEq

structure TocResult where
  tocPage : Int
  entries : List TocEntry
deriving DecidableEq

/-- `/\b\d{1,4}\s*$/.test(line)`: after stripping trailing whitespace the
line ends in a digit run of length 1 to 4 preceded by a non-word character
or the start of the line.  (A trailing run of five or more digits cannot
match: `\d{1,4}` takes at most four and no internal position is a `\b`.) -/
def endsPageRef (l : List Char) : Bool :=
  let r := l.reverse.dropWhile isJsSpace
  let d := r.takeWhile isDigit
  d ≠ [] && d.length ≤ 4 &&
    (match r.drop d.length with
     | [] => true
     | c :: _ => !isWordChar c)

/-- Validate the remainder of TOC pattern 1 after the lazy title:
`\.{2,}\s*(\d{1,4})\s*$`, returning the captured digits. -/
def tocDotsRest (rest : List Char) : Option (List Char) :=
  let dots := rest.takeWhile (fun c => c = '.')
  if dots.length ≥ 2 then
    let r1 := (rest.dropWhile (fun c => c = '.')).dropWhile isJsSpace
    let d := r1.takeWhile isDigit
    if d ≠ [] ∧ d.length ≤ 4 ∧ (r1.dropWhile isDigit).all isJsSpace then some d
    else none
  else none

/-- Validate the remainder of TOC pattern 2 after the lazy title:
`\s+(\d{1,4})\s*$`, returning the captured digits. -/
def tocWsRest (rest : List Char) : Option (List Char) :=
  if rest.takeWhile isJsSpace = [] then none
  else
    let r1 := rest.dropWhile isJsSpace
    let d := r1.takeWhile isDigit
    if d ≠ [] ∧ d.length ≤ 4 ∧ (r1.dropWhile isDigit).all isJsSpace then some d
    else none

/-- Fueled worker for `tocP1From` (the fuel bounds the remaining split
positions; callers pass `line.length`, which is always sufficient). -/
def tocP1Go (line : List Char) : Nat → Nat → Option (List Char × List Char)
  | 0, _ => none
  | fuel + 1, i =>
    if i < line.length then
      match tocDotsRest (line.drop i) with
      | some d => some (line.take i, d)
      | none => tocP1Go line fuel (i + 1)
    else none

/-- `^(.+?)\.{2,}\s*(\d{1,4})\s*$`: the lazy `.+?` makes the title the
shortest non-empty prefix whose remainder validates. -/
def tocP1From (line : List Char) : Option (List Char × List Char) :=
  tocP1Go line line.length 1

def tocP2Go (line : List Char) : Nat → Nat → Option (List Char × List Char)
  | 0, _ => none
  | fuel + 1, i =>
    if i < line.length then
      if !isDigit (line.getD (i - 1) '0') then
        match tocWsRest (line.drop i) with
        | some d => some (line.take i, d)
        | none => tocP2Go line fuel (i + 1)
      else tocP2Go line fuel (i + 1)
    else none

/-- `^(.+?\D)\s+(\d{1,4})\s*$`: the captured title is the shortest prefix of
length at least 2 ending in a non-digit whose remainder validates. -/
def tocP2From (line : List Char) : Option (List Char × List Char) :=
  tocP2Go line line.length 2

/-- Parse one TOC line: dot-leader pattern first, plain-whitespace pattern
second (the source's `||`). -/
def parseTocLine (line : List Char) : Option (List Char × List Char) :=
  match tocP1From line with
  | some r => some r
  | none => tocP2From line

def digitsToNat (d : List Char) : Nat :=
  d.foldl (fun n c => n * 10 + (c.toNat - 48)) 0

/-- The entry-collection loop of `detectTocEntries` over a page's lines. -/
def tocEntriesOfLines (lines : List (List Char)) : List TocEntry :=
  lines.filterMap (fun line =>
    match parseTocLine line with
    | none => none
    | some (rawTitle, d) =>
      let title := cleanTitle rawTitle
      let page : Int := digitsToNat d
      if title ≠ [] ∧ page ≥ 1 then some ⟨title, page⟩ else none)

/-- Whether a line contains the contents marker
(`/\btable of contents\b|\bcontents\b/i`). -/
def hasContentsMarker (l : List Char) : Bool :=
  containsWordAt "table of contents".data false l ||
  containsWordAt "contents".data false l

/-- The first (at most) 80 lines of a page, as `detectTocEntries` sees
them. -/
def tocLinesOf (p : PageText) : List (List Char) :=
  (textToLines p.text).take 80

/-- The full per-page TOC test of `detectTocEntries`: non-empty lines, a
contents marker, trailing-page-reference density of at least 18 %
(`count / max(1, lines) < 0.18` embedded as `50*count < 9*max(1, lines)`),
and at least three parsed entries. -/
def tocResultOfPage (p : PageText) : Option TocResult :=
  if (tocLinesOf p).isEmpty then none
  else if !(tocLinesOf p).any hasContentsMarker then none
  else if ((tocLinesOf p).countP endsPageRef) * 50 <
      9 * max 1 (tocLinesOf p).length then none
  else if (tocEntriesOfLines (tocLinesOf p)).length ≥ 3 then
    some ⟨p.pageNumber, tocEntriesOfLines (tocLinesOf p)⟩
  else none

/-- `detectTocEntries`: scan the first eight pages, returning the first
page whose TOC test succeeds. -/
def detectTocEntries (pages : List PageText) : Option TocResult :=
  (pages.take (min 8 pages.length)).findSome? tocResultOfPage

/-- `hay.includes(needle)`: substring containment. -/
def strIncludes (hay needle : List Char) : Bool :=
  match hay with
  | [] => decide (needle = [])
  | c :: t => decide ((c :: t).take needle.length = needle) || strIncludes t needle

/-- Stable insertion (descending by vote count) modelling the JS stable
`sort((a, b) => b[1] - a[1])`. -/
def insertDescByCount (x : Int × Nat) : List (Int × Nat) → List (Int × Nat)
  | [] => [x]
  | y :: ys => if x.2 ≥ y.2 then x :: y :: ys else y :: insertDescByCount x ys

def sortByCountDesc (l : List (Int × Nat)) : List (Int × Nat) :=
  l.foldr insertDescByCount []

/-- `inferTocOffset`. -/
def inferTocOffset (tocEntries : List TocEntry)
    (headingCandidates : List HeadingCandidate) : Int :=
  let deltas := tocEntries.foldl (fun m te =>
    headingCandidates.foldl (fun m hc =>
      let normToc := normalizeLine te.title
      let normHeading := normalizeLine hc.title
      if normToc ≠ [] ∧ normHeading ≠ [] ∧
          (strIncludes normHeading normToc || strIncludes normToc normHeading) = true then
        bumpAssoc m (hc.page - te.page)
      else m) m) []
  match sortByCountDesc deltas with
  | [] => 0
  | (d, _) :: _ => d

structure StartPoint where
  page : Int
  title : List Char
deriving DecidableEq

structure Chapter where
  index : Nat
  title : List Char
  startPage : Nat
  endPage : Nat
deriving DecidableEq

/-- `Math.max(1, Math.min(numPages, Math.floor(s.page)))`. -/
def clampPage (numPages : Nat) (p : Int) : Nat :=
  (max 1 (min (numPages : Int) p)).toNat

/-- One step of `new Map(pairs)`: an existing key keeps its position and
takes the new value, a new key is appended. -/
def insertPair (m : List (Nat × List Char)) (kv : Nat × List Char) :
    List (Nat × List Char) :=
  match m with
  | [] => [kv]
  | (k, v) :: rest =>
    if k = kv.1 then (k, kv.2) :: rest else (k, v) :: insertPair rest kv

def dedupeStarts (pairs : List (Nat × List Char)) : List (Nat × List Char) :=
  pairs.foldl insertPair []

/-- Insertion into a list sorted ascending by page. -/
def insertAscByPage (x : Nat × List Char) :
    List (Nat × List Char) → List (Nat × List Char)
  | [] => [x]
  | y :: ys => if x.1 ≤ y.1 then x :: y :: ys else y :: insertAscByPage x ys

def sortStartsAsc (l : List (Nat × List Char)) : List (Nat × List Char) :=
  l.foldr insertAscByPage []

/-- The chapter list built from the deduplicated, sorted start pages:
`startPage = page`, `endPage = max(startPage, min(nextStart - 1, numPages))`
(with `numPages + 1` standing in for the missing next start). -/
def chaptersOfSorted (numPages : Nat) (idx : Nat) :
    List (Nat × List Char) → List Chapter
  | [] => []
  | [(page, title)] =>
    [⟨idx, if title = [] then "Chapter ".data ++ (Nat.repr idx).data else title,
      page, max page (min (numPages + 1 - 1) numPages)⟩]
  | (page, title) :: (p2, t2) :: rest =>
    ⟨idx, if title = [] then "Chapter ".data ++ (Nat.repr idx).data else title,
      page, max page (min (p2 - 1) numPages)⟩ ::
      chaptersOfSorted numPages (idx + 1) ((p2, t2) :: rest)

/-- `toChaptersFromStarts`. -/
def toChaptersFromStarts (starts : List StartPoint) (numPages : Nat) :
    List Chapter :=
  let uniq := sortStartsAsc (dedupeStarts
    (starts.map (fun s => (clampPage numPages s.page, cleanTitle s.title))))
  if uniq.length < 2 then [⟨1, "Document".data, 1, numPages⟩]
  else chaptersOfSorted numPages 1 uniq

/-- `/^chapter\s+\d+/i` (legacy variant, no trailing `\b`). -/
def testChapterNumPrefix (s : List Char) : Bool :=
  lowerStr (s.take 7) = "chapter".data &&
  (let r := s.drop 7
   (r.takeWhile isJsSpace ≠ []) &&
   ((r.dropWhile isJsSpace).takeWhile isDigit ≠ []))

/-- `looksLikeHeadingLegacy`. -/
def looksLikeHeadingLegacy (s : List Char) : Bool :=
  let line := trimStr s
  line ≠ [] &&
    (testChapterNumPrefix line || testNumberedPrefix line ||
      (line.length ≤ 60 && upperStr line = line &&
        line.any (fun c => 'A' ≤ c && c ≤ 'Z')))

/-- The legacy fallback start points of `detectChapters`: the first
fourteen whitespace-split fields of each page (including an empty leading
field when the page text starts with whitespace, as `split(/\s+/)`
produces). -/
def legacyStarts (pages : List PageText) : List StartPoint :=
  pages.filterMap (fun p =>
    let firstChunk := trimStr (joinWith [' '] ((jsSplitRuns isJsSpace p.text).take 14))
    if looksLikeHeadingLegacy firstChunk then
      some ⟨p.pageNumber, cleanTitle firstChunk⟩
    else none)

/-- The TOC-derived start points: entries projected by the inferred global
offset, keeping only pages inside `[1, numPages]`. -/
def tocStartsOf (pages : List PageText) (numPages : Nat) : List StartPoint :=
  match detectTocEntries pages with
  | none => []
  | some t =>
    let offset := inferTocOffset t.entries (headingCandidatesOf pages)
    t.entries.filterMap (fun e =>
      let page := e.page + offset
      if 1 ≤ page ∧ page ≤ (numPages : Int) then some ⟨page, e.title⟩ else none)

/-- The chapter list of `detectChapters` before front-matter insertion:
TOC starts are primary when at least two survive projection, otherwise the
scored heading candidates; below two chapters the legacy pass is retried,
and below two again a single "Document" chapter covers everything. -/
def preChapters (pages : List PageText) (numPages : Nat) : List Chapter :=
  let tocStarts := tocStartsOf pages numPages
  let scoredStarts :=
    (headingCandidatesOf pages).map (fun c => StartPoint.mk c.page c.title)
  let sourceStarts := if tocStarts.length ≥ 2 then tocStarts else scoredStarts
  let c1 := toChaptersFromStarts sourceStarts numPages
  let c2 :=
    if c1.length < 2 then toChaptersFromStarts (legacyStarts pages) numPages
    else c1
  if c2.length < 2 then [⟨1, "Document".data, 1, numPages⟩] else c2

/-- Front-matter insertion: when the first chapter starts after page 1,
prepend a "Front Matter" chapter covering `[1, firstStart - 1]` and shift
every index up by one. -/
def insertFrontMatter (chapters : List Chapter) : List Chapter :=
  let firstStart := ((chapters.head?.map Chapter.startPage).getD 1)
  if firstStart > 1 then
    ⟨1, "Front Matter".data, 1, firstStart - 1⟩ ::
      chapters.map (fun c => { c with index := c.index + 1 })
  else chapters

/-- The full chapter-detection result (the pure core of `detectChapters`
after page extraction). -/
def detectChapters (pages : List PageText) (numPages : Nat) : List Chapter :=
  insertFrontMatter (preChapters pages numPages)

/-! ## Embedding of `src/lib/doc-type.ts` -/

inductive DocType where
  | book | report | paper | slides | manual | unknown
deriving DecidableEq

/-- Worker for `countWordFrom`: walks one character at a time; `skip > 0`
means that many characters of a previous match remain to be passed over
(the scan resumes after each match, so matches never overlap). -/
def countWordAux (w : List Char) (skip : Nat) (prevWord : Bool) :
    List Char → Nat
  | [] => 0
  | c :: rest =>
    if skip > 0 then countWordAux w (skip - 1) (isWordChar c) rest
    else if !prevWord && decide ((c :: rest).take w.length = w) &&
        boundaryAfterWord ((c :: rest).drop w.length) && decide (w ≠ []) then
      1 + countWordAux w (w.length - 1) (isWordChar c) rest
    else countWordAux w 0 (isWordChar c) rest

/-- Non-overlapping count of `/\bword\b/g` matches in a (pre-lowercased)
string. -/
def countWordFrom (w : List Char) (prevWord : Bool) (s : List Char) : Nat :=
  countWordAux w 0 prevWord s

/-- The match length of `step\s+\d+` at the head of `s` (0 when there is no
match). -/
def stepMatchLen (s : List Char) : Nat :=
  if lowerStr (s.take 4) = "step".data ∧
      (s.drop 4).takeWhile isJsSpace ≠ [] ∧
      ((s.drop 4).dropWhile isJsSpace).takeWhile isDigit ≠ [] ∧
      boundaryAfterWord
        (((s.drop 4).dropWhile isJsSpace).dropWhile isDigit) = true then
    4 + ((s.drop 4).takeWhile isJsSpace).length +
      (((s.drop 4).dropWhile isJsSpace).takeWhile isDigit).length
  else 0

/-- Worker for `/\bstep\s+\d+\b/g` match counting (skip-counter scan). -/
def countStepAux (skip : Nat) (prevWord : Bool) : List Char → Nat
  | [] => 0
  | c :: rest =>
    if skip > 0 then countStepAux (skip - 1) (isWordChar c) rest
    else if !prevWord && decide (stepMatchLen (c :: rest) > 0) then
      1 + countStepAux (stepMatchLen (c :: rest) - 1) (isWordChar c) rest
    else countStepAux 0 (isWordChar c) rest

/-- `/\bstep\s+\d+\b/g` match count. -/
def countStepN (prevWord : Bool) (s : List Char) : Nat :=
  countStepAux 0 prevWord s

/-- `countMatches(text, w) = number of word-boundary matches`. -/
def countWord (w : List Char) (s : List Char) : Nat := countWordFrom w false s

structure DocScores where
  book : Int
  report : Int
  paper : Int
  slides : Int
  manual : Int
deriving DecidableEq

structure DocTypeResult where
  docType : DocType
  scores : DocScores
deriving DecidableEq

/-- Bullet glyphs of the slides heuristic (`^[ \t]*[-*•●▪◦]`). -/
def isBulletGlyph (c : Char) : Bool :=
  c = '-' || c = '*' || c = '•' || c = '●' || c = '▪' || c = '◦'

def startsWithBullet (l : List Char) : Bool :=
  match l.dropWhile (fun c => c = ' ' || c = '\t') with
  | [] => false
  | c :: _ => isBulletGlyph c

/-- Stable insertion (descending by score) modelling the JS stable sort of
`Object.entries(scores)`; ties keep the fixed enumeration order. -/
def insertScoreDesc (x : DocType × Int) :
    List (DocType × Int) → List (DocType × Int)
  | [] => [x]
  | y :: ys => if x.2 ≥ y.2 then x :: y :: ys else y :: insertScoreDesc x ys

def sortScoresDesc (l : List (DocType × Int)) : List (DocType × Int) :=
  l.foldr insertScoreDesc []

/-- The per-archetype scores of `inferDocType`.  Ratio thresholds are
embedded as exact integer comparisons: `wordsPerPage < 90` as
`totalWords < 90 * headCount`, `shortLineRatio > 0.45` as
`20 * shortLines > 9 * lines`.  A `tocPageNumber` of 0 is falsy in the
source and disables the TOC sample. -/
def docScoresOf (pages : List PageText) (tocPageNumber : Option Int) :
    DocScores :=
  let headPages := pages.take 5
  let tocPage : Option PageText := match tocPageNumber with
    | some n =>
      if n = 0 then none
      else pages.find? (fun p => decide (p.pageNumber = n))
    | none => none
  let sample :=
    joinWith "\n\n".data
      ((headPages.map PageText.text) ++
        [(tocPage.map PageText.text).getD []])
  let text := lowerStr sample
  let totalWords :=
    (headPages.map (fun p => (tokens p.text).length)).sum
  let headCount := headPages.length
  let sampleLines :=
    ((jsSplitRuns (fun c => c = '\n') sample).map trimStr).filter (fun l => l ≠ [])
  let shortLines :=
    (sampleLines.filter (fun l => (jsSplitRuns isJsSpace l).length ≤ 6)).length
  let bulletCount :=
    ((jsSplitChar '\n' sample).filter startsWithBullet).length
  let bookScore : Int :=
    (countWord "table of contents".data text) * 3 +
    (countWord "contents".data text) +
    (countWord "chapter".data text) * 2 +
    ((countWord "prologue".data text) + (countWord "epilogue".data text)) * 2
  let paperScore : Int :=
    (countWord "abstract".data text) * 3 +
    ((countWord "references".data text) + (countWord "bibliography".data text)) * 2 +
    ((countWord "introduction".data text) + (countWord "methodology".data text) +
      (countWord "results".data text) + (countWord "discussion".data text))
  let reportScore : Int :=
    (countWord "executive summary".data text) * 3 +
    ((countWord "findings".data text) + (countWord "recommendations".data text) +
      (countWord "conclusion".data text)) * 2
  let manualScore : Int :=
    ((countWord "installation".data text) + (countWord "setup".data text) +
      (countWord "troubleshooting".data text) + (countWord "warning".data text)) * 2 +
    (countStepN false text) * 2
  let slidesScore : Int :=
    (if 0 < totalWords ∧ totalWords < 90 * headCount then 3 else 0) +
    (if 20 * shortLines > 9 * sampleLines.length then 2 else 0) +
    (if bulletCount ≥ 8 then 2 else 0)
  ⟨bookScore, reportScore, paperScore, slidesScore, manualScore⟩

/-- The selection step of `inferDocType`: sort the entries of the score
record (stable, descending) and pick the head, reporting "unknown" when the
winning score is below 2. -/
def docResultOfScores (scores : DocScores) : DocTypeResult :=
  let ordered := sortScoresDesc
    [(DocType.book, scores.book), (DocType.report, scores.report),
      (DocType.paper, scores.paper), (DocType.slides, scores.slides),
      (DocType.manual, scores.manual)]
  match ordered with
  | [] => ⟨DocType.unknown, scores⟩
  | (bestType, bestScore) :: _ =>
    if bestScore < 2 then ⟨DocType.unknown, scores⟩ else ⟨bestType, scores⟩

/-- `inferDocType`. -/
def inferDocType (pages : List PageText) (tocPageNumber : Option Int) :
    DocTypeResult :=
  docResultOfScores (docScoresOf pages tocPageNumber)

/-! ## Embedding of `src/app/api/render-chapter/route.ts` -/

/-- `raw.replace(/\r\n/g, "\n")`. -/
def replaceCRLF : List Char → List Char
  | [] => []
  | [c] => [c]
  | c :: d :: rest =>
    if c = '\x0d' ∧ d = '\n' then '\n' :: replaceCRLF rest
    else c :: replaceCRLF (d :: rest)

/-- `.replace(/\r/g, "\n")`. -/
def replaceCR (s : List Char) : List Char :=
  s.map (fun c => if c = '\x0d' then '\n' else c)

/-- `stripLikelyHeaderFooterLines`: a trimmed line of length at least 12
recurring in at least `max(3, floor(lines * 0.2))` lines is removed.
`floor(n * 0.2)` equals `n / 5` for every count arising here. -/
def stripLikelyHeaderFooterLines (lines : List (List Char)) : List (List Char) :=
  let counts := lines.foldl (fun m ln =>
    let s := trimStr ln
    if s = [] then m else bumpAssoc m s) []
  let threshold := max 3 (lines.length / 5)
  let bad := counts.filterMap (fun kv =>
    if kv.1.length ≥ 12 ∧ kv.2 ≥ threshold then some kv.1 else none)
  lines.filter (fun ln => !bad.contains (trimStr ln))

/-- Whether `-\n\w` follows the matched word character. -/
def dehyphTail (rest : List Char) : Bool :=
  match rest with
  | '-' :: '\n' :: b :: _ => isWordChar b
  | _ => false

/-- Worker for `dehyphenate` (skip-counter scan: a match emits the two word
characters and drops the hyphen-newline pair). -/
def dehyphAux (skip : Nat) : List Char → List Char
  | [] => []
  | c :: rest =>
    if skip > 0 then dehyphAux (skip - 1) rest
    else if isWordChar c && dehyphTail rest then
      c :: rest.getD 2 ' ' :: dehyphAux 3 rest
    else c :: dehyphAux 0 rest

/-- `t.replace(/(\w)-\n(\w)/g, "$1$2")`: non-overlapping left-to-right,
resuming after each match. -/
def dehyphenate (s : List Char) : List Char :=
  dehyphAux 0 s

/-- Worker for `collapseNewlines3`: `run` counts the pending newline run. -/
def collapseNl3Aux (run : Nat) : List Char → List Char
  | [] => if run ≥ 3 then ['\n', '\n'] else List.replicate run '\n'
  | c :: rest =>
    if c = '\n' then collapseNl3Aux (run + 1) rest
    else
      (if run ≥ 3 then ['\n', '\n'] else List.replicate run '\n') ++
        c :: collapseNl3Aux 0 rest

/-- `t.replace(/\n{3,}/g, "\n\n")`: maximal newline runs of length at least
three become exactly two. -/
def collapseNewlines3 (s : List Char) : List Char :=
  collapseNl3Aux 0 s

/-- Whether `\n[^\n]` follows the first matched character. -/
def joinNlTail (rest : List Char) : Bool :=
  match rest with
  | '\n' :: b :: _ => decide (b ≠ '\n')
  | _ => false

/-- Worker for `joinSingleNewlines` (skip-counter scan). -/
def joinNlAux (skip : Nat) : List Char → List Char
  | [] => []
  | c :: rest =>
    if skip > 0 then joinNlAux (skip - 1) rest
    else if decide (c ≠ '\n') && joinNlTail rest then
      c :: ' ' :: rest.getD 1 ' ' :: joinNlAux 2 rest
    else c :: joinNlAux 0 rest

/-- `t.replace(/([^\n])\n([^\n])/g, "$1 $2")`: the global scan resumes
after each matched triple, so of two newlines separated by a single
character only the first is joined (the second survives the pass). -/
def joinSingleNewlines (s : List Char) : List Char :=
  joinNlAux 0 s

/-- The bullet-glyph class of `cleanTextForAudio` (it includes U+FE0E, the
text variation selector, spelled in the source as part of `▪︎`). -/
def isBulletAudio (c : Char) : Bool :=
  c = '•' || c = '●' || c = '▪' || c = '︎' || c = '◦' || c = '·'

def replaceBullets (s : List Char) : List Char :=
  s.map (fun c => if isBulletAudio c then '-' else c)

/-- Whether `^\s*-\s+` matches at the head of `s`. -/
def itemMatches (s : List Char) : Bool :=
  match s.dropWhile isJsSpace with
  | '-' :: r2 => !(r2.takeWhile isJsSpace).isEmpty
  | _ => false

/-- The length of the `^\s*-\s+` match at the head of `s` (meaningful only
when `itemMatches s`). -/
def itemMatchLen (s : List Char) : Nat :=
  (s.takeWhile isJsSpace).length + 1 +
    (((s.dropWhile isJsSpace).drop 1).takeWhile isJsSpace).length

/-- Worker for `itemize`: `skip` passes over the remainder of a match;
`atLineStart` tracks whether the current position follows a newline (or is
the start of the string). -/
def itemizeAux (skip : Nat) (atLineStart : Bool) : List Char → List Char
  | [] => []
  | c :: rest =>
    if skip > 0 then itemizeAux (skip - 1) (c = '\n') rest
    else if atLineStart && itemMatches (c :: rest) then
      "Item: ".data ++ itemizeAux (itemMatchLen (c :: rest) - 1) (c = '\n') rest
    else c :: itemizeAux 0 (c = '\n') rest

/-- `t.replace(/^\s*-\s+/gm, "Item: ")`.  JavaScript `\s` includes newlines,
so the consumed run may span lines, and the resume position is a line start
exactly when the last consumed whitespace character was a newline (which the
per-character `atLineStart` tracking reproduces). -/
def itemize (s : List Char) : List Char :=
  itemizeAux 0 true s

/-- Worker for run-collapsing replaces: `runRev` holds the pending run
(reversed); runs of length at least 2 become one space, shorter runs are
kept verbatim. -/
def collapseRunAux (p : Char → Bool) (runRev : List Char) :
    List Char → List Char
  | [] => if runRev.length ≥ 2 then [' '] else runRev.reverse
  | c :: rest =>
    if p c then collapseRunAux p (c :: runRev) rest
    else
      (if runRev.length ≥ 2 then [' '] else runRev.reverse) ++
        c :: collapseRunAux p [] rest

/-- `t.replace(/[ \t]{2,}/g, " ")`: runs of two or more spaces/tabs become
one space; a lone tab survives. -/
def collapseSpaceTab2 (s : List Char) : List Char :=
  collapseRunAux (fun c => c = ' ' || c = '\t') [] s

/-- `.replace(/\s{2,}/g, " ")`. -/
def collapseWs2 (s : List Char) : List Char :=
  collapseRunAux isJsSpace [] s

/-- Worker for `bangCollapse`: `skipC = some k` drops further copies of the
repeated character `k`. -/
def bangAux (skipC : Option Char) : List Char → List Char
  | [] => []
  | c :: rest =>
    match skipC with
    | some k =>
      if c = k then bangAux (some k) rest
      else if c = '!' || c = '?' then c :: bangAux (some c) rest
      else c :: bangAux none rest
    | none =>
      if c = '!' || c = '?' then c :: bangAux (some c) rest
      else c :: bangAux none rest

/-- `([!?])\1+ → $1`: collapse a repeated `!` or `?` to one character. -/
def bangCollapse (s : List Char) : List Char :=
  bangAux none s

/-- Whether `/\bpat\b/i` matches at the head of `s` for a literal `pat`
(lowercase) that starts with a word character and ends with a non-word one
(`.` or `/`): the trailing `\b` demands a following word character, the
leading `\b` a preceding non-word character (checked by the caller). -/
def abbrevMatches (pat : List Char) (s : List Char) : Bool :=
  decide (pat ≠ []) && decide (lowerStr (s.take pat.length) = pat) &&
    (match s.drop pat.length with
     | [] => false
     | d :: _ => isWordChar d)

/-- Worker for `expandAbbrev`: skip-counter scan; the characters of a match
are consumed (not emitted) while `prevWord` keeps tracking the original
text's characters, as the JS engine does. -/
def expandAbbrevAux (pat rep : List Char) (skip : Nat) (prevWord : Bool) :
    List Char → List Char
  | [] => []
  | c :: rest =>
    if skip > 0 then expandAbbrevAux pat rep (skip - 1) (isWordChar c) rest
    else if !prevWord && abbrevMatches pat (c :: rest) then
      rep ++ expandAbbrevAux pat rep (pat.length - 1) (isWordChar c) rest
    else c :: expandAbbrevAux pat rep 0 (isWordChar c) rest

/-- Embedding of `.replace(/\bpat\b/gi, rep)` for the five abbreviation
rewrites of `audiobookPolish`. -/
def expandAbbrev (pat rep : List Char) (prevWord : Bool) (s : List Char) :
    List Char :=
  expandAbbrevAux pat rep 0 prevWord s

/-- `audiobookPolish`. -/
def audiobookPolish (t : List Char) : List Char :=
  let t1 := expandAbbrev "e.g.".data "for example".data false t
  let t2 := expandAbbrev "i.e.".data "that is".data false t1
  let t3 := expandAbbrev "vs.".data "versus".data false t2
  let t4 := expandAbbrev "w/".data "with".data false t3
  let t5 := expandAbbrev "etc.".data "etcetera".data false t4
  trimStr (collapseWs2 (bangCollapse t5))

/-- `cleanTextForAudio`. -/
def cleanTextForAudio (raw : List Char) : List Char :=
  let t0 := replaceCR (replaceCRLF raw)
  let lines0 := (jsSplitChar '\n' t0).map trimStr
  let lines1 := lines0.filter
    (fun l => l ≠ [] && !testPureDigits l && !testPageNum l)
  let lines2 := stripLikelyHeaderFooterLines lines1
  let t1 := joinWith ['\n'] lines2
  let t2 := dehyphenate t1
  let t3 := joinSingleNewlines (collapseNewlines3 t2)
  let t4 := replaceBullets t3
  let t5 := itemize t4
  let t6 := trimStr (collapseSpaceTab2 t5)
  audiobookPolish t6

/-- Accumulator of `splitToByteSafeParts`: completed parts and the running
buffer. -/
structure SplitAcc where
  out : List (List Char)
  cur : List Char
deriving DecidableEq

/-- `pushCur`. -/
def pushCur (st : SplitAcc) : SplitAcc :=
  let v := trimStr st.cur
  ⟨if v = [] then st.out else st.out ++ [v], []⟩

/-- The shared candidate/flush step (`candidate = cur ? cur + " " + u : u;
if it fits keep it, else flush and restart from `u`). -/
def addUnit (maxB : Nat) (st : SplitAcc) (u : List Char) : SplitAcc :=
  let candidate := if st.cur = [] then u else st.cur ++ ' ' :: u
  if utf8Len candidate ≤ maxB then ⟨st.out, candidate⟩
  else ⟨(pushCur st).out, u⟩

/-- Fueled worker for the inner shrinking loop (the loop strictly decreases
`n`, so `fuel = n` iterations always suffice). -/
def shrinkGo (maxB : Nat) (token : List Char) : Nat → Nat → Nat
  | 0, n => n
  | fuel + 1, n =>
    if n > 1 ∧ utf8Len (token.take n) > maxB then
      shrinkGo maxB token fuel (4 * n / 5)
    else n

/-- The inner shrinking loop: repeatedly scale the slice length by 0.8
(`Math.floor(sliceLen * 0.8)` is exactly `4 * n / 5` on the integers
arising here) while the prefix of that length still exceeds the budget. -/
def shrinkSliceLen (maxB : Nat) (token : List Char) (n : Nat) : Nat :=
  shrinkGo maxB token n n

/-- Fueled worker for the pathological-token loop (each iteration consumes
at least one character, so `fuel = token.length` suffices). -/
def splitLongGo (maxB : Nat) : Nat → SplitAcc → List Char → SplitAcc
  | 0, st, token => if token = [] then st else addUnit maxB st token
  | fuel + 1, st, token =>
    if utf8Len token > maxB then
      let sliceLen := shrinkSliceLen maxB token token.length
      let part := token.take (max 1 sliceLen)
      splitLongGo maxB fuel (addUnit maxB st part) (token.drop part.length)
    else if token = [] then st else addUnit maxB st token

/-- The pathological-token fallback of `splitToByteSafeParts` (the `while`
loop over `token` plus the final `if (token)` push). -/
def splitLongToken (maxB : Nat) (st : SplitAcc) (token : List Char) :
    SplitAcc :=
  splitLongGo maxB token.length st token

/-- The sentence splitter `/(?<=[.!?])\s+/`: a maximal whitespace run
preceded by `.`, `!` or `?` separates sentences.  `inDelim` marks that a
separator run is being consumed. -/
def sentSplitAux (inDelim : Bool) (acc : List Char) (prev : Char) :
    List Char → List (List Char)
  | [] => [acc.reverse]
  | c :: rest =>
    if inDelim && isJsSpace c then sentSplitAux true [] ' ' rest
    else if !inDelim && isJsSpace c &&
        (prev = '.' || prev = '!' || prev = '?') then
      acc.reverse :: sentSplitAux true [] ' ' rest
    else sentSplitAux false (c :: acc) c rest

def sentenceSplit (s : List Char) : List (List Char) :=
  sentSplitAux false [] '\x00' s

/-- One word of an oversized sentence: pathological split when the word
itself exceeds the budget, otherwise the shared candidate/flush step. -/
def wordStep (maxB : Nat) (st : SplitAcc) (w : List Char) : SplitAcc :=
  if utf8Len w > maxB then splitLongToken maxB st w
  else addUnit maxB st w

/-- One sentence of `splitToByteSafeParts`: taken whole when it fits,
otherwise split into whitespace tokens. -/
def sentenceStep (maxB : Nat) (st : SplitAcc) (sentence : List Char) :
    SplitAcc :=
  if utf8Len sentence ≤ maxB then addUnit maxB st sentence
  else (tokens sentence).foldl (wordStep maxB) st

/-- `splitToByteSafeParts`. -/
def splitToByteSafeParts (input : List Char) (maxBytes : Nat) :
    List (List Char) :=
  let text := trimStr input
  if text = [] then []
  else if utf8Len text ≤ maxBytes then [text]
  else
    let sentences := (sentenceSplit text).filter (fun x => x ≠ [])
    (pushCur (sentences.foldl (sentenceStep maxBytes) ⟨[], []⟩)).out

/-- Worker for the paragraph splitter: `inDelim` marks that a newline run
(which began with two adjacent newlines) is being consumed. -/
def paraSplitAux (inDelim : Bool) (acc : List Char) :
    List Char → List (List Char)
  | [] => [acc.reverse]
  | c :: rest =>
    if inDelim then
      if c = '\n' then paraSplitAux true [] rest
      else paraSplitAux false [c] rest
    else if c = '\n' && rest.head? = some '\n' then
      acc.reverse :: paraSplitAux true [] rest
    else paraSplitAux false (c :: acc) rest

/-- The paragraph splitter `/\n{2,}/g`: runs of two or more newlines
separate paragraphs (a single newline does not). -/
def paragraphSplit (s : List Char) : List (List Char) :=
  paraSplitAux false [] s

def paragraphsOf (text : List Char) : List (List Char) :=
  ((paragraphSplit text).map trimStr).filter (fun p => p ≠ [])

/-- `chunkText`'s flush. -/
def chunkFlush (st : List (List Char) × List Char) : List (List Char) :=
  if trimStr st.2 = [] then st.1 else st.1 ++ [trimStr st.2]

/-- One byte-safe part in `chunkText`'s greedy paragraph joining. -/
def chunkStep (maxBytes : Nat) (st : List (List Char) × List Char)
    (part : List Char) : List (List Char) × List Char :=
  let candidate :=
    if st.2 = [] then part else st.2 ++ '\n' :: '\n' :: part
  if utf8Len candidate ≤ maxBytes then (st.1, candidate)
  else (chunkFlush st, part)

/-- One paragraph in `chunkText`: its byte-safe parts folded in order. -/
def chunkParaStep (maxBytes : Nat) (st : List (List Char) × List Char)
    (p : List Char) : List (List Char) × List Char :=
  (splitToByteSafeParts p maxBytes).foldl (chunkStep maxBytes) st

/-- `chunkText` (the plain-text byte-bounded chunker). -/
def chunkText (text : List Char) (maxBytes : Nat) : List (List Char) :=
  chunkFlush ((paragraphsOf text).foldl (chunkParaStep maxBytes) ([], []))

/-- `/[.!?]["')\]]*$/.test(tok)`. -/
def hasBoundaryTok (tok : List Char) : Bool :=
  match tok.reverse.dropWhile
      (fun c => c = '"' || c = '\'' || c = ')' || c = ']') with
  | c :: _ => c = '.' || c = '!' || c = '?'
  | [] => false

/-- The token walk of `forceSentenceBoundaries`. -/
def fsbGo (maxW : Nat) (count : Nat) (toks : List (List Char)) :
    List (List Char) :=
  match toks with
  | [] => []
  | t :: rest =>
    if hasBoundaryTok t then t :: fsbGo maxW 0 rest
    else if count + 1 ≥ maxW then t :: ['.'] :: fsbGo maxW 0 rest
    else t :: fsbGo maxW (count + 1) rest

def isPunctSsml (c : Char) : Bool :=
  c = '.' || c = '!' || c = '?' || c = ',' || c = ';' || c = ':'

/-- Whether `\s+[.!?,;:]` matches at the head of `s`. -/
def wsPunctMatches (s : List Char) : Bool :=
  match s with
  | c :: _ =>
    isJsSpace c &&
      (match s.dropWhile isJsSpace with
       | p :: _ => isPunctSsml p
       | [] => false)
  | [] => false

/-- Worker for `removeWsBeforePunct` (skip-counter scan: the whitespace run
is dropped, the punctuation character emitted, and the scan resumes after
it). -/
def rwbpAux (skip : Nat) : List Char → List Char
  | [] => []
  | c :: rest =>
    if skip > 0 then rwbpAux (skip - 1) rest
    else if wsPunctMatches (c :: rest) then
      ((c :: rest).dropWhile isJsSpace).headD ' ' ::
        rwbpAux ((c :: rest).takeWhile isJsSpace).length rest
    else c :: rwbpAux 0 rest

/-- `.replace(/\s+([.!?,;:])/g, "$1")`. -/
def removeWsBeforePunct (s : List Char) : List Char :=
  rwbpAux 0 s

/-- `forceSentenceBoundaries`. -/
def forceSentenceBoundaries (text : List Char) (maxWords : Nat) : List Char :=
  let toks := tokens text
  if toks = [] then []
  else trimStr (removeWsBeforePunct (joinWith [' '] (fsbGo maxWords 0 toks)))

def replAll (c : Char) (rep : List Char) (s : List Char) : List Char :=
  s.flatMap (fun x => if x = c then rep else [x])

/-- `escapeSsmlText` (sequential global replaces, `&` first). -/
def escapeSsmlText (t : List Char) : List Char :=
  replAll '\'' "&apos;".data (replAll '"' "&quot;".data
    (replAll '>' "&gt;".data (replAll '<' "&lt;".data
      (replAll '&' "&amp;".data t))))

/-- The `<s>`-wrapped sentence pieces of one paragraph. -/
def ssmlSentences (p : List Char) : List (List Char) :=
  ((sentenceSplit (forceSentenceBoundaries p 28)).map trimStr).filter
    (fun x => x ≠ [])

/-- `buildSsmlFromParagraphs`. -/
def buildSsmlFromParagraphs (paragraphs : List (List Char)) : List Char :=
  let paraSsml := (paragraphs.map (fun p =>
    let bits := joinWith []
      ((ssmlSentences p).map
        (fun x => "<s>".data ++ escapeSsmlText x ++ "</s>".data))
    if bits = [] then ([] : List Char) else "<p>".data ++ bits ++ "</p>".data)).filter
    (fun x => x ≠ [])
  "<speak>".data ++ joinWith "<break time=\"250ms\"/>".data paraSsml ++
    "</speak>".data

/-- `chunkTextToSsml`'s flush: guard, then push. -/
def ssmlFlush (maxB : Nat) (chunks : List (List Char))
    (cur : List (List Char)) : Except (List Char) (List (List Char)) :=
  if cur = [] then Except.ok chunks
  else
    let ssml := buildSsmlFromParagraphs cur
    if utf8Len ssml > maxB then
      Except.error "Internal chunking error: generated SSML exceeds max bytes".data
    else Except.ok (chunks ++ [ssml])

/-- One paragraph of `chunkTextToSsml`'s atom-building pass: normalized,
kept whole when its solo SSML fits, otherwise split to 1200-byte-safe
trimmed parts. -/
def ssmlAtomStep (maxSsmlBytes : Nat) (acc : List (List Char))
    (p : List Char) : List (List Char) :=
  let normalized := forceSentenceBoundaries p 28
  if normalized = [] then acc
  else if utf8Len (buildSsmlFromParagraphs [normalized]) ≤ maxSsmlBytes then
    acc ++ [normalized]
  else
    acc ++ ((splitToByteSafeParts normalized 1200).filterMap
      (fun part => if trimStr part = [] then none else some (trimStr part)))

/-- One atom paragraph of `chunkTextToSsml`'s packing pass: grow the
current group while its SSML fits, otherwise flush and restart (erroring
when a single atom's SSML already exceeds the budget). -/
def ssmlStep (maxSsmlBytes : Nat)
    (st : List (List Char) × List (List Char)) (p : List Char) :
    Except (List Char) (List (List Char) × List (List Char)) :=
  let candidate := st.2 ++ [p]
  if utf8Len (buildSsmlFromParagraphs candidate) ≤ maxSsmlBytes then
    Except.ok (st.1, candidate)
  else
    match ssmlFlush maxSsmlBytes st.1 st.2 with
    | Except.error e => Except.error e
    | Except.ok chunks =>
      if utf8Len (buildSsmlFromParagraphs [p]) > maxSsmlBytes then
        Except.error
          "Internal chunking error: single paragraph exceeds SSML byte budget".data
      else Except.ok (chunks, [p])

/-- `chunkTextToSsml` (default budget 4800): throwing branches are modelled
as `Except.error`. -/
def chunkTextToSsml (text : List Char) (maxSsmlBytes : Nat) :
    Except (List Char) (List (List Char)) :=
  match ((paragraphsOf text).foldl (ssmlAtomStep maxSsmlBytes) []).foldlM
    (ssmlStep maxSsmlBytes)
    (([], []) : List (List Char) × List (List Char)) with
  | Except.error e => Except.error e
  | Except.ok st => ssmlFlush maxSsmlBytes st.1 st.2

/-! ## Definitions supporting the claim statements -/

/-- The partition check of the claim: traversing the chapter list with the
expected start page and expected index, each chapter must carry the
expected 1-based index, start at the expected page, satisfy
`startPage ≤ endPage`, chain `next.startPage = prev.endPage + 1`, and the
last chapter must end at `numPages`.  `chaptersPartition numPages cs` asks
this from page 1 and index 1; it entails that chapters are sorted by
`startPage` ascending and cover `1..numPages` with no gaps or overlaps. -/
def chainFrom (numPages : Nat) (expStart expIdx : Nat) : List Chapter → Bool
  | [] => false
  | [c] =>
    decide (c.index = expIdx) && decide (c.startPage = expStart) &&
      decide (c.startPage ≤ c.endPage) && decide (c.endPage = numPages)
  | c :: c2 :: rest =>
    decide (c.index = expIdx) && decide (c.startPage = expStart) &&
      decide (c.startPage ≤ c.endPage) &&
      chainFrom numPages (c.endPage + 1) (expIdx + 1) (c2 :: rest)

def chaptersPartition (numPages : Nat) (cs : List Chapter) : Bool :=
  chainFrom numPages 1 1 cs

/-- The conjunction of the four per-page conditions of `detectTocEntries`:
non-empty line list, whole-word contents marker, trailing-digit-line
density of at least 18 %, and at least three parsed entries. -/
def tocQualifies (p : PageText) : Bool :=
  !(tocLinesOf p).isEmpty && (tocLinesOf p).any hasContentsMarker &&
    decide (9 * max 1 (tocLinesOf p).length ≤
      ((tocLinesOf p).countP endsPageRef) * 50) &&
    decide (3 ≤ (tocEntriesOfLines (tocLinesOf p)).length)

/-- The highest archetype score. -/
def maxScoreOf (s : DocScores) : Int :=
  max s.book (max s.report (max s.paper (max s.slides s.manual)))

/-- Modelled from the spec's words: the first label in the fixed order
(book, report, paper, slides, manual) attaining the highest score. -/
def firstArgmax (s : DocScores) : DocType :=
  if s.book = maxScoreOf s then DocType.book
  else if s.report = maxScoreOf s then DocType.report
  else if s.paper = maxScoreOf s then DocType.paper
  else if s.slides = maxScoreOf s then DocType.slides
  else DocType.manual

/-- Modelled from the spec's words: "Pick the archetype with the highest
score; if the winning score < 2, report unknown.  Ties broken by
first-encountered order in a fixed enumeration." -/
def specDocChoice (s : DocScores) : DocType :=
  if maxScoreOf s < 2 then DocType.unknown else firstArgmax s

/-- The first element of `x :: l` attaining the maximal key (ties keep the
earlier element). -/
def firstMaxElem (x : DocType × Int) (l : List (DocType × Int)) :
    DocType × Int :=
  match l with
  | [] => x
  | y :: ys => if x.2 ≥ (firstMaxElem y ys).2 then x else firstMaxElem y ys

def scenarioEInput : List Char := "see p. 12 (Fig. 3) — e.g., cats, etc.".data

def scenarioEClaimed : List Char :=
  "see p. 12 (Fig. 3) - for example, cats, etcetera.".data

def c4Input : List Char := "a\nb\nc".data

def isErrorResult : Except (List Char) (List (List Char)) → Bool
  | Except.error _ => true
  | Except.ok _ => false

/-- A concrete input whose first page is a dense table of contents with
three dotted entries, used to exercise the TOC-priority path. -/
def tocDemoPages : List PageText :=
  [⟨1, "Table of Contents\nIntroduction .......... 3\nMethods .......... 10\nResults .......... 20".data, [], 0⟩,
   ⟨2, "x".data, [], 0⟩, ⟨3, "Introduction".data, [], 0⟩,
   ⟨4, "y".data, [], 0⟩]

/-- Modelled from the spec's words: the heading score as an ordered list of
independent predicate-to-weight rules ("`^chapter \d+` -> +95" and so on),
each contributing its weight when its predicate holds. -/
def specHeadingRules (line : List Char) (common : List (List Char))
    (meta : Option LayoutLine) (pageMaxFont : ℚ) : List Int :=
  [(if testChapterNum line then 95 else 0),
   (if testChapterRoman line then 90 else 0),
   (if testRomanDot line then 58 else 0),
   (if testNumberedSection line then 62 else 0),
   (if testPart line then 55 else 0),
   (if containsWordAt "table of contents".data false line then 20 else 0),
   (if line.length ≤ 80 ∧
       (line.filter isAsciiLetter).length * 20 > line.length * 11
    then 18 else 0),
   (if line.length > 120 then -18 else 0),
   (if testPureNumber line then -90 else 0),
   (if common.contains (normalizeLine line) then -45 else 0),
   (if testCopyright line then -40 else 0),
   (match meta with
    | some m =>
      if m.fontSize ≠ 0 ∧ pageMaxFont ≠ 0 ∧ m.fontSize / pageMaxFont ≥ 92 / 100
      then 24 else 0
    | none => 0),
   (match meta with
    | some m =>
      if m.fontSize ≠ 0 ∧ pageMaxFont ≠ 0 ∧
          ¬(m.fontSize / pageMaxFont ≥ 92 / 100) ∧
          m.fontSize / pageMaxFont ≥ 86 / 100 then 12 else 0
    | none => 0),
   (match meta with
    | some m => if m.indent > 30 then -8 else 0
    | none => 0)]

/-- Modelled from the spec's words: the sum of the ordered rule list. -/
def specHeadingScore (line : List Char) (common : List (List Char))
    (meta : Option LayoutLine) (pageMaxFont : ℚ) : Int :=
  (specHeadingRules line common meta pageMaxFont).sum

/-- The byte invariant carried through the splitter's accumulator: every
finished part and the part under construction fit the budget. -/
def accBytesOk (maxB : Nat) (st : SplitAcc) : Prop :=
  (∀ x ∈ st.out, utf8Len x ≤ maxB) ∧ utf8Len st.cur ≤ maxB

/-- The concatenated whitespace-token sequence of a list of pieces. -/
def catTokens (ls : List (List Char)) : List (List Char) :=
  ls.flatMap tokens

/-- No two adjacent characters form a `bad` pair. -/
def noAdjPair (bad : Char → Char → Bool) : List Char → Bool
  | [] => true
  | [_] => true
  | a :: b :: r => !bad a b && noAdjPair bad (b :: r)

/-- No two adjacent whitespace characters. -/
def noDoubleWs (s : List Char) : Bool :=
  noAdjPair (fun a b => isJsSpace a && isJsSpace b) s

/-- No `!!` or `??` pair (what `bangCollapse` eliminates). -/
def noDupBang (s : List Char) : Bool :=
  noAdjPair (fun a b => (a = '!' || a = '?') && decide (b = a)) s

/-- The character class a `/^page\s+\d+$/i` match is built from: the four
letters of "page" in either case, digits, and whitespace. -/
def inPageClass (c : Char) : Bool :=
  c = 'p' || c = 'a' || c = 'g' || c = 'e' ||
  c = 'P' || c = 'A' || c = 'G' || c = 'E' ||
  isDigit c || isJsSpace c

/-- No position of the string matches `/\bpat\b/i` (the scan-level absence
of abbreviation matches): `pw` is the word-character status of the previous
character, as `expandAbbrevAux` tracks it. -/
def noAbbrev (pat : List Char) : Bool → List Char → Bool
  | _, [] => true
  | pw, c :: rest =>
    (pw || !abbrevMatches pat (c :: rest)) && noAbbrev pat (isWordChar c) rest

/-- Head shape under which `/^\s*-\s+/` cannot match: a non-whitespace head
that is not `-`, or a `-` followed by nothing or a non-whitespace
character. -/
def itemSafe (s : List Char) : Prop :=
  ∃ c Z, s = c :: Z ∧ isJsSpace c = false ∧
    (c ≠ '-' ∨ Z = [] ∨ ∃ d Z2, Z = d :: Z2 ∧ isJsSpace d = false)


/-! ## Claim C10: `inferTocOffset` defaults to 0 -/

theorem foldl_fixed {α β : Type} (f : β → α → β) (l : List α) (b : β)
    (h : ∀ acc, ∀ x ∈ l, f acc x = acc) : l.foldl f b = b := by
  induction l generalizing b with
  | nil => rfl
  | cons x xs ih =>
    rw [List.foldl_cons, h b x (by simp)]
    exact ih b (fun acc y hy => h acc y (by simp [hy]))

/-- C10: if no (TocEntry, HeadingCandidate) pair has normalized titles that
are substrings of one another (in particular when either list is empty),
`inferTocOffset` returns 0, and hence every TOC-printed page number is
projected unchanged (`page + offset = page`). -/
theorem inferTocOffset_zero_of_no_match
    (tocEntries : List TocEntry) (headingCandidates : List HeadingCandidate)
    (hnone : ∀ te ∈ tocEntries, ∀ hc ∈ headingCandidates,
      (strIncludes (normalizeLine hc.title) (normalizeLine te.title) ||
       strIncludes (normalizeLine te.title) (normalizeLine hc.title)) = false) :
    inferTocOffset tocEntries headingCandidates = 0 ∧
    ∀ te ∈ tocEntries,
      te.page + inferTocOffset tocEntries headingCandidates = te.page := by
  have hfold :
      tocEntries.foldl (fun m te =>
        headingCandidates.foldl (fun m hc =>
          let normToc := normalizeLine te.title
          let normHeading := normalizeLine hc.title
          if normToc ≠ [] ∧ normHeading ≠ [] ∧
              (strIncludes normHeading normToc ||
               strIncludes normToc normHeading) = true then
            bumpAssoc m (hc.page - te.page)
          else m) m) ([] : List (Int × Nat)) = [] := by
    apply foldl_fixed
    intro acc te hte
    apply foldl_fixed
    intro acc2 hc hhc
    simp only
    rw [if_neg]
    rintro ⟨-, -, hinf⟩
    rw [hnone te hte hc hhc] at hinf
    exact Bool.false_ne_true hinf
  have hzero : inferTocOffset tocEntries headingCandidates = 0 := by
    unfold inferTocOffset
    rw [hfold]
    rfl
  refine ⟨hzero, fun te _ => ?_⟩
  rw [hzero, Int.add_zero]

/-- Closed witness for C10 at a concrete input. -/
theorem inferTocOffset_zero_of_no_match_witness :
    (∀ te ∈ [TocEntry.mk "Alpha".data 3],
      ∀ hc ∈ [HeadingCandidate.mk 7 "Zebra".data 80],
      (strIncludes (normalizeLine hc.title) (normalizeLine te.title) ||
       strIncludes (normalizeLine te.title) (normalizeLine hc.title)) = false) ∧
    inferTocOffset [TocEntry.mk "Alpha".data 3]
      [HeadingCandidate.mk 7 "Zebra".data 80] = 0 :=
  ⟨by decide,
   (inferTocOffset_zero_of_no_match [TocEntry.mk "Alpha".data 3]
     [HeadingCandidate.mk 7 "Zebra".data 80] (by decide)).1⟩

/-! ## Claim C9: the document-type selection rule -/

theorem sortScoresDesc_cons (x : DocType × Int) (l : List (DocType × Int)) :
    ∃ tl, sortScoresDesc (x :: l) = firstMaxElem x l :: tl := by
  induction l generalizing x with
  | nil => exact ⟨[], rfl⟩
  | cons y ys ih =>
    have hstep : sortScoresDesc (x :: y :: ys) =
        insertScoreDesc x (sortScoresDesc (y :: ys)) := rfl
    rcases ih y with ⟨tl, htl⟩
    rw [hstep, htl]
    by_cases hc : x.2 ≥ (firstMaxElem y ys).2
    · refine ⟨firstMaxElem y ys :: tl, ?_⟩
      simp [insertScoreDesc, hc, firstMaxElem]
    · refine ⟨insertScoreDesc x tl, ?_⟩
      simp [insertScoreDesc, hc, firstMaxElem]

set_option maxHeartbeats 2000000 in
set_option maxRecDepth 4000 in
theorem firstMaxElem_scores (s : DocScores) :
    firstMaxElem (DocType.book, s.book)
      [(DocType.report, s.report), (DocType.paper, s.paper),
        (DocType.slides, s.slides), (DocType.manual, s.manual)] =
    (firstArgmax s, maxScoreOf s) := by
  rcases s with ⟨b, r, p, sl, m⟩
  simp only [firstMaxElem, firstArgmax, maxScoreOf]
  split_ifs <;>
    refine Prod.ext ?_ ?_ <;> simp only [] <;> first | rfl | omega

/-- C9: the classifier reports "unknown" exactly when the highest archetype
score is below 2; otherwise it reports the highest-scoring archetype, ties
resolved toward the earlier label in the fixed order (book, report, paper,
slides, manual) — i.e. the selection coincides with the spec-modelled
`specDocChoice` on the returned score record. -/
theorem inferDocType_selection (pages : List PageText)
    (tocPageNumber : Option Int) :
    (inferDocType pages tocPageNumber).docType =
      specDocChoice (inferDocType pages tocPageNumber).scores ∧
    ((inferDocType pages tocPageNumber).docType = DocType.unknown ↔
      maxScoreOf (inferDocType pages tocPageNumber).scores < 2) := by
  have hmain : ∀ s : DocScores,
      (docResultOfScores s).docType = specDocChoice s ∧
      (docResultOfScores s).scores = s := by
    intro s
    unfold docResultOfScores
    rcases sortScoresDesc_cons (DocType.book, s.book)
      [(DocType.report, s.report), (DocType.paper, s.paper),
        (DocType.slides, s.slides), (DocType.manual, s.manual)] with ⟨tl, htl⟩
    rw [firstMaxElem_scores s] at htl
    simp only [htl]
    unfold specDocChoice
    by_cases hlt : maxScoreOf s < 2
    · simp [hlt]
    · simp [hlt]
  have h1 := (hmain (docScoresOf pages tocPageNumber)).1
  have h2 := (hmain (docScoresOf pages tocPageNumber)).2
  have hid : inferDocType pages tocPageNumber =
      docResultOfScores (docScoresOf pages tocPageNumber) := rfl
  constructor
  · rw [hid, h1, h2]
  · rw [hid, h1, h2]
    unfold specDocChoice
    by_cases hlt : maxScoreOf (docScoresOf pages tocPageNumber) < 2
    · simp [hlt]
    · simp only [if_neg hlt]
      constructor
      · intro hcon
        unfold firstArgmax at hcon
        split_ifs at hcon <;> simp_all
      · intro hcon
        exact absurd hcon hlt

/-! ## Claim C5: the Scenario E normalization -/

/-- C5 counterexample: the Audio Text Normalizer does not produce the
output the claim states for Scenario E. -/
theorem cleanTextForAudio_scenarioE_fails :
    cleanTextForAudio scenarioEInput ≠ scenarioEClaimed := by decide

/-- C5 (amended): on the Scenario E input the normalizer returns the input
unchanged.  The `\b` that closes each abbreviation pattern sits after the
final `.`; in JavaScript a boundary between `.` and a following comma,
space, or end of input does not exist, so neither `e.g.` nor `etc.` is
expanded, and the em-dash is not in the bullet-glyph class, so it is not
rewritten to `-`. -/
theorem cleanTextForAudio_scenarioE_unchanged :
    cleanTextForAudio scenarioEInput = scenarioEInput := by decide

/-! ## Claim C4 counterexample: `cleanTextForAudio` is not idempotent -/

/-- C4 counterexample: the global replace of `([^\n])\n([^\n])` resumes
after each match and therefore skips alternating newlines ("a\nb\nc"
becomes "a b\nc"); a second application joins the surviving newline, so
applying the normalizer twice is not the same as applying it once. -/
theorem cleanTextForAudio_not_idempotent :
    cleanTextForAudio (cleanTextForAudio c4Input) ≠ cleanTextForAudio c4Input := by
  decide

/-! ## Claim C3 counterexample: token sequence not always preserved -/

/-- C3 counterexample: with a budget smaller than a word, the
character-level fallback splits the word across parts, and the
whitespace-separated token sequence of the emitted chunks differs from the
input's ("aaaa" with budget 2 yields chunks "aa", "aa"). -/
theorem chunkText_tokens_not_preserved :
    tokens (joinWith [' '] (chunkText "aaaa".data 2)) ≠ tokens "aaaa".data := by
  decide

/-! ## Claim C2 counterexample: the error branches are reachable -/

/-- C2 counterexample: (1) the "single paragraph exceeds SSML byte budget"
branch of `chunkTextToSsml` is reachable — five apostrophe-like `&`
characters under budget 20 survive `splitToByteSafeParts` intact (5 bytes ≤
1200) but escape to 30 bytes of `&amp;` plus 29 bytes of tags; (2)
`splitToByteSafeParts` emits a part above the budget when the budget is
smaller than a single character. -/
theorem chunkTextToSsml_error_reachable :
    isErrorResult (chunkTextToSsml "&&&&&".data 20) = true ∧
    splitToByteSafeParts "a".data 0 = ["a".data] ∧
    ¬ utf8Len "a".data ≤ 0 := by decide

/-! ## Claim C6: the TOC page selection rule -/

theorem tocResultOfPage_some_iff (p : PageText) (r : TocResult) :
    tocResultOfPage p = some r ↔
      tocQualifies p = true ∧
      r = ⟨p.pageNumber, tocEntriesOfLines (tocLinesOf p)⟩ := by
  constructor
  · intro h
    unfold tocResultOfPage at h
    split_ifs at h with h1 h2 h3 h4
    all_goals try exact Option.noConfusion h
    refine ⟨?_, ?_⟩
    · unfold tocQualifies
      simp only [Bool.and_eq_true, Bool.not_eq_true', decide_eq_true_eq]
      refine ⟨⟨⟨?_, ?_⟩, ?_⟩, h4⟩
      · cases hcase : (tocLinesOf p).isEmpty
        · rfl
        · exact absurd hcase h1
      · cases hcase : (tocLinesOf p).any hasContentsMarker
        · exact absurd (by simp [hcase]) h2
        · rfl
      · omega
    · injection h with h5
      exact h5.symm
  · rintro ⟨hq, rfl⟩
    unfold tocQualifies at hq
    simp only [Bool.and_eq_true, Bool.not_eq_true', decide_eq_true_eq] at hq
    obtain ⟨⟨⟨hne, hmark⟩, hdens⟩, hlen⟩ := hq
    unfold tocResultOfPage
    rw [if_neg (by simp [hne]), if_neg (by simp [hmark]),
      if_neg (by omega), if_pos hlen]

theorem tocResultOfPage_none_iff (p : PageText) :
    tocResultOfPage p = none ↔ tocQualifies p = false := by
  constructor
  · intro h
    by_contra hq
    have hqt : tocQualifies p = true := by
      cases hcase : tocQualifies p
      · exact absurd hcase hq
      · rfl
    have : tocResultOfPage p =
        some ⟨p.pageNumber, tocEntriesOfLines (tocLinesOf p)⟩ :=
      (tocResultOfPage_some_iff p _).mpr ⟨hqt, rfl⟩
    rw [this] at h
    exact Option.noConfusion h
  · intro h
    cases hcase : tocResultOfPage p with
    | none => rfl
    | some r =>
      have := ((tocResultOfPage_some_iff p r).mp hcase).1
      rw [h] at this
      exact Bool.noConfusion this

theorem findSome?_none_of_all {α β : Type} (f : α → Option β) (l : List α)
    (h : ∀ a ∈ l, f a = none) : l.findSome? f = none := by
  induction l with
  | nil => rfl
  | cons x xs ih =>
    rw [List.findSome?_cons, h x (by simp)]
    exact ih (fun a ha => h a (by simp [ha]))

theorem findSome?_some_first {α β : Type} (f : α → Option β) (l : List α)
    (b : β) (h : l.findSome? f = some b) :
    ∃ i, ∃ hi : i < l.length, f (l.get ⟨i, hi⟩) = some b ∧
      ∀ j, ∀ hj : j < l.length, j < i → f (l.get ⟨j, hj⟩) = none := by
  induction l with
  | nil => simp [List.findSome?] at h
  | cons x xs ih =>
    rw [List.findSome?_cons] at h
    cases hfx : f x with
    | some b2 =>
      rw [hfx] at h
      refine ⟨0, by simp, ?_, ?_⟩
      · simpa [hfx] using h
      · intro j hj hji
        omega
    | none =>
      rw [hfx] at h
      rcases ih h with ⟨i, hi, hfi, hprev⟩
      refine ⟨i + 1, by simpa using Nat.succ_lt_succ hi, ?_, ?_⟩
      · simpa using hfi
      · intro j hj hji
        cases j with
        | zero => simpa using hfx
        | succ j0 =>
          have hj0 : j0 < xs.length := by
            simp at hj
            omega
          have : j0 < i := by omega
          simpa using hprev j0 hj0 this

/-- C6: `detectTocEntries` returns a TOC page only from among the first 8
pages, only when that page's (at most 80) lines contain a whole-word
contents marker, have at least 18 % of lines ending in a 1–4-digit run, and
parse to at least 3 entries; the first page in scan order satisfying all
conditions is returned (no earlier page qualifies), and when no page of the
first eight qualifies — in particular when a page merely mentions the
marker with a low trailing-digit density — no TOC is returned. -/
theorem detectTocEntries_selection (pages : List PageText) :
    (∀ r, detectTocEntries pages = some r →
      ∃ i, ∃ hi : i < (pages.take (min 8 pages.length)).length,
        tocQualifies ((pages.take (min 8 pages.length)).get ⟨i, hi⟩) = true ∧
        r.tocPage =
          ((pages.take (min 8 pages.length)).get ⟨i, hi⟩).pageNumber ∧
        r.entries = tocEntriesOfLines
          (tocLinesOf ((pages.take (min 8 pages.length)).get ⟨i, hi⟩)) ∧
        (tocLinesOf ((pages.take (min 8 pages.length)).get ⟨i, hi⟩)).any
          hasContentsMarker = true ∧
        9 * max 1
            (tocLinesOf ((pages.take (min 8 pages.length)).get ⟨i, hi⟩)).length ≤
          ((tocLinesOf ((pages.take (min 8 pages.length)).get ⟨i, hi⟩)).countP
            endsPageRef) * 50 ∧
        3 ≤ r.entries.length ∧
        (∀ j, ∀ hj : j < (pages.take (min 8 pages.length)).length, j < i →
          tocQualifies ((pages.take (min 8 pages.length)).get ⟨j, hj⟩) = false)) ∧
    ((∀ p ∈ pages.take (min 8 pages.length), tocQualifies p = false) →
      detectTocEntries pages = none) := by
  constructor
  · intro r h
    rcases findSome?_some_first tocResultOfPage _ r h with ⟨i, hi, hfi, hprev⟩
    rcases (tocResultOfPage_some_iff _ r).mp hfi with ⟨hq, hr⟩
    have hq' := hq
    unfold tocQualifies at hq'
    simp only [Bool.and_eq_true, decide_eq_true_eq] at hq'
    refine ⟨i, hi, hq, ?_, ?_, hq'.1.1.2, hq'.1.2, ?_, ?_⟩
    · rw [hr]
    · rw [hr]
    · rw [hr]
      exact hq'.2
    · intro j hj hji
      exact (tocResultOfPage_none_iff _).mp (hprev j hj hji)
  · intro hall
    exact findSome?_none_of_all tocResultOfPage _
      (fun p hp => (tocResultOfPage_none_iff p).mpr (hall p hp))

/-- Closed witness for C6 (the Scenario D shape): a page that casually
mentions "Table of Contents" but whose lines have no trailing page numbers
does not qualify, and the extractor returns no TOC. -/
theorem detectTocEntries_selection_witness :
    (∀ p ∈ ([⟨1, "As noted in the Table of Contents above, results follow.\nLine two here is plain prose.\nLine three has no numbers.\nMore prose lines continue.\nAnd the text simply ends.".data, [], 0⟩] : List PageText).take
        (min 8 ([⟨1, "As noted in the Table of Contents above, results follow.\nLine two here is plain prose.\nLine three has no numbers.\nMore prose lines continue.\nAnd the text simply ends.".data, [], 0⟩] : List PageText).length),
      tocQualifies p = false) ∧
    detectTocEntries
      ([⟨1, "As noted in the Table of Contents above, results follow.\nLine two here is plain prose.\nLine three has no numbers.\nMore prose lines continue.\nAnd the text simply ends.".data, [], 0⟩] : List PageText) = none :=
  ⟨by decide,
   (detectTocEntries_selection _).2 (by decide)⟩

/-! ## Claim C1: chapter detection partitions the page range -/

theorem insertPair_mem_keys :
    ∀ (m : List (Nat × List Char)) (kv x : Nat × List Char),
      x ∈ insertPair m kv → x.1 = kv.1 ∨ ∃ y ∈ m, x.1 = y.1
  | [], kv, x, hx => by
    simp [insertPair] at hx
    exact Or.inl (by rw [hx])
  | (k, v) :: rest, kv, x, hx => by
    unfold insertPair at hx
    split_ifs at hx with hk
    · rcases List.mem_cons.mp hx with h | h
      · left
        rw [h]
        exact hk
      · right
        exact ⟨x, by simp [h], rfl⟩
    · rcases List.mem_cons.mp hx with h | h
      · right
        exact ⟨(k, v), by simp, by rw [h]⟩
      · rcases insertPair_mem_keys rest kv x h with h1 | ⟨y, hy, hxy⟩
        · exact Or.inl h1
        · exact Or.inr ⟨y, by simp [hy], hxy⟩

theorem insertPair_keys_pairwise (m : List (Nat × List Char))
    (kv : Nat × List Char)
    (hm : m.Pairwise (fun a b => a.1 ≠ b.1)) :
    (insertPair m kv).Pairwise (fun a b => a.1 ≠ b.1) := by
  induction m with
  | nil => simp [insertPair]
  | cons y0 rest ih =>
    obtain ⟨k, v⟩ := y0
    rw [List.pairwise_cons] at hm
    obtain ⟨hky, hrest⟩ := hm
    unfold insertPair
    split_ifs with hk
    · rw [List.pairwise_cons]
      exact ⟨fun b hb => hky b hb, hrest⟩
    · rw [List.pairwise_cons]
      refine ⟨?_, ih hrest⟩
      intro b hb
      rcases insertPair_mem_keys rest kv b hb with h1 | ⟨y, hy, hby⟩
      · rw [h1]
        exact hk
      · rw [hby]
        exact hky y hy

theorem dedupe_keys_pairwise (pairs : List (Nat × List Char)) :
    (dedupeStarts pairs).Pairwise (fun a b => a.1 ≠ b.1) := by
  suffices h : ∀ (m : List (Nat × List Char)),
      m.Pairwise (fun a b => a.1 ≠ b.1) →
      (pairs.foldl insertPair m).Pairwise (fun a b => a.1 ≠ b.1) from
    h [] (by simp)
  induction pairs with
  | nil => intro m hm; exact hm
  | cons x xs ih =>
    intro m hm
    exact ih _ (insertPair_keys_pairwise m x hm)

theorem foldl_insertPair_mem :
    ∀ (pairs : List (Nat × List Char)) (m : List (Nat × List Char))
      (x : Nat × List Char), x ∈ pairs.foldl insertPair m →
      (∃ y ∈ m, x.1 = y.1) ∨ ∃ y ∈ pairs, x.1 = y.1
  | [], m, x, hx => Or.inl ⟨x, hx, rfl⟩
  | p :: ps, m, x, hx => by
    rcases foldl_insertPair_mem ps (insertPair m p) x hx with
      ⟨y, hy, hxy⟩ | ⟨y, hy, hxy⟩
    · rcases insertPair_mem_keys m p y hy with h1 | ⟨z, hz, hyz⟩
      · right
        exact ⟨p, by simp, by rw [hxy, h1]⟩
      · left
        exact ⟨z, hz, by rw [hxy, hyz]⟩
    · right
      exact ⟨y, by simp [hy], hxy⟩

theorem dedupe_mem_keys (pairs : List (Nat × List Char))
    (x : Nat × List Char) (hx : x ∈ dedupeStarts pairs) :
    ∃ y ∈ pairs, x.1 = y.1 := by
  rcases foldl_insertPair_mem pairs [] x hx with ⟨y, hy, -⟩ | h
  · exact absurd hy (List.not_mem_nil y)
  · exact h

theorem insertAsc_perm (x : Nat × List Char) (l : List (Nat × List Char)) :
    List.Perm (insertAscByPage x l) (x :: l) := by
  induction l with
  | nil => exact List.Perm.refl _
  | cons y ys ih =>
    unfold insertAscByPage
    split_ifs with hc
    · exact List.Perm.refl _
    · exact ((ih.cons y).trans (List.Perm.swap x y ys))

theorem insertAsc_mem (x : Nat × List Char) (l : List (Nat × List Char))
    (b : Nat × List Char) (hb : b ∈ insertAscByPage x l) :
    b = x ∨ b ∈ l :=
  List.mem_cons.mp ((insertAsc_perm x l).mem_iff.mp hb)

theorem insertAsc_sorted (x : Nat × List Char) (l : List (Nat × List Char))
    (hl : l.Pairwise (fun a b => a.1 ≤ b.1)) :
    (insertAscByPage x l).Pairwise (fun a b => a.1 ≤ b.1) := by
  induction l with
  | nil => simp [insertAscByPage]
  | cons y ys ih =>
    rw [List.pairwise_cons] at hl
    obtain ⟨hy, hys⟩ := hl
    unfold insertAscByPage
    split_ifs with hc
    · rw [List.pairwise_cons]
      refine ⟨?_, List.pairwise_cons.mpr ⟨hy, hys⟩⟩
      intro b hb
      rcases List.mem_cons.mp hb with h | h
      · rw [h]; exact hc
      · exact le_trans hc (hy b h)
    · rw [List.pairwise_cons]
      refine ⟨?_, ih hys⟩
      intro b hb
      rcases insertAsc_mem x ys b hb with h | h
      · rw [h]; omega
      · exact hy b h

theorem sortStarts_sorted (l : List (Nat × List Char)) :
    (sortStartsAsc l).Pairwise (fun a b => a.1 ≤ b.1) := by
  induction l with
  | nil => simp [sortStartsAsc]
  | cons x xs ih => exact insertAsc_sorted x _ ih

theorem sortStarts_perm (l : List (Nat × List Char)) :
    List.Perm (sortStartsAsc l) l := by
  induction l with
  | nil => exact List.Perm.refl _
  | cons x xs ih =>
    exact (insertAsc_perm x (sortStartsAsc xs)).trans (ih.cons x)

theorem clampPage_bounds (numPages : Nat) (p : Int) (h : 1 ≤ numPages) :
    1 ≤ clampPage numPages p ∧ clampPage numPages p ≤ numPages := by
  unfold clampPage
  omega

/-- The head shape of `chaptersOfSorted` on a non-empty start list. -/
theorem chaptersOfSorted_head (numPages idx : Nat) (p : Nat)
    (t : List Char) (l : List (Nat × List Char)) :
    ∃ c cs, chaptersOfSorted numPages idx ((p, t) :: l) = c :: cs ∧
      c.index = idx ∧ c.startPage = p := by
  cases l with
  | nil => exact ⟨_, _, rfl, rfl, rfl⟩
  | cons q qs => exact ⟨_, _, rfl, rfl, rfl⟩

theorem chaptersOfSorted_chain (numPages : Nat) :
    ∀ (l : List (Nat × List Char)) (x : Nat × List Char) (idx : Nat),
      ((x :: l).Pairwise (fun a b => a.1 < b.1)) →
      (∀ y ∈ x :: l, 1 ≤ y.1 ∧ y.1 ≤ numPages) →
      chainFrom numPages x.1 idx
        (chaptersOfSorted numPages idx (x :: l)) = true := by
  intro l
  induction l with
  | nil =>
    intro x idx hp hb
    obtain ⟨p, t⟩ := x
    have hx1 : 1 ≤ p := (hb (p, t) (by simp)).1
    have hx2 : p ≤ numPages := (hb (p, t) (by simp)).2
    simp only [chaptersOfSorted, chainFrom, Bool.and_eq_true, decide_eq_true_eq]
    exact ⟨⟨⟨by trivial, by trivial⟩, by omega⟩, by omega⟩
  | cons y ys ih =>
    intro x idx hp hb
    obtain ⟨p, t⟩ := x
    obtain ⟨p2, t2⟩ := y
    have hxy : p < p2 := by
      have := (List.pairwise_cons.mp hp).1 (p2, t2) (by simp)
      exact this
    have hq1 : 1 ≤ p2 := (hb (p2, t2) (by simp)).1
    have hq2 : p2 ≤ numPages := (hb (p2, t2) (by simp)).2
    have hp1 : 1 ≤ p := (hb (p, t) (by simp)).1
    have hp2' : p ≤ numPages := (hb (p, t) (by simp)).2
    have htail := (List.pairwise_cons.mp hp).2
    have hbtail : ∀ z ∈ (p2, t2) :: ys, 1 ≤ z.1 ∧ z.1 ≤ numPages :=
      fun z hz => hb z (by simp at hz ⊢; tauto)
    have hih := ih (p2, t2) (idx + 1) htail hbtail
    obtain ⟨c2, cs2, hshape, hcidx, hcstart⟩ :=
      chaptersOfSorted_head numPages (idx + 1) p2 t2 ys
    have hend : max p (min (p2 - 1) numPages) = p2 - 1 := by
      omega
    show chainFrom numPages p idx
      (⟨idx, _, p, max p (min (p2 - 1) numPages)⟩ ::
        chaptersOfSorted numPages (idx + 1) ((p2, t2) :: ys)) = true
    rw [hshape]
    rw [chainFrom]
    simp only [Bool.and_eq_true, decide_eq_true_eq]
    refine ⟨⟨⟨by trivial, by trivial⟩, by omega⟩, ?_⟩
    have harg : max p (min (p2 - 1) numPages) + 1 = p2 := by omega
    simp only [harg]
    rw [← hshape]
    exact hih

theorem toChaptersFromStarts_chain (starts : List StartPoint)
    (numPages : Nat) (h : 1 ≤ numPages) :
    ∃ c cs, toChaptersFromStarts starts numPages = c :: cs ∧
      1 ≤ c.startPage ∧
      chainFrom numPages c.startPage 1 (c :: cs) = true := by
  unfold toChaptersFromStarts
  by_cases hlen : (sortStartsAsc (dedupeStarts
      (starts.map (fun s => (clampPage numPages s.page, cleanTitle s.title))))).length < 2
  · rw [if_pos hlen]
    refine ⟨⟨1, "Document".data, 1, numPages⟩, [], rfl, le_refl 1, ?_⟩
    simp [chainFrom, h]
  · rw [if_neg hlen]
    set pairs := starts.map (fun s => (clampPage numPages s.page, cleanTitle s.title))
      with hpairs
    have hsorted := sortStarts_sorted (dedupeStarts pairs)
    have hperm := sortStarts_perm (dedupeStarts pairs)
    have hnodup : (sortStartsAsc (dedupeStarts pairs)).Pairwise
        (fun a b => a.1 ≠ b.1) :=
      (hperm.pairwise_iff (fun hab hc => hab hc.symm)).mpr
        (dedupe_keys_pairwise pairs)
    have hlt : (sortStartsAsc (dedupeStarts pairs)).Pairwise
        (fun a b => a.1 < b.1) := by
      have hand := hsorted.and hnodup
      exact hand.imp (fun hab => by omega)
    have hbounds : ∀ y ∈ sortStartsAsc (dedupeStarts pairs),
        1 ≤ y.1 ∧ y.1 ≤ numPages := by
      intro y hy
      have hy2 : y ∈ dedupeStarts pairs := hperm.mem_iff.mp hy
      rcases dedupe_mem_keys pairs y hy2 with ⟨z, hz, hyz⟩
      rw [hpairs] at hz
      rcases List.mem_map.mp hz with ⟨s, -, hs⟩
      rw [hyz, ← hs]
      exact clampPage_bounds numPages s.page h
    cases hu : sortStartsAsc (dedupeStarts pairs) with
    | nil => rw [hu] at hlen; simp at hlen
    | cons x l =>
      obtain ⟨p, t⟩ := x
      obtain ⟨c, cs, hshape, hcidx, hcstart⟩ :=
        chaptersOfSorted_head numPages 1 p t l
      refine ⟨c, cs, hshape, ?_, ?_⟩
      · rw [hcstart]
        exact (hbounds (p, t) (by rw [hu]; simp)).1
      · rw [← hshape, hcstart]
        rw [hu] at hlt hbounds
        exact chaptersOfSorted_chain numPages l (p, t) 1 hlt hbounds

theorem chainFrom_map_bump :
    ∀ (cs : List Chapter) (numPages s i : Nat),
      chainFrom numPages s i cs = true →
      chainFrom numPages s (i + 1)
        (cs.map (fun c => { c with index := c.index + 1 })) = true
  | [], _, _, _, h => by simp [chainFrom] at h
  | [c], numPages, s, i, h => by
    simp only [List.map_cons, List.map_nil, chainFrom, Bool.and_eq_true,
      decide_eq_true_eq] at h ⊢
    omega
  | c :: c2 :: rest, numPages, s, i, h => by
    simp only [List.map_cons] at *
    rw [chainFrom] at h
    rw [chainFrom]
    simp only [Bool.and_eq_true, decide_eq_true_eq] at h ⊢
    obtain ⟨⟨⟨h1, h2⟩, h3⟩, h4⟩ := h
    refine ⟨⟨⟨by omega, h2⟩, h3⟩, ?_⟩
    have := chainFrom_map_bump (c2 :: rest) numPages (c.endPage + 1) (i + 1) h4
    simpa using this

theorem insertFrontMatter_partition (numPages : Nat) (c : Chapter)
    (cs : List Chapter) (h1 : 1 ≤ c.startPage)
    (hchain : chainFrom numPages c.startPage 1 (c :: cs) = true) :
    chaptersPartition numPages (insertFrontMatter (c :: cs)) = true ∧
    (1 < c.startPage →
      (insertFrontMatter (c :: cs)).head?.map Chapter.title =
        some "Front Matter".data) := by
  unfold insertFrontMatter chaptersPartition
  simp only [List.head?_cons, Option.map_some', Option.getD_some]
  by_cases hgt : c.startPage > 1
  · rw [if_pos hgt]
    constructor
    · simp only [List.map_cons]
      rw [chainFrom]
      simp only [Bool.and_eq_true, decide_eq_true_eq]
      refine ⟨⟨⟨by trivial, by trivial⟩, by omega⟩, ?_⟩
      have harg : c.startPage - 1 + 1 = c.startPage := by omega
      simp only [harg]
      have := chainFrom_map_bump (c :: cs) numPages c.startPage 1 hchain
      simpa using this
    · intro
      simp
  · rw [if_neg hgt]
    have heq : c.startPage = 1 := by omega
    constructor
    · rw [heq] at hchain
      exact hchain
    · intro hcon
      omega

/-- C1: for every input and `numPages ≥ 1`, the chapter list returned by
chapter detection partitions the page range: traversed from page 1 with
index 1, every chapter has `startPage ≤ endPage`, consecutive chapters
satisfy `next.startPage = prev.endPage + 1` (hence they are sorted by
`startPage` and neither gap nor overlap exists), the first chapter starts
at page 1, the last ends at `numPages`, and indices are exactly
`1..length`; moreover when the first detected chapter starts after page 1
the result is headed by a synthetic "Front Matter" chapter. -/
theorem detectChapters_partition (pages : List PageText) (numPages : Nat)
    (h : 1 ≤ numPages) :
    chaptersPartition numPages (detectChapters pages numPages) = true ∧
    (1 < ((preChapters pages numPages).head?.map Chapter.startPage).getD 1 →
      (detectChapters pages numPages).head?.map Chapter.title =
        some "Front Matter".data) := by
  have hpre : ∃ c cs, preChapters pages numPages = c :: cs ∧
      1 ≤ c.startPage ∧ chainFrom numPages c.startPage 1 (c :: cs) = true := by
    unfold preChapters
    by_cases hc2 :
      (if (toChaptersFromStarts
            (if (tocStartsOf pages numPages).length ≥ 2 then
              tocStartsOf pages numPages
            else (headingCandidatesOf pages).map
              (fun c => StartPoint.mk c.page c.title)) numPages).length < 2 then
        toChaptersFromStarts (legacyStarts pages) numPages
      else toChaptersFromStarts
        (if (tocStartsOf pages numPages).length ≥ 2 then
          tocStartsOf pages numPages
        else (headingCandidatesOf pages).map
          (fun c => StartPoint.mk c.page c.title)) numPages).length < 2
    · rw [if_pos hc2]
      refine ⟨⟨1, "Document".data, 1, numPages⟩, [], rfl, le_refl 1, ?_⟩
      simp [chainFrom, h]
    · rw [if_neg hc2]
      split_ifs
      all_goals exact toChaptersFromStarts_chain _ numPages h
  rcases hpre with ⟨c, cs, hshape, hc1, hchain⟩
  have hdet : detectChapters pages numPages = insertFrontMatter (c :: cs) := by
    unfold detectChapters
    rw [hshape]
  rcases insertFrontMatter_partition numPages c cs hc1 hchain with ⟨hp1, hp2⟩
  refine ⟨by rw [hdet]; exact hp1, ?_⟩
  intro hcon
  rw [hshape] at hcon
  simp only [List.head?_cons, Option.map_some', Option.getD_some] at hcon
  rw [hdet]
  exact hp2 hcon

/-- Closed witness for C1 at a concrete five-page input with two detected
chapter headings. -/
theorem detectChapters_partition_witness :
    (1 ≤ 5) ∧
    chaptersPartition 5 (detectChapters
      [⟨1, "intro".data, [], 0⟩, ⟨2, "CHAPTER ONE".data, [], 0⟩,
        ⟨3, "body".data, [], 0⟩, ⟨4, "CHAPTER TWO".data, [], 0⟩,
        ⟨5, "body2".data, [], 0⟩] 5) = true :=
  ⟨by decide,
   (detectChapters_partition
     [⟨1, "intro".data, [], 0⟩, ⟨2, "CHAPTER ONE".data, [], 0⟩,
       ⟨3, "body".data, [], 0⟩, ⟨4, "CHAPTER TWO".data, [], 0⟩,
       ⟨5, "body2".data, [], 0⟩] 5 (by decide)).1⟩

/-! ## Claim C7: TOC-derived starts take priority -/

/-- C7: whenever at least two TOC-derived start points survive offset
projection and range filtering, chapter segmentation is computed from
exactly those TOC starts (with the legacy scan as the under-two-chapters
fallback and a single "Document" chapter as the last resort); the
per-page scored heading candidates are not used as chapter starts. -/
theorem detectChapters_toc_priority (pages : List PageText) (numPages : Nat)
    (h : (tocStartsOf pages numPages).length ≥ 2) :
    detectChapters pages numPages =
      insertFrontMatter
        (if (if (toChaptersFromStarts (tocStartsOf pages numPages)
                  numPages).length < 2 then
              toChaptersFromStarts (legacyStarts pages) numPages
            else toChaptersFromStarts (tocStartsOf pages numPages)
              numPages).length < 2 then
          [⟨1, "Document".data, 1, numPages⟩]
        else
          (if (toChaptersFromStarts (tocStartsOf pages numPages)
                numPages).length < 2 then
            toChaptersFromStarts (legacyStarts pages) numPages
          else toChaptersFromStarts (tocStartsOf pages numPages) numPages)) := by
  simp only [detectChapters, preChapters]
  rw [if_pos h]

/-- Closed witness for C7: the demo table of contents projects three
start points, and the stated equality holds on that concrete input. -/
theorem detectChapters_toc_priority_witness :
    (tocStartsOf tocDemoPages 25).length ≥ 2 ∧
    detectChapters tocDemoPages 25 =
      insertFrontMatter
        (if (if (toChaptersFromStarts (tocStartsOf tocDemoPages 25)
                  25).length < 2 then
              toChaptersFromStarts (legacyStarts tocDemoPages) 25
            else toChaptersFromStarts (tocStartsOf tocDemoPages 25)
              25).length < 2 then
          [⟨1, "Document".data, 1, 25⟩]
        else
          (if (toChaptersFromStarts (tocStartsOf tocDemoPages 25)
                25).length < 2 then
            toChaptersFromStarts (legacyStarts tocDemoPages) 25
          else toChaptersFromStarts (tocStartsOf tocDemoPages 25) 25)) :=
  ⟨by decide, detectChapters_toc_priority tocDemoPages 25 (by decide)⟩

/-! ## Claim C8: per-page heading candidate selection and scoring -/

theorem ite_and_bool (p q : Prop) [Decidable p] [Decidable q] (a b : Int) :
    (if (decide p && decide q) = true then a else b) =
      (if p ∧ q then a else b) := by
  by_cases h1 : p <;> by_cases h2 : q <;> simp [h1, h2]

theorem bestSpan_fold_gen (common : List (List Char)) (maxFont : ℚ) :
    ∀ (l : List (List Char × Option LayoutLine)) (a b : List Char × Int),
      l.foldl (bestStep common maxFont) (some a) = some b →
      (b = a ∨ ∃ sp ∈ l, b.1 = sp.1 ∧
          b.2 = scoreHeadingCandidate sp.1 common sp.2 maxFont) ∧
      a.2 ≤ b.2 ∧
      ∀ sp ∈ l, scoreHeadingCandidate sp.1 common sp.2 maxFont ≤ b.2 := by
  intro l
  induction l with
  | nil =>
    intro a b h
    simp only [List.foldl_nil, Option.some.injEq] at h
    exact ⟨Or.inl h.symm, by simp [h], by simp⟩
  | cons sp l ih =>
    intro a b h
    rw [List.foldl_cons] at h
    by_cases hgt : scoreHeadingCandidate sp.1 common sp.2 maxFont > a.2
    · rw [show bestStep common maxFont (some a) sp =
          some (sp.1, scoreHeadingCandidate sp.1 common sp.2 maxFont) from by
        simp [bestStep, hgt]] at h
      obtain ⟨h1, h2, h3⟩ := ih _ b h
      refine ⟨?_, ?_, ?_⟩
      · rcases h1 with h1 | ⟨sp2, hsp2, hb1, hb2⟩
        · exact Or.inr ⟨sp, by simp, by rw [h1], by rw [h1]⟩
        · exact Or.inr ⟨sp2, by simp [hsp2], hb1, hb2⟩
      · exact le_trans (le_of_lt hgt) h2
      · intro sp2 hsp2
        rcases List.mem_cons.mp hsp2 with h4 | h4
        · rw [h4]; exact h2
        · exact h3 sp2 h4
    · rw [show bestStep common maxFont (some a) sp = some a from by
        simp [bestStep, hgt]] at h
      obtain ⟨h1, h2, h3⟩ := ih a b h
      refine ⟨?_, h2, ?_⟩
      · rcases h1 with h1 | ⟨sp2, hsp2, hb1, hb2⟩
        · exact Or.inl h1
        · exact Or.inr ⟨sp2, by simp [hsp2], hb1, hb2⟩
      · intro sp2 hsp2
        rcases List.mem_cons.mp hsp2 with h4 | h4
        · rw [h4]; omega
        · exact h3 sp2 h4

theorem bestSpan_fold_some (common : List (List Char)) (maxFont : ℚ) :
    ∀ (l : List (List Char × Option LayoutLine)) (a : List Char × Int),
      ∃ b, l.foldl (bestStep common maxFont) (some a) = some b := by
  intro l
  induction l with
  | nil => intro a; exact ⟨a, rfl⟩
  | cons sp l ih =>
    intro a
    rw [List.foldl_cons]
    by_cases hgt : scoreHeadingCandidate sp.1 common sp.2 maxFont > a.2
    · rw [show bestStep common maxFont (some a) sp =
          some (sp.1, scoreHeadingCandidate sp.1 common sp.2 maxFont) from by
        simp [bestStep, hgt]]
      exact ih _
    · rw [show bestStep common maxFont (some a) sp = some a from by
        simp [bestStep, hgt]]
      exact ih a

theorem bestSpan_spec (common : List (List Char)) (maxFont : ℚ)
    (l : List (List Char × Option LayoutLine)) (b : List Char × Int)
    (h : bestSpan common maxFont l = some b) :
    (∃ sp ∈ l, b.1 = sp.1 ∧
        b.2 = scoreHeadingCandidate sp.1 common sp.2 maxFont) ∧
    ∀ sp ∈ l, scoreHeadingCandidate sp.1 common sp.2 maxFont ≤ b.2 := by
  cases l with
  | nil => simp [bestSpan] at h
  | cons sp l =>
    rw [bestSpan, List.foldl_cons] at h
    rw [show bestStep common maxFont none sp =
        some (sp.1, scoreHeadingCandidate sp.1 common sp.2 maxFont) from
      rfl] at h
    obtain ⟨h1, h2, h3⟩ := bestSpan_fold_gen common maxFont l _ b h
    constructor
    · rcases h1 with h1 | ⟨sp2, hsp2, hb1, hb2⟩
      · exact ⟨sp, by simp, by rw [h1], by rw [h1]⟩
      · exact ⟨sp2, by simp [hsp2], hb1, hb2⟩
    · intro sp2 hsp2
      rcases List.mem_cons.mp hsp2 with h4 | h4
      · rw [h4]; exact h2
      · exact h3 sp2 h4

theorem bestSpan_none_iff (common : List (List Char)) (maxFont : ℚ)
    (l : List (List Char × Option LayoutLine)) :
    bestSpan common maxFont l = none ↔ l = [] := by
  cases l with
  | nil => simp [bestSpan]
  | cons sp l =>
    rw [bestSpan, List.foldl_cons]
    rw [show bestStep common maxFont none sp =
        some (sp.1, scoreHeadingCandidate sp.1 common sp.2 maxFont) from rfl]
    constructor
    · intro h
      obtain ⟨b, hb⟩ := bestSpan_fold_some common maxFont l
        (sp.1, scoreHeadingCandidate sp.1 common sp.2 maxFont)
      rw [hb] at h
      exact absurd h (by simp)
    · intro h
      exact absurd h (by simp)

/-- C8: the heading score is exactly the sum of the spec's ordered
predicate-to-weight rule list (on the trimmed candidate; an
all-whitespace candidate is scored `-999`); per page at most one
`HeadingCandidate` is produced, namely the best-scoring candidate span
(ties keep the earliest), retained exactly when its score reaches 60; a
page yields no candidate iff every span on it scores below 60. -/
theorem pageHeadingCandidate_spec (candidate : List Char)
    (common : List (List Char)) (meta : Option LayoutLine)
    (pageMaxFont : ℚ) (p : PageText) (pages : List PageText) :
    scoreHeadingCandidate candidate common meta pageMaxFont =
      (if trimStr candidate = [] then -999
       else specHeadingScore (trimStr candidate) common meta pageMaxFont) ∧
    (∀ hc, pageHeadingCandidate common p = some hc →
      hc.score ≥ 60 ∧
      (∃ sp ∈ pageCandidateSpans p common,
        hc.title = cleanTitle sp.1 ∧
        hc.score = scoreHeadingCandidate sp.1 common sp.2 p.maxFontSize) ∧
      ∀ sp ∈ pageCandidateSpans p common,
        scoreHeadingCandidate sp.1 common sp.2 p.maxFontSize ≤ hc.score) ∧
    (pageHeadingCandidate common p = none ↔
      ∀ sp ∈ pageCandidateSpans p common,
        scoreHeadingCandidate sp.1 common sp.2 p.maxFontSize < 60) ∧
    (headingCandidatesOf pages).length ≤ pages.length := by
  refine ⟨?_, ?_, ?_, ?_⟩
  · by_cases hne : trimStr candidate = []
    · rw [if_pos hne]
      simp only [scoreHeadingCandidate]
      rw [if_pos hne]
    · rw [if_neg hne]
      have hlen : ¬(trimStr candidate).length = 0 := by
        simpa [List.length_eq_zero] using hne
      simp only [scoreHeadingCandidate, specHeadingScore, specHeadingRules,
        List.sum_cons, List.sum_nil]
      rw [if_neg hne, if_neg hlen]
      rcases meta with _ | m
      · simp only []
        rw [ite_and_bool]
        omega
      · have hfont :
            (if m.fontSize ≠ 0 ∧ pageMaxFont ≠ 0 then
                (if m.fontSize / pageMaxFont ≥ 92 / 100 then (24 : Int)
                 else if m.fontSize / pageMaxFont ≥ 86 / 100 then 12 else 0)
              else 0) =
            (if m.fontSize ≠ 0 ∧ pageMaxFont ≠ 0 ∧
                m.fontSize / pageMaxFont ≥ 92 / 100 then (24 : Int) else 0) +
            (if m.fontSize ≠ 0 ∧ pageMaxFont ≠ 0 ∧
                ¬(m.fontSize / pageMaxFont ≥ 92 / 100) ∧
                m.fontSize / pageMaxFont ≥ 86 / 100 then 12 else 0) := by
          split_ifs <;> first | omega | tauto
        simp only []
        rw [hfont, ite_and_bool]
        omega
  · intro hc h
    unfold pageHeadingCandidate at h
    cases hbs : bestSpan common p.maxFontSize (pageCandidateSpans p common) with
    | none => rw [hbs] at h; exact absurd h (by simp)
    | some b =>
      rw [hbs] at h
      obtain ⟨title, score⟩ := b
      simp only [] at h
      split_ifs at h with h60
      obtain ⟨⟨sp, hsp, hb1, hb2⟩, hmax⟩ :=
        bestSpan_spec common p.maxFontSize _ (title, score) hbs
      have hb1' : title = sp.1 := hb1
      have hb2' : score = scoreHeadingCandidate sp.1 common sp.2
          p.maxFontSize := hb2
      injection h with h
      subst h
      refine ⟨h60, ⟨sp, hsp, by rw [hb1'], hb2'⟩, ?_⟩
      intro sp2 hsp2
      exact hmax sp2 hsp2
  · constructor
    · intro h sp hsp
      unfold pageHeadingCandidate at h
      cases hbs : bestSpan common p.maxFontSize
          (pageCandidateSpans p common) with
      | none =>
        have hl : pageCandidateSpans p common = [] :=
          (bestSpan_none_iff _ _ _).mp hbs
        rw [hl] at hsp
        exact absurd hsp (List.not_mem_nil sp)
      | some b =>
        rw [hbs] at h
        obtain ⟨title, score⟩ := b
        simp only [] at h
        split_ifs at h with h60
        obtain ⟨-, hmax⟩ :=
          bestSpan_spec common p.maxFontSize _ (title, score) hbs
        have hmem := hmax sp hsp
        have hle : scoreHeadingCandidate sp.1 common sp.2 p.maxFontSize ≤
            score := hmem
        omega
    · intro hall
      unfold pageHeadingCandidate
      cases hbs : bestSpan common p.maxFontSize
          (pageCandidateSpans p common) with
      | none => rfl
      | some b =>
        obtain ⟨title, score⟩ := b
        obtain ⟨⟨sp, hsp, hb1, hb2⟩, hmax⟩ :=
          bestSpan_spec common p.maxFontSize _ (title, score) hbs
        have hb2' : score = scoreHeadingCandidate sp.1 common sp.2
            p.maxFontSize := hb2
        have hlt : score < 60 := by
          have := hall sp hsp
          omega
        simp only []
        rw [if_neg (by omega)]
  · unfold headingCandidatesOf
    exact List.length_filterMap_le _ _

/-! ## Claim C2 (amended): byte budgets of the chunkers -/

theorem utf8Len_append (a b : List Char) :
    utf8Len (a ++ b) = utf8Len a + utf8Len b := by
  simp [utf8Len]

theorem utf8Len_reverse (l : List Char) : utf8Len l.reverse = utf8Len l := by
  simp [utf8Len, List.map_reverse, List.sum_reverse]

theorem utf8Len_dropWhile_le (p : Char → Bool) (l : List Char) :
    utf8Len (l.dropWhile p) ≤ utf8Len l := by
  have h : l.takeWhile p ++ l.dropWhile p = l :=
    @List.takeWhile_append_dropWhile _ p l
  calc utf8Len (l.dropWhile p) ≤
      utf8Len (l.takeWhile p) + utf8Len (l.dropWhile p) := by omega
    _ = utf8Len (l.takeWhile p ++ l.dropWhile p) := (utf8Len_append _ _).symm
    _ = utf8Len l := by rw [h]

theorem utf8Len_trim_le (l : List Char) : utf8Len (trimStr l) ≤ utf8Len l := by
  unfold trimStr
  calc utf8Len ((l.dropWhile isJsSpace).reverse.dropWhile isJsSpace).reverse =
      utf8Len ((l.dropWhile isJsSpace).reverse.dropWhile isJsSpace) :=
        utf8Len_reverse _
    _ ≤ utf8Len (l.dropWhile isJsSpace).reverse := utf8Len_dropWhile_le _ _
    _ = utf8Len (l.dropWhile isJsSpace) := utf8Len_reverse _
    _ ≤ utf8Len l := utf8Len_dropWhile_le _ _

theorem pushCur_bytesOk (maxB : Nat) (st : SplitAcc)
    (h : accBytesOk maxB st) : accBytesOk maxB (pushCur st) := by
  obtain ⟨h1, h2⟩ := h
  refine ⟨?_, by simp [utf8Len, pushCur]⟩
  intro x hx
  simp only [pushCur] at hx
  split_ifs at hx with hv
  · exact h1 x hx
  · rcases List.mem_append.mp hx with h3 | h3
    · exact h1 x h3
    · rw [List.mem_singleton.mp h3]
      exact le_trans (utf8Len_trim_le _) h2

theorem addUnit_bytesOk (maxB : Nat) (st : SplitAcc) (u : List Char)
    (h : accBytesOk maxB st) (hu : utf8Len u ≤ maxB) :
    accBytesOk maxB (addUnit maxB st u) := by
  simp only [addUnit]
  split_ifs
  all_goals first
    | exact ⟨h.1, by assumption⟩
    | exact ⟨(pushCur_bytesOk maxB st h).1, hu⟩

theorem char_utf8Size_le_four (c : Char) : c.utf8Size ≤ 4 := by
  simp only [Char.utf8Size]
  split_ifs <;> omega

theorem utf8Len_take_one_le (token : List Char) :
    utf8Len (token.take 1) ≤ 4 := by
  cases token with
  | nil => simp [utf8Len]
  | cons c rest =>
    simpa [utf8Len] using char_utf8Size_le_four c

theorem shrinkGo_post (maxB : Nat) (token : List Char) :
    ∀ (fuel n : Nat), n ≤ fuel →
      ¬(shrinkGo maxB token fuel n > 1 ∧
        utf8Len (token.take (shrinkGo maxB token fuel n)) > maxB)
  | 0, n, h => by
    have hn : n = 0 := by omega
    subst hn
    simp [shrinkGo]
  | fuel + 1, n, h => by
    rw [shrinkGo]
    split_ifs with hc
    · exact shrinkGo_post maxB token fuel (4 * n / 5) (by omega)
    · exact hc

theorem splitLong_part_le (maxB : Nat) (h4 : 4 ≤ maxB) (token : List Char) :
    utf8Len (token.take (max 1 (shrinkSliceLen maxB token token.length))) ≤
      maxB := by
  have hpost := shrinkGo_post maxB token token.length token.length (le_refl _)
  have hn : shrinkSliceLen maxB token token.length =
      shrinkGo maxB token token.length token.length := rfl
  rw [hn]
  by_cases h1 : shrinkGo maxB token token.length token.length ≤ 1
  · have hm : max 1 (shrinkGo maxB token token.length token.length) = 1 := by
      omega
    rw [hm]
    exact le_trans (utf8Len_take_one_le token) h4
  · have h2 : utf8Len
        (token.take (shrinkGo maxB token token.length token.length)) ≤
        maxB := by
      by_contra hbig
      exact hpost ⟨by omega, by omega⟩
    have hm : max 1 (shrinkGo maxB token token.length token.length) =
        shrinkGo maxB token token.length token.length := by omega
    rw [hm]
    exact h2

theorem splitLongGo_bytesOk (maxB : Nat) (h4 : 4 ≤ maxB) :
    ∀ (fuel : Nat) (st : SplitAcc) (token : List Char),
      token.length ≤ fuel → accBytesOk maxB st →
      accBytesOk maxB (splitLongGo maxB fuel st token)
  | 0, st, token, hf, hb => by
    have he : token = [] := by
      cases token with
      | nil => rfl
      | cons c r => simp at hf
    subst he
    simpa [splitLongGo] using hb
  | fuel + 1, st, token, hf, hb => by
    simp only [splitLongGo]
    split_ifs with hbig hnil
    · apply splitLongGo_bytesOk maxB h4 fuel
      · have hne : token ≠ [] := by
          intro he
          rw [he] at hbig
          exact absurd hbig (by simp [utf8Len])
        rw [List.length_drop, List.length_take]
        have hpos : 1 ≤ token.length := by
          cases token with
          | nil => exact absurd rfl hne
          | cons c r => simp
        omega
      · exact addUnit_bytesOk maxB st _ hb (splitLong_part_le maxB h4 token)
    · exact hb
    · exact addUnit_bytesOk maxB st token hb (by omega)

theorem foldl_bytesOk {α : Type} (maxB : Nat) (f : SplitAcc → α → SplitAcc)
    (hf : ∀ st x, accBytesOk maxB st → accBytesOk maxB (f st x)) :
    ∀ (l : List α) (st : SplitAcc), accBytesOk maxB st →
      accBytesOk maxB (l.foldl f st)
  | [], _, hb => hb
  | x :: l, st, hb => foldl_bytesOk maxB f hf l (f st x) (hf st x hb)

theorem wordStep_bytesOk (maxB : Nat) (h4 : 4 ≤ maxB) (st : SplitAcc)
    (w : List Char) (hb : accBytesOk maxB st) :
    accBytesOk maxB (wordStep maxB st w) := by
  unfold wordStep
  split_ifs with hbig
  · exact splitLongGo_bytesOk maxB h4 w.length st w (le_refl _) hb
  · exact addUnit_bytesOk maxB st w hb (by omega)

theorem sentenceStep_bytesOk (maxB : Nat) (h4 : 4 ≤ maxB) (st : SplitAcc)
    (s : List Char) (hb : accBytesOk maxB st) :
    accBytesOk maxB (sentenceStep maxB st s) := by
  unfold sentenceStep
  split_ifs with hfit
  · exact addUnit_bytesOk maxB st s hb hfit
  · exact foldl_bytesOk maxB (wordStep maxB)
      (fun st2 x hb2 => wordStep_bytesOk maxB h4 st2 x hb2) (tokens s) st hb

theorem splitToByteSafeParts_bounds (input : List Char) (maxBytes : Nat)
    (h4 : 4 ≤ maxBytes) :
    ∀ part ∈ splitToByteSafeParts input maxBytes,
      utf8Len part ≤ maxBytes := by
  intro part hp
  simp only [splitToByteSafeParts] at hp
  split_ifs at hp with he hfit
  · exact absurd hp (List.not_mem_nil part)
  · rw [List.mem_singleton.mp hp]
    exact hfit
  · have hacc : accBytesOk maxBytes
        (((sentenceSplit (trimStr input)).filter (fun x => x ≠ [])).foldl
          (sentenceStep maxBytes) ⟨[], []⟩) :=
      foldl_bytesOk maxBytes (sentenceStep maxBytes)
        (fun st x hb => sentenceStep_bytesOk maxBytes h4 st x hb) _ ⟨[], []⟩
        ⟨by simp, by simp [utf8Len]⟩
    exact (pushCur_bytesOk maxBytes _ hacc).1 part hp

theorem ssmlFlush_bound (maxB : Nat) (chunks : List (List Char))
    (cur : List (List Char)) (out : List (List Char))
    (h : ssmlFlush maxB chunks cur = Except.ok out)
    (hb : ∀ c ∈ chunks, utf8Len c ≤ maxB) :
    ∀ c ∈ out, utf8Len c ≤ maxB := by
  simp only [ssmlFlush] at h
  split_ifs at h with h1 h2
  · injection h with h
    subst h
    exact hb
  · injection h with h
    subst h
    intro c hc
    rcases List.mem_append.mp hc with h3 | h3
    · exact hb c h3
    · rw [List.mem_singleton.mp h3]
      omega

theorem ssmlStep_bound (maxB : Nat) (st st1 : List (List Char) × List (List Char))
    (p : List Char) (h : ssmlStep maxB st p = Except.ok st1)
    (hb : ∀ c ∈ st.1, utf8Len c ≤ maxB) :
    ∀ c ∈ st1.1, utf8Len c ≤ maxB := by
  simp only [ssmlStep] at h
  by_cases h1 : utf8Len (buildSsmlFromParagraphs (st.2 ++ [p])) ≤ maxB
  · rw [if_pos h1] at h
    injection h with h
    subst h
    exact hb
  · rw [if_neg h1] at h
    cases hf : ssmlFlush maxB st.1 st.2 with
    | error e =>
      rw [hf] at h
      exact Except.noConfusion h
    | ok chunks =>
      rw [hf] at h
      simp only [] at h
      by_cases h2 : utf8Len (buildSsmlFromParagraphs [p]) > maxB
      · rw [if_pos h2] at h
        exact Except.noConfusion h
      · rw [if_neg h2] at h
        injection h with h
        subst h
        exact ssmlFlush_bound maxB st.1 st.2 chunks hf hb

theorem ssmlFold_bound (maxB : Nat) :
    ∀ (l : List (List Char))
      (st st2 : List (List Char) × List (List Char)),
      l.foldlM (ssmlStep maxB) st = Except.ok st2 →
      (∀ c ∈ st.1, utf8Len c ≤ maxB) →
      ∀ c ∈ st2.1, utf8Len c ≤ maxB
  | [], st, st2, h, hb => by
    simp only [List.foldlM_nil] at h
    injection h with h
    subst h
    exact hb
  | p :: l, st, st2, h, hb => by
    rw [List.foldlM_cons] at h
    cases hstep : ssmlStep maxB st p with
    | error e =>
      rw [hstep] at h
      exact Except.noConfusion h
    | ok st1 =>
      rw [hstep] at h
      have h2 : l.foldlM (ssmlStep maxB) st1 = Except.ok st2 := h
      exact ssmlFold_bound maxB l st1 st2 h2
        (ssmlStep_bound maxB st st1 p hstep hb)

/-- C2 (amended): whenever `chunkTextToSsml` returns successfully, every
emitted chunk's UTF-8 byte length (measured on the fully-tagged SSML
markup) is at most the budget; and for any budget of at least 4 bytes
(enough for any single character) every part returned by
`splitToByteSafeParts` fits its budget.  (The internal error branches are
reachable, as the separate counterexample shows, so the original claim's
unreachability clause fails.) -/
theorem byteBudget_bounds (text input : List Char) (B maxBytes : Nat)
    (chunks : List (List Char))
    (hok : chunkTextToSsml text B = Except.ok chunks)
    (h4 : 4 ≤ maxBytes) :
    (∀ c ∈ chunks, utf8Len c ≤ B) ∧
    ∀ part ∈ splitToByteSafeParts input maxBytes,
      utf8Len part ≤ maxBytes := by
  refine ⟨?_, splitToByteSafeParts_bounds input maxBytes h4⟩
  unfold chunkTextToSsml at hok
  cases hfold : ((paragraphsOf text).foldl (ssmlAtomStep B) []).foldlM
      (ssmlStep B) (([], []) : List (List Char) × List (List Char)) with
  | error e =>
    rw [hfold] at hok
    exact Except.noConfusion hok
  | ok st =>
    rw [hfold] at hok
    simp only [] at hok
    exact ssmlFlush_bound B st.1 st.2 chunks hok
      (ssmlFold_bound B _ ([], []) st hfold (by simp))

/-- Closed witness for the amended C2 at concrete inputs: a small text
whose single SSML chunk fits 200 bytes, and an 8-byte split of
"hello world". -/
theorem byteBudget_bounds_witness :
    chunkTextToSsml "Hi.".data 200 =
      Except.ok ["<speak><p><s>Hi.</s></p></speak>".data] ∧
    4 ≤ 8 ∧
    ((∀ c ∈ ["<speak><p><s>Hi.</s></p></speak>".data], utf8Len c ≤ 200) ∧
     ∀ part ∈ splitToByteSafeParts "hello world".data 8,
       utf8Len part ≤ 8) :=
  ⟨by rfl, by decide,
   byteBudget_bounds "Hi.".data "hello world".data 200 8
     ["<speak><p><s>Hi.</s></p></speak>".data] (by rfl) (by decide)⟩

/-! ## Claim C3 (amended): token preservation under sufficient budgets -/

theorem tokensAux_none (b : List Char) :
    (jsSplitRunsAux isJsSpace none b).filter (fun t => t ≠ []) = tokens b := by
  cases b with
  | nil => rfl
  | cons c rest =>
    by_cases hc : isJsSpace c
    · simp [jsSplitRunsAux, tokens, jsSplitRuns, hc]
    · simp [jsSplitRunsAux, tokens, jsSplitRuns, hc]

theorem tokens_ws_split (c : Char) (hc : isJsSpace c = true) :
    ∀ (a acc b : List Char),
      (jsSplitRunsAux isJsSpace (some acc) (a ++ c :: b)).filter
          (fun t => t ≠ []) =
        ((jsSplitRunsAux isJsSpace (some acc) a).filter (fun t => t ≠ [])) ++
          tokens b
  | [], acc, b => by
    simp only [List.nil_append]
    rw [show jsSplitRunsAux isJsSpace (some acc) (c :: b) =
        acc.reverse :: jsSplitRunsAux isJsSpace none b from by
      simp [jsSplitRunsAux, hc]]
    rw [show jsSplitRunsAux isJsSpace (some acc) [] = [acc.reverse] from rfl]
    rw [List.filter_cons, List.filter_cons, tokensAux_none b]
    split_ifs <;> simp
  | d :: a2, acc, b => by
    by_cases hd : isJsSpace d
    · rw [List.cons_append]
      rw [show jsSplitRunsAux isJsSpace (some acc) (d :: (a2 ++ c :: b)) =
          acc.reverse :: jsSplitRunsAux isJsSpace none (a2 ++ c :: b) from by
        simp [jsSplitRunsAux, hd]]
      rw [show jsSplitRunsAux isJsSpace (some acc) (d :: a2) =
          acc.reverse :: jsSplitRunsAux isJsSpace none a2 from by
        simp [jsSplitRunsAux, hd]]
      rw [List.filter_cons, List.filter_cons]
      have h1 : (jsSplitRunsAux isJsSpace none (a2 ++ c :: b)).filter
          (fun t => t ≠ []) =
          ((jsSplitRunsAux isJsSpace none a2).filter (fun t => t ≠ [])) ++
            tokens b := by
        rw [tokensAux_none, tokensAux_none]
        exact tokens_ws_split c hc a2 [] b
      rw [h1]
      split_ifs <;> simp
    · rw [List.cons_append]
      rw [show jsSplitRunsAux isJsSpace (some acc) (d :: (a2 ++ c :: b)) =
          jsSplitRunsAux isJsSpace (some (d :: acc)) (a2 ++ c :: b) from by
        simp [jsSplitRunsAux, hd]]
      rw [show jsSplitRunsAux isJsSpace (some acc) (d :: a2) =
          jsSplitRunsAux isJsSpace (some (d :: acc)) a2 from by
        simp [jsSplitRunsAux, hd]]
      exact tokens_ws_split c hc a2 (d :: acc) b

theorem tokens_ws_append (c : Char) (hc : isJsSpace c = true)
    (a b : List Char) : tokens (a ++ c :: b) = tokens a ++ tokens b :=
  tokens_ws_split c hc a [] b

theorem tokens_ws_cons (c : Char) (hc : isJsSpace c = true) (b : List Char) :
    tokens (c :: b) = tokens b := by
  have h := tokens_ws_split c hc [] [] b
  simp only [List.nil_append] at h
  rw [show tokens (c :: b) =
      (jsSplitRunsAux isJsSpace (some []) (c :: b)).filter (fun t => t ≠ [])
    from rfl]
  rw [h]
  simp [jsSplitRunsAux]

theorem tokens_all_ws : ∀ (w : List Char),
    (∀ c ∈ w, isJsSpace c = true) → tokens w = []
  | [], _ => rfl
  | c :: w2, h => by
    rw [tokens_ws_cons c (h c (by simp))]
    exact tokens_all_ws w2 (fun d hd => h d (by simp [hd]))

theorem tokens_append_all_ws (a w : List Char)
    (h : ∀ c ∈ w, isJsSpace c = true) : tokens (a ++ w) = tokens a := by
  cases w with
  | nil => rw [List.append_nil]
  | cons c w2 =>
    rw [tokens_ws_append c (h c (by simp)) a w2]
    rw [tokens_all_ws w2 (fun d hd => h d (by simp [hd]))]
    rw [List.append_nil]

theorem tokens_dropWhile (s : List Char) :
    tokens (s.dropWhile isJsSpace) = tokens s := by
  induction s with
  | nil => rfl
  | cons c rest ih =>
    by_cases hc : isJsSpace c
    · rw [List.dropWhile_cons]
      simp only [hc, if_true]
      rw [ih, tokens_ws_cons c hc]
    · rw [List.dropWhile_cons]
      simp only [hc]
      rw [if_neg (by simp [hc])]

theorem tokens_trim (s : List Char) : tokens (trimStr s) = tokens s := by
  unfold trimStr
  have hsplit : ((s.dropWhile isJsSpace).reverse.dropWhile isJsSpace).reverse
      ++ ((s.dropWhile isJsSpace).reverse.takeWhile isJsSpace).reverse =
      s.dropWhile isJsSpace := by
    calc ((s.dropWhile isJsSpace).reverse.dropWhile isJsSpace).reverse ++
        ((s.dropWhile isJsSpace).reverse.takeWhile isJsSpace).reverse =
        ((s.dropWhile isJsSpace).reverse.takeWhile isJsSpace ++
          (s.dropWhile isJsSpace).reverse.dropWhile isJsSpace).reverse := by
          rw [List.reverse_append]
      _ = (s.dropWhile isJsSpace).reverse.reverse := by
          rw [@List.takeWhile_append_dropWhile _ isJsSpace]
      _ = s.dropWhile isJsSpace := List.reverse_reverse _
  have hws : ∀ c ∈ ((s.dropWhile isJsSpace).reverse.takeWhile
      isJsSpace).reverse, isJsSpace c = true := by
    intro c hcmem
    rw [List.mem_reverse] at hcmem
    exact List.mem_takeWhile_imp hcmem
  calc tokens (((s.dropWhile isJsSpace).reverse.dropWhile isJsSpace).reverse)
      = tokens (((s.dropWhile isJsSpace).reverse.dropWhile
          isJsSpace).reverse ++ ((s.dropWhile isJsSpace).reverse.takeWhile
          isJsSpace).reverse) := (tokens_append_all_ws _ _ hws).symm
    _ = tokens (s.dropWhile isJsSpace) := by rw [hsplit]
    _ = tokens s := tokens_dropWhile s

theorem jsSplitRunsAux_no_ws :
    ∀ (t acc : List Char), (∀ c ∈ t, isJsSpace c = false) →
      jsSplitRunsAux isJsSpace (some acc) t = [acc.reverse ++ t]
  | [], acc, _ => by simp [jsSplitRunsAux]
  | c :: rest, acc, h => by
    have hc : isJsSpace c = false := h c (by simp)
    rw [show jsSplitRunsAux isJsSpace (some acc) (c :: rest) =
        jsSplitRunsAux isJsSpace (some (c :: acc)) rest from by
      simp [jsSplitRunsAux, hc]]
    rw [jsSplitRunsAux_no_ws rest (c :: acc) (fun d hd => h d (by simp [hd]))]
    simp

theorem tokens_no_ws (t : List Char) (hne : t ≠ [])
    (h : ∀ c ∈ t, isJsSpace c = false) : tokens t = [t] := by
  rw [show tokens t =
      (jsSplitRunsAux isJsSpace (some []) t).filter (fun x => x ≠ [])
    from rfl]
  rw [jsSplitRunsAux_no_ws t [] h]
  simp [hne]

theorem jsSplitRunsAux_mem_no_ws :
    ∀ (l : List Char) (building : Option (List Char)),
      (∀ acc, building = some acc → ∀ c ∈ acc, isJsSpace c = false) →
      ∀ piece ∈ jsSplitRunsAux isJsSpace building l, ∀ c ∈ piece,
        isJsSpace c = false
  | [], building, hb => by
    cases building with
    | none =>
      intro piece hp c hc
      simp [jsSplitRunsAux] at hp
      subst hp
      exact absurd hc (List.not_mem_nil c)
    | some acc =>
      intro piece hp c hc
      simp [jsSplitRunsAux] at hp
      subst hp
      rw [List.mem_reverse] at hc
      exact hb acc rfl c hc
  | d :: rest, building, hb => by
    cases building with
    | some acc =>
      by_cases hd : isJsSpace d
      · intro piece hp c hc
        rw [show jsSplitRunsAux isJsSpace (some acc) (d :: rest) =
            acc.reverse :: jsSplitRunsAux isJsSpace none rest from by
          simp [jsSplitRunsAux, hd]] at hp
        rcases List.mem_cons.mp hp with h1 | h1
        · subst h1
          rw [List.mem_reverse] at hc
          exact hb acc rfl c hc
        · exact jsSplitRunsAux_mem_no_ws rest none
            (fun a ha => Option.noConfusion ha) piece h1 c hc
      · intro piece hp c hc
        rw [show jsSplitRunsAux isJsSpace (some acc) (d :: rest) =
            jsSplitRunsAux isJsSpace (some (d :: acc)) rest from by
          simp [jsSplitRunsAux, hd]] at hp
        refine jsSplitRunsAux_mem_no_ws rest (some (d :: acc)) ?_ piece hp c hc
        intro a ha
        injection ha with ha
        subst ha
        intro e he
        rcases List.mem_cons.mp he with h2 | h2
        · subst h2
          simpa using hd
        · exact hb acc rfl e h2
    | none =>
      by_cases hd : isJsSpace d
      · intro piece hp c hc
        rw [show jsSplitRunsAux isJsSpace none (d :: rest) =
            jsSplitRunsAux isJsSpace none rest from by
          simp [jsSplitRunsAux, hd]] at hp
        exact jsSplitRunsAux_mem_no_ws rest none
          (fun a ha => Option.noConfusion ha) piece hp c hc
      · intro piece hp c hc
        rw [show jsSplitRunsAux isJsSpace none (d :: rest) =
            jsSplitRunsAux isJsSpace (some [d]) rest from by
          simp [jsSplitRunsAux, hd]] at hp
        refine jsSplitRunsAux_mem_no_ws rest (some [d]) ?_ piece hp c hc
        intro a ha
        injection ha with ha
        subst ha
        intro e he
        rcases List.mem_cons.mp he with h2 | h2
        · subst h2
          simpa using hd
        · exact absurd h2 (List.not_mem_nil e)

theorem tokens_mem_no_ws (s t : List Char) (ht : t ∈ tokens s) :
    ∀ c ∈ t, isJsSpace c = false := by
  have h := jsSplitRunsAux_mem_no_ws s (some [])
    (fun acc ha => by
      injection ha with ha
      subst ha
      exact fun c hc => absurd hc (List.not_mem_nil c))
  exact h t (List.mem_of_mem_filter ht)

theorem tokens_mem_ne (s t : List Char) (ht : t ∈ tokens s) : t ≠ [] := by
  have h := List.of_mem_filter ht
  simpa using h

theorem catTokens_cons (x : List Char) (l : List (List Char)) :
    catTokens (x :: l) = tokens x ++ catTokens l := rfl

theorem catTokens_filter_ne (ls : List (List Char)) :
    catTokens (ls.filter (fun x => x ≠ [])) = catTokens ls := by
  induction ls with
  | nil => rfl
  | cons x l ih =>
    by_cases hx : x = []
    · subst hx
      rw [List.filter_cons]
      rw [if_neg (by simp)]
      rw [ih, catTokens_cons]
      rfl
    · rw [List.filter_cons]
      rw [if_pos (by simp [hx])]
      rw [catTokens_cons, catTokens_cons, ih]

theorem catTokens_map_trim (ls : List (List Char)) :
    catTokens (ls.map trimStr) = catTokens ls := by
  induction ls with
  | nil => rfl
  | cons x l ih =>
    rw [List.map_cons, catTokens_cons, catTokens_cons, tokens_trim, ih]

theorem catTokens_self : ∀ (l : List (List Char)),
    (∀ t ∈ l, tokens t = [t]) → catTokens l = l
  | [], _ => rfl
  | x :: l, h => by
    rw [catTokens_cons, h x (by simp),
      catTokens_self l (fun t ht => h t (by simp [ht]))]
    rfl

theorem catTokens_tokens (s : List Char) : catTokens (tokens s) = tokens s :=
  catTokens_self (tokens s) (fun t ht =>
    tokens_no_ws t (tokens_mem_ne s t ht) (tokens_mem_no_ws s t ht))

theorem paraSplitAux_tokens :
    ∀ (l : List Char) (inDelim : Bool) (acc : List Char),
      (inDelim = true → acc = []) →
      catTokens (paraSplitAux inDelim acc l) = tokens (acc.reverse ++ l)
  | [], inDelim, acc, _ => by
    rw [show paraSplitAux inDelim acc [] = [acc.reverse] from rfl]
    rw [catTokens_cons, List.append_nil]
    simp [catTokens]
  | c :: rest, true, acc, h => by
    have hacc : acc = [] := h rfl
    subst hacc
    by_cases hc : c = '\n'
    · subst hc
      rw [show paraSplitAux true [] ('\n' :: rest) =
          paraSplitAux true [] rest from by simp [paraSplitAux]]
      rw [paraSplitAux_tokens rest true [] (fun _ => rfl)]
      simp only [List.reverse_nil, List.nil_append]
      exact (tokens_ws_cons '\n' (by decide) rest).symm
    · rw [show paraSplitAux true [] (c :: rest) =
          paraSplitAux false [c] rest from by simp [paraSplitAux, hc]]
      rw [paraSplitAux_tokens rest false [c] (by simp)]
      simp
  | c :: rest, false, acc, _ => by
    by_cases hsep : c = '\n' ∧ rest.head? = some '\n'
    · obtain ⟨hc, hh⟩ := hsep
      subst hc
      rw [show paraSplitAux false acc ('\n' :: rest) =
          acc.reverse :: paraSplitAux true [] rest from by
        simp [paraSplitAux, hh]]
      rw [catTokens_cons]
      rw [paraSplitAux_tokens rest true [] (fun _ => rfl)]
      exact (tokens_ws_append '\n' (by decide) acc.reverse rest).symm
    · rw [show paraSplitAux false acc (c :: rest) =
          paraSplitAux false (c :: acc) rest from by
        simp [paraSplitAux, hsep]]
      rw [paraSplitAux_tokens rest false (c :: acc) (by simp)]
      simp

theorem paraSplit_tokens (s : List Char) :
    catTokens (paragraphSplit s) = tokens s := by
  have h := paraSplitAux_tokens s false [] (by simp)
  simpa using h

theorem sentSplitAux_tokens :
    ∀ (l : List Char) (inDelim : Bool) (acc : List Char) (prev : Char),
      (inDelim = true → acc = []) →
      catTokens (sentSplitAux inDelim acc prev l) = tokens (acc.reverse ++ l)
  | [], inDelim, acc, _, _ => by
    rw [show sentSplitAux inDelim acc _ [] = [acc.reverse] from rfl]
    rw [catTokens_cons, List.append_nil]
    simp [catTokens]
  | c :: rest, true, acc, prev, h => by
    have hacc : acc = [] := h rfl
    subst hacc
    by_cases hc : isJsSpace c
    · rw [show sentSplitAux true [] prev (c :: rest) =
          sentSplitAux true [] ' ' rest from by simp [sentSplitAux, hc]]
      rw [sentSplitAux_tokens rest true [] ' ' (fun _ => rfl)]
      simp only [List.reverse_nil, List.nil_append]
      exact (tokens_ws_cons c (by simpa using hc) rest).symm
    · rw [show sentSplitAux true [] prev (c :: rest) =
          sentSplitAux false [c] c rest from by simp [sentSplitAux, hc]]
      rw [sentSplitAux_tokens rest false [c] c (by simp)]
      simp
  | c :: rest, false, acc, prev, _ => by
    by_cases hc : isJsSpace c
    · by_cases hp : prev = '.' ∨ prev = '!' ∨ prev = '?'
      · rw [show sentSplitAux false acc prev (c :: rest) =
            acc.reverse :: sentSplitAux true [] ' ' rest from by
          simp only [sentSplitAux]
          rcases hp with hp | hp | hp <;> simp [hc, hp]]
        rw [catTokens_cons]
        rw [sentSplitAux_tokens rest true [] ' ' (fun _ => rfl)]
        exact (tokens_ws_append c (by simpa using hc) acc.reverse rest).symm
      · rw [show sentSplitAux false acc prev (c :: rest) =
            sentSplitAux false (c :: acc) c rest from by
          have h1 : ¬prev = '.' := fun he => hp (Or.inl he)
          have h2 : ¬prev = '!' := fun he => hp (Or.inr (Or.inl he))
          have h3 : ¬prev = '?' := fun he => hp (Or.inr (Or.inr he))
          simp [sentSplitAux, hc, h1, h2, h3]]
        rw [sentSplitAux_tokens rest false (c :: acc) c (by simp)]
        simp
    · rw [show sentSplitAux false acc prev (c :: rest) =
          sentSplitAux false (c :: acc) c rest from by
        simp [sentSplitAux, hc]]
      rw [sentSplitAux_tokens rest false (c :: acc) c (by simp)]
      simp

theorem sentSplit_tokens (s : List Char) :
    catTokens (sentenceSplit s) = tokens s := by
  have h := sentSplitAux_tokens s false [] '\x00' (by simp)
  simpa using h

theorem pushCur_tokens (st : SplitAcc) :
    catTokens (pushCur st).out = catTokens st.out ++ tokens st.cur := by
  simp only [pushCur]
  split_ifs with hv
  · have hz : tokens st.cur = [] := by
      rw [← tokens_trim st.cur, hv]
      rfl
    rw [hz, List.append_nil]
  · rw [show catTokens (st.out ++ [trimStr st.cur]) =
        catTokens st.out ++ catTokens [trimStr st.cur] from by
      simp [catTokens]]
    rw [show catTokens [trimStr st.cur] = tokens (trimStr st.cur) ++ [] from
      rfl]
    rw [List.append_nil, tokens_trim]

theorem addUnit_tokens (maxB : Nat) (st : SplitAcc) (u : List Char) :
    catTokens (addUnit maxB st u).out ++ tokens (addUnit maxB st u).cur =
      (catTokens st.out ++ tokens st.cur) ++ tokens u := by
  simp only [addUnit]
  split_ifs with hcur hfit hfit2
  · rw [hcur]
    rw [show tokens ([] : List Char) = [] from rfl]
    simp
  · rw [pushCur_tokens]
  · rw [tokens_ws_append ' ' (by decide)]
    simp [List.append_assoc]
  · rw [pushCur_tokens]

theorem wordStep_tokens (maxB : Nat) (st : SplitAcc) (w : List Char)
    (hw : utf8Len w ≤ maxB) :
    catTokens (wordStep maxB st w).out ++ tokens (wordStep maxB st w).cur =
      (catTokens st.out ++ tokens st.cur) ++ tokens w := by
  unfold wordStep
  rw [if_neg (by omega)]
  exact addUnit_tokens maxB st w

theorem foldWords_tokens (maxB : Nat) :
    ∀ (l : List (List Char)) (st : SplitAcc),
      (∀ w ∈ l, utf8Len w ≤ maxB) →
      catTokens (l.foldl (wordStep maxB) st).out ++
        tokens (l.foldl (wordStep maxB) st).cur =
      (catTokens st.out ++ tokens st.cur) ++ catTokens l
  | [], st, _ => by simp [catTokens]
  | w :: l, st, h => by
    rw [List.foldl_cons]
    rw [foldWords_tokens maxB l (wordStep maxB st w)
      (fun x hx => h x (by simp [hx]))]
    rw [wordStep_tokens maxB st w (h w (by simp))]
    rw [catTokens_cons]
    simp [List.append_assoc]

theorem sentenceStep_tokens (maxB : Nat) (st : SplitAcc) (s : List Char)
    (hs : ∀ w ∈ tokens s, utf8Len w ≤ maxB) :
    catTokens (sentenceStep maxB st s).out ++
      tokens (sentenceStep maxB st s).cur =
    (catTokens st.out ++ tokens st.cur) ++ tokens s := by
  unfold sentenceStep
  split_ifs with hfit
  · exact addUnit_tokens maxB st s
  · rw [foldWords_tokens maxB (tokens s) st hs]
    rw [catTokens_tokens]

theorem foldSentences_tokens (maxB : Nat) :
    ∀ (l : List (List Char)) (st : SplitAcc),
      (∀ s ∈ l, ∀ w ∈ tokens s, utf8Len w ≤ maxB) →
      catTokens (l.foldl (sentenceStep maxB) st).out ++
        tokens (l.foldl (sentenceStep maxB) st).cur =
      (catTokens st.out ++ tokens st.cur) ++ catTokens l
  | [], st, _ => by simp [catTokens]
  | s :: l, st, h => by
    rw [List.foldl_cons]
    rw [foldSentences_tokens maxB l (sentenceStep maxB st s)
      (fun x hx w hw => h x (by simp [hx]) w hw)]
    rw [sentenceStep_tokens maxB st s (h s (by simp))]
    rw [catTokens_cons]
    simp [List.append_assoc]

theorem splitParts_tokens (p : List Char) (B : Nat)
    (hB : ∀ t ∈ tokens p, utf8Len t ≤ B) :
    catTokens (splitToByteSafeParts p B) = tokens p := by
  simp only [splitToByteSafeParts]
  split_ifs with he hfit
  · rw [← tokens_trim p, he]
    rfl
  · rw [show catTokens [trimStr p] = tokens (trimStr p) ++ [] from rfl]
    rw [List.append_nil, tokens_trim]
  · have hsent : catTokens
        ((sentenceSplit (trimStr p)).filter (fun x => x ≠ [])) =
        tokens (trimStr p) := by
      rw [catTokens_filter_ne]
      exact sentSplit_tokens (trimStr p)
    have hw2 : ∀ s ∈ (sentenceSplit (trimStr p)).filter (fun x => x ≠ []),
        ∀ w ∈ tokens s, utf8Len w ≤ B := by
      intro s hs w hw
      apply hB
      rw [← tokens_trim p, ← hsent]
      exact List.mem_flatMap.mpr ⟨s, hs, hw⟩
    have hfold := foldSentences_tokens B
      ((sentenceSplit (trimStr p)).filter (fun x => x ≠ [])) ⟨[], []⟩ hw2
    rw [pushCur_tokens, hfold, hsent, tokens_trim]
    rfl

theorem chunkFlush_tokens (st : List (List Char) × List Char) :
    catTokens (chunkFlush st) = catTokens st.1 ++ tokens st.2 := by
  simp only [chunkFlush]
  split_ifs with hv
  · have hz : tokens st.2 = [] := by
      rw [← tokens_trim st.2, hv]
      rfl
    rw [hz, List.append_nil]
  · rw [show catTokens (st.1 ++ [trimStr st.2]) =
        catTokens st.1 ++ catTokens [trimStr st.2] from by simp [catTokens]]
    rw [show catTokens [trimStr st.2] = tokens (trimStr st.2) ++ [] from rfl]
    rw [List.append_nil, tokens_trim]

theorem chunkStep_tokens (B : Nat) (st : List (List Char) × List Char)
    (part : List Char) :
    catTokens (chunkStep B st part).1 ++ tokens (chunkStep B st part).2 =
      (catTokens st.1 ++ tokens st.2) ++ tokens part := by
  simp only [chunkStep]
  split_ifs with hcur hfit hfit2
  · rw [hcur]
    rw [show tokens ([] : List Char) = [] from rfl]
    simp
  · rw [chunkFlush_tokens]
  · rw [tokens_ws_append '\n' (by decide) st.2 ('\n' :: part)]
    rw [tokens_ws_cons '\n' (by decide) part]
    simp [List.append_assoc]
  · rw [chunkFlush_tokens]

theorem foldChunks_tokens (B : Nat) :
    ∀ (l : List (List Char)) (st : List (List Char) × List Char),
      catTokens (l.foldl (chunkStep B) st).1 ++
        tokens (l.foldl (chunkStep B) st).2 =
      (catTokens st.1 ++ tokens st.2) ++ catTokens l
  | [], st => by simp [catTokens]
  | part :: l, st => by
    rw [List.foldl_cons]
    rw [foldChunks_tokens B l (chunkStep B st part)]
    rw [chunkStep_tokens B st part]
    rw [catTokens_cons]
    simp [List.append_assoc]

theorem chunkParaStep_tokens (B : Nat) (st : List (List Char) × List Char)
    (p : List Char) (hp : ∀ t ∈ tokens p, utf8Len t ≤ B) :
    catTokens (chunkParaStep B st p).1 ++ tokens (chunkParaStep B st p).2 =
      (catTokens st.1 ++ tokens st.2) ++ tokens p := by
  unfold chunkParaStep
  rw [foldChunks_tokens B (splitToByteSafeParts p B) st]
  rw [splitParts_tokens p B hp]

theorem foldParas_tokens (B : Nat) :
    ∀ (l : List (List Char)) (st : List (List Char) × List Char),
      (∀ p ∈ l, ∀ t ∈ tokens p, utf8Len t ≤ B) →
      catTokens (l.foldl (chunkParaStep B) st).1 ++
        tokens (l.foldl (chunkParaStep B) st).2 =
      (catTokens st.1 ++ tokens st.2) ++ catTokens l
  | [], st, _ => by simp [catTokens]
  | p :: l, st, h => by
    rw [List.foldl_cons]
    rw [foldParas_tokens B l (chunkParaStep B st p)
      (fun x hx t ht => h x (by simp [hx]) t ht)]
    rw [chunkParaStep_tokens B st p (h p (by simp))]
    rw [catTokens_cons]
    simp [List.append_assoc]

theorem tokens_joinWith_space :
    ∀ (parts : List (List Char)),
      tokens (joinWith [' '] parts) = catTokens parts
  | [] => rfl
  | [x] => by
    rw [show joinWith [' '] [x] = x from rfl]
    rw [show catTokens [x] = tokens x ++ [] from rfl]
    rw [List.append_nil]
  | x :: y :: rest => by
    rw [show joinWith [' '] (x :: y :: rest) =
        x ++ [' '] ++ joinWith [' '] (y :: rest) from rfl]
    rw [List.append_assoc, List.singleton_append]
    rw [tokens_ws_append ' ' (by decide)]
    rw [tokens_joinWith_space (y :: rest)]
    simp [catTokens_cons]

/-- C3 (amended): whenever every whitespace-separated token of the text
fits the byte budget, joining the chunks emitted by `chunkText` with
spaces reproduces exactly the token sequence of the input — the chunker
only moves whitespace around.  (Without the proviso a token longer than
the budget is split mid-word, as the separate counterexample shows.) -/
theorem chunkText_token_preservation (text : List Char) (B : Nat)
    (hB : ∀ t ∈ tokens text, utf8Len t ≤ B) :
    tokens (joinWith [' '] (chunkText text B)) = tokens text := by
  rw [tokens_joinWith_space (chunkText text B)]
  unfold chunkText
  rw [chunkFlush_tokens]
  have hpara : catTokens (paragraphsOf text) = tokens text := by
    unfold paragraphsOf
    rw [catTokens_filter_ne, catTokens_map_trim]
    exact paraSplit_tokens text
  have hparaB : ∀ p ∈ paragraphsOf text, ∀ t ∈ tokens p, utf8Len t ≤ B := by
    intro p hp t ht
    apply hB
    rw [← hpara]
    exact List.mem_flatMap.mpr ⟨p, hp, ht⟩
  rw [foldParas_tokens B (paragraphsOf text) ([], []) hparaB]
  rw [hpara]
  rfl

/-- Closed witness for the amended C3: both 5-byte tokens of
"alpha beta" survive chunking at budget 5 ("alpha beta" itself does not
fit, so two chunks are produced, and their space-join re-tokenizes to the
original token sequence). -/
theorem chunkText_token_preservation_witness :
    (∀ t ∈ tokens "alpha beta".data, utf8Len t ≤ 5) ∧
    tokens (joinWith [' '] (chunkText "alpha beta".data 5)) =
      tokens "alpha beta".data :=
  ⟨by decide, chunkText_token_preservation "alpha beta".data 5 (by decide)⟩

/-! ## Claim C4 (amended): idempotence of the audio normalizer on inputs
free of CR/LF and of the characters `.` and `/` -/

theorem lowerChar_eq_nonletter (c d : Char) (hd : d.toNat < 97 ∨ 122 < d.toNat)
    (h : lowerChar c = d) : c = d := by
  unfold lowerChar at h
  split_ifs at h with hr
  · exfalso
    simp only [Bool.and_eq_true, decide_eq_true_eq] at hr
    obtain ⟨h1, h2⟩ := hr
    rw [Char.le_def] at h1 h2
    have hb1 : (65 : Nat) ≤ c.toNat := h1
    have hb2 : c.toNat ≤ 90 := h2
    have hv : (c.toNat + 32).isValidChar := by
      left
      omega
    have h3 : (Char.ofNat (c.toNat + 32)).toNat = c.toNat + 32 := by
      rw [Char.ofNat, dif_pos hv]
      simp [Char.ofNatAux, Char.toNat, UInt32.toNat]
    rw [h] at h3
    omega
  · exact h

theorem abbrevMatches_absent (pat s : List Char)
    (hp : '.' ∈ pat ∨ '/' ∈ pat) (hd : '.' ∉ s) (hs : '/' ∉ s) :
    abbrevMatches pat s = false := by
  by_contra hmm2
  have hm : abbrevMatches pat s = true := by
    cases hb : abbrevMatches pat s
    · exact absurd hb hmm2
    · rfl
  simp only [abbrevMatches, Bool.and_eq_true, decide_eq_true_eq] at hm
  obtain ⟨⟨-, heq⟩, -⟩ := hm
  rcases hp with hp | hp
  · rw [← heq] at hp
    rcases List.mem_map.mp hp with ⟨c, hc, hlc⟩
    have : c = '.' := lowerChar_eq_nonletter c '.' (by left; decide) hlc
    subst this
    exact hd (List.take_subset _ _ hc)
  · rw [← heq] at hp
    rcases List.mem_map.mp hp with ⟨c, hc, hlc⟩
    have : c = '/' := lowerChar_eq_nonletter c '/' (by left; decide) hlc
    subst this
    exact hs (List.take_subset _ _ hc)

theorem expandAbbrev_id (pat rep : List Char) (hp : '.' ∈ pat ∨ '/' ∈ pat) :
    ∀ (s : List Char) (pw : Bool), '.' ∉ s → '/' ∉ s →
      expandAbbrevAux pat rep 0 pw s = s
  | [], _, _, _ => rfl
  | c :: rest, pw, hd, hs => by
    rw [expandAbbrevAux]
    rw [if_neg (by omega)]
    rw [abbrevMatches_absent pat (c :: rest) hp hd hs]
    simp only [Bool.and_false, Bool.false_eq_true, if_false]
    rw [expandAbbrev_id pat rep hp rest (isWordChar c)
      (fun h => hd (by simp [h])) (fun h => hs (by simp [h]))]

theorem replaceBullets_id (s : List Char)
    (h : ∀ c ∈ s, isBulletAudio c = false) : replaceBullets s = s := by
  unfold replaceBullets
  induction s with
  | nil => rfl
  | cons c rest ih =>
    rw [List.map_cons]
    rw [if_neg (by simp [h c (by simp)])]
    rw [ih (fun d hd => h d (by simp [hd]))]

theorem replaceBullets_no_bullets (s : List Char) :
    ∀ c ∈ replaceBullets s, isBulletAudio c = false := by
  intro c hc
  rcases List.mem_map.mp hc with ⟨d, -, hd⟩
  by_cases hb : isBulletAudio d
  · rw [if_pos hb] at hd
    rw [← hd]
    decide
  · rw [if_neg hb] at hd
    rw [← hd]
    simpa using hb

theorem replaceCRLF_id : ∀ (s : List Char), '\x0d' ∉ s → replaceCRLF s = s
  | [], _ => rfl
  | [c], _ => rfl
  | c :: d :: rest, h => by
    rw [replaceCRLF]
    rw [if_neg (fun hcd => h (by simp [hcd.1]))]
    rw [replaceCRLF_id (d :: rest) (fun he => h (by simp [he]))]

theorem replaceCR_id (s : List Char) (h : '\x0d' ∉ s) : replaceCR s = s := by
  unfold replaceCR
  induction s with
  | nil => rfl
  | cons c rest ih =>
    rw [List.map_cons]
    rw [if_neg (fun he => h (by simp [he]))]
    rw [ih (fun he => h (by simp [he]))]

theorem dehyphTail_absent (rest : List Char) (h : '\n' ∉ rest) :
    dehyphTail rest = false := by
  rw [dehyphTail.eq_def]
  split
  · simp at h
  · rfl

theorem dehyphenate_id (s : List Char) (h : '\n' ∉ s) :
    dehyphAux 0 s = s := by
  induction s with
  | nil => rfl
  | cons c rest ih =>
    rw [dehyphAux]
    rw [if_neg (by omega)]
    rw [dehyphTail_absent rest (fun he => h (by simp [he]))]
    simp only [Bool.and_false, Bool.false_eq_true, if_false]
    rw [ih (fun he => h (by simp [he]))]

theorem collapseNl3_id (s : List Char) (h : '\n' ∉ s) :
    collapseNl3Aux 0 s = s := by
  induction s with
  | nil => rfl
  | cons c rest ih =>
    rw [collapseNl3Aux]
    rw [if_neg (fun he => h (by simp [he]))]
    rw [if_neg (by omega)]
    rw [show List.replicate 0 '\n' = [] from rfl, List.nil_append]
    rw [ih (fun he => h (by simp [he]))]

theorem joinNlTail_absent (rest : List Char) (h : '\n' ∉ rest) :
    joinNlTail rest = false := by
  rw [joinNlTail.eq_def]
  split
  · simp at h
  · rfl

theorem joinNl_id (s : List Char) (h : '\n' ∉ s) : joinNlAux 0 s = s := by
  induction s with
  | nil => rfl
  | cons c rest ih =>
    rw [joinNlAux]
    rw [if_neg (by omega)]
    rw [joinNlTail_absent rest (fun he => h (by simp [he]))]
    simp only [Bool.and_false, Bool.false_eq_true, if_false]
    rw [ih (fun he => h (by simp [he]))]

theorem jsSplitCharAux_absent (sep : Char) :
    ∀ (s acc : List Char), sep ∉ s →
      jsSplitCharAux sep acc s = [acc.reverse ++ s]
  | [], acc, _ => by simp [jsSplitCharAux]
  | c :: rest, acc, h => by
    rw [jsSplitCharAux]
    rw [if_neg (fun he => h (by simp [he]))]
    rw [jsSplitCharAux_absent sep rest (c :: acc) (fun he => h (by simp [he]))]
    simp

theorem itemizeAux_false_id (s : List Char) (h : '\n' ∉ s) :
    itemizeAux 0 false s = s := by
  induction s with
  | nil => rfl
  | cons c rest ih =>
    rw [itemizeAux]
    rw [if_neg (by omega)]
    simp only [Bool.false_and, Bool.false_eq_true, if_false]
    have hc : (c = '\n') = False := by
      simp only [eq_iff_iff, iff_false]
      exact fun he => h (by simp [he])
    rw [show decide (c = '\n') = false from by simp [hc]]
    rw [ih (fun he => h (by simp [he]))]

theorem itemize_id (s : List Char) (h : '\n' ∉ s)
    (hm : itemMatches s = false) : itemize s = s := by
  unfold itemize
  cases s with
  | nil => rfl
  | cons c rest =>
    rw [itemizeAux]
    rw [if_neg (by omega)]
    rw [hm]
    simp only [Bool.and_false, Bool.false_eq_true, if_false]
    have hc : decide (c = '\n') = false := by
      simp only [decide_eq_false_iff_not]
      exact fun he => h (by simp [he])
    rw [hc]
    rw [itemizeAux_false_id rest (fun he => h (by simp [he]))]

theorem noAdjPair_cons_iff (bad : Char → Char → Bool) (a : Char)
    (l : List Char) :
    noAdjPair bad (a :: l) = true ↔
      (∀ x, l.head? = some x → bad a x = false) ∧ noAdjPair bad l = true := by
  cases l with
  | nil => simp [noAdjPair]
  | cons b r =>
    rw [show noAdjPair bad (a :: b :: r) =
        (!bad a b && noAdjPair bad (b :: r)) from rfl]
    simp only [Bool.and_eq_true, Bool.not_eq_true', List.head?_cons]
    constructor
    · rintro ⟨h1, h2⟩
      refine ⟨?_, h2⟩
      intro x hx
      injection hx with hx
      subst hx
      exact h1
    · rintro ⟨h1, h2⟩
      exact ⟨h1 b rfl, h2⟩

theorem bangAux_id : ∀ (s : List Char) (k : Option Char),
    noDupBang s = true →
    (∀ c, k = some c → (c = '!' ∨ c = '?') ∧ s.head? ≠ some c) →
    bangAux k s = s
  | [], k, _, _ => by cases k <;> rfl
  | c :: rest, k, hnd, hk => by
    have hrest : noDupBang rest = true :=
      ((noAdjPair_cons_iff _ c rest).mp hnd).2
    have hhead := ((noAdjPair_cons_iff _ c rest).mp hnd).1
    have hnext : (c = '!' ∨ c = '?') → rest.head? ≠ some c := by
      intro hc hh
      have := hhead c hh
      rcases hc with hc | hc <;> simp [hc] at this
    cases k with
    | none =>
      rw [bangAux]
      by_cases hc : c = '!' ∨ c = '?'
      · rw [if_pos (by rcases hc with hc | hc <;> simp [hc])]
        rw [bangAux_id rest (some c) hrest ?_]
        intro d hd
        injection hd with hd
        subst hd
        exact ⟨hc, hnext hc⟩
      · rw [if_neg (by simp only [Bool.or_eq_true, decide_eq_true_eq]; exact hc)]
        rw [bangAux_id rest none hrest (fun d hd => Option.noConfusion hd)]
    | some kc =>
      obtain ⟨hkc, hne⟩ := hk kc rfl
      have hck : ¬(c = kc) := fun he => hne (by simp [he])
      rw [bangAux]
      rw [if_neg hck]
      by_cases hc : c = '!' ∨ c = '?'
      · rw [if_pos (by rcases hc with hc | hc <;> simp [hc])]
        rw [bangAux_id rest (some c) hrest ?_]
        intro d hd
        injection hd with hd
        subst hd
        exact ⟨hc, hnext hc⟩
      · rw [if_neg (by simp only [Bool.or_eq_true, decide_eq_true_eq]; exact hc)]
        rw [bangAux_id rest none hrest (fun d hd => Option.noConfusion hd)]

theorem bangAux_noDup : ∀ (s : List Char) (k : Option Char),
    noDupBang (bangAux k s) = true ∧
    (∀ c, k = some c → (bangAux k s).head? ≠ some c)
  | [], k => by
    cases k <;> exact ⟨rfl, fun c hc => by simp [bangAux]⟩
  | c :: rest, k => by
    cases k with
    | some kc =>
      by_cases hck : c = kc
      · rw [show bangAux (some kc) (c :: rest) = bangAux (some kc) rest from by
          rw [bangAux]; rw [if_pos hck]]
        exact bangAux_noDup rest (some kc)
      · by_cases hc : c = '!' ∨ c = '?'
        · rw [show bangAux (some kc) (c :: rest) =
              c :: bangAux (some c) rest from by
            rw [bangAux]; rw [if_neg hck]
            rw [if_pos (by rcases hc with hc | hc <;> simp [hc])]]
          have hrec := bangAux_noDup rest (some c)
          constructor
          · rw [noDupBang, noAdjPair_cons_iff]
            refine ⟨?_, hrec.1⟩
            intro x hx
            have hxc : ¬(x = c) := fun he => hrec.2 c rfl (he ▸ hx)
            simp [hxc]
          · intro d hd
            injection hd with hd
            subst hd
            simp only [List.head?_cons]
            intro he
            injection he with he
            exact hck he
        · rw [show bangAux (some kc) (c :: rest) =
              c :: bangAux none rest from by
            rw [bangAux]; rw [if_neg hck]
            rw [if_neg (by simp only [Bool.or_eq_true, decide_eq_true_eq]; exact hc)]]
          have hrec := bangAux_noDup rest none
          constructor
          · rw [noDupBang, noAdjPair_cons_iff]
            refine ⟨?_, hrec.1⟩
            intro x hx
            have hcb : ((c = '!' || c = '?') : Bool) = false := by
              have h1 : ¬(c = '!') := fun he => hc (Or.inl he)
              have h2 : ¬(c = '?') := fun he => hc (Or.inr he)
              simp [h1, h2]
            simp [hcb]
          · intro d hd
            injection hd with hd
            subst hd
            simp only [List.head?_cons]
            intro he
            injection he with he
            exact hck he
    | none =>
      by_cases hc : c = '!' ∨ c = '?'
      · rw [show bangAux none (c :: rest) = c :: bangAux (some c) rest from by
          rw [bangAux]
          rw [if_pos (by rcases hc with hc | hc <;> simp [hc])]]
        have hrec := bangAux_noDup rest (some c)
        refine ⟨?_, fun d hd => Option.noConfusion hd⟩
        rw [noDupBang, noAdjPair_cons_iff]
        refine ⟨?_, hrec.1⟩
        intro x hx
        have hxc : ¬(x = c) := fun he => hrec.2 c rfl (he ▸ hx)
        simp [hxc]
      · rw [show bangAux none (c :: rest) = c :: bangAux none rest from by
          rw [bangAux]
          rw [if_neg (by simp only [Bool.or_eq_true, decide_eq_true_eq]; exact hc)]]
        have hrec := bangAux_noDup rest none
        refine ⟨?_, fun d hd => Option.noConfusion hd⟩
        rw [noDupBang, noAdjPair_cons_iff]
        refine ⟨?_, hrec.1⟩
        intro x hx
        have hcb : ((c = '!' || c = '?') : Bool) = false := by
          have h1 : ¬(c = '!') := fun he => hc (Or.inl he)
          have h2 : ¬(c = '?') := fun he => hc (Or.inr he)
          simp [h1, h2]
        simp [hcb]

theorem bang_mem_any : ∀ (s : List Char) (k : Option Char) (c : Char),
    c ∈ s → c ∈ bangAux k s ∨ k = some c
  | [], _, c, h => absurd h (List.not_mem_nil c)
  | d :: rest, k, c, h => by
    cases k with
    | some kc =>
      by_cases hdk : d = kc
      · rw [show bangAux (some kc) (d :: rest) = bangAux (some kc) rest from by
          rw [bangAux]; rw [if_pos hdk]]
        rcases List.mem_cons.mp h with h1 | h1
        · right
          rw [h1, hdk]
        · exact bang_mem_any rest (some kc) c h1
      · have hshape : ∃ k2, bangAux (some kc) (d :: rest) =
            d :: bangAux k2 rest ∧ (k2 = none ∨ k2 = some d) := by
          rw [bangAux]
          rw [if_neg hdk]
          by_cases hd : (d = '!' || d = '?') = true
          · rw [if_pos hd]
            exact ⟨some d, rfl, Or.inr rfl⟩
          · rw [if_neg hd]
            exact ⟨none, rfl, Or.inl rfl⟩
        obtain ⟨k2, hk2, hk2v⟩ := hshape
        rw [hk2]
        rcases List.mem_cons.mp h with h1 | h1
        · left
          simp [h1]
        · rcases bang_mem_any rest k2 c h1 with h2 | h2
          · left
            simp [h2]
          · rcases hk2v with h3 | h3
            · rw [h3] at h2
              exact Option.noConfusion h2
            · rw [h3] at h2
              injection h2 with h2
              left
              simp [h2]
    | none =>
      have hshape : ∃ k2, bangAux none (d :: rest) =
          d :: bangAux k2 rest ∧ (k2 = none ∨ k2 = some d) := by
        rw [bangAux]
        by_cases hd : (d = '!' || d = '?') = true
        · rw [if_pos hd]
          exact ⟨some d, rfl, Or.inr rfl⟩
        · rw [if_neg hd]
          exact ⟨none, rfl, Or.inl rfl⟩
      obtain ⟨k2, hk2, hk2v⟩ := hshape
      rw [hk2]
      rcases List.mem_cons.mp h with h1 | h1
      · left
        simp [h1]
      · rcases bang_mem_any rest k2 c h1 with h2 | h2
        · left
          simp [h2]
        · rcases hk2v with h3 | h3
          · rw [h3] at h2
            exact Option.noConfusion h2
          · rw [h3] at h2
            injection h2 with h2
            left
            simp [h2]

theorem bang_cons_shape (c : Char) (rest : List Char) :
    ∃ k2, bangAux none (c :: rest) = c :: bangAux k2 rest := by
  rw [bangAux]
  by_cases hd : (c = '!' || c = '?') = true
  · rw [if_pos hd]
    exact ⟨some c, rfl⟩
  · rw [if_neg hd]
    exact ⟨none, rfl⟩

theorem bang_mem_subset : ∀ (s : List Char) (k : Option Char) (c : Char),
    c ∈ bangAux k s → c ∈ s
  | [], k, c, h => by cases k <;> simp [bangAux] at h
  | d :: rest, k, c, h => by
    cases k with
    | some kc =>
      by_cases hdk : d = kc
      · rw [show bangAux (some kc) (d :: rest) = bangAux (some kc) rest from by
          rw [bangAux]; rw [if_pos hdk]] at h
        simp [bang_mem_subset rest (some kc) c h]
      · rw [bangAux] at h
        rw [if_neg hdk] at h
        split_ifs at h with hd
        · rcases List.mem_cons.mp h with h1 | h1
          · simp [h1]
          · simp [bang_mem_subset rest (some d) c h1]
        · rcases List.mem_cons.mp h with h1 | h1
          · simp [h1]
          · simp [bang_mem_subset rest none c h1]
    | none =>
      rw [bangAux] at h
      split_ifs at h with hd
      · rcases List.mem_cons.mp h with h1 | h1
        · simp [h1]
        · simp [bang_mem_subset rest (some d) c h1]
      · rcases List.mem_cons.mp h with h1 | h1
        · simp [h1]
        · simp [bang_mem_subset rest none c h1]

theorem collapse_mem_subset (p : Char → Bool) :
    ∀ (s runRev : List Char) (c : Char), c ∈ collapseRunAux p runRev s →
      c ∈ s ∨ c ∈ runRev ∨ c = ' '
  | [], runRev, c, h => by
    rw [collapseRunAux] at h
    split_ifs at h with hl
    · right; right; simpa using h
    · right; left; simpa using h
  | d :: rest, runRev, c, h => by
    rw [collapseRunAux] at h
    split_ifs at h with hp hl
    · rcases collapse_mem_subset p rest (d :: runRev) c h with h1 | h1 | h1
      · left; simp [h1]
      · rcases List.mem_cons.mp h1 with h2 | h2
        · left; simp [h2]
        · right; left; exact h2
      · right; right; exact h1
    · rcases List.mem_append.mp h with h1 | h1
      · right; right; simpa using h1
      · rcases List.mem_cons.mp h1 with h2 | h2
        · left; simp [h2]
        · rcases collapse_mem_subset p rest [] c h2 with h3 | h3 | h3
          · left; simp [h3]
          · exact absurd h3 (List.not_mem_nil c)
          · right; right; exact h3
    · rcases List.mem_append.mp h with h1 | h1
      · right; left; simpa using h1
      · rcases List.mem_cons.mp h1 with h2 | h2
        · left; simp [h2]
        · rcases collapse_mem_subset p rest [] c h2 with h3 | h3 | h3
          · left; simp [h3]
          · exact absurd h3 (List.not_mem_nil c)
          · right; right; exact h3

theorem collapse_mem_keep (p : Char → Bool) :
    ∀ (s runRev : List Char) (c : Char), p c = false → c ∈ s →
      c ∈ collapseRunAux p runRev s
  | [], _, c, _, hmem => absurd hmem (List.not_mem_nil c)
  | d :: rest, runRev, c, hc, hmem => by
    rw [collapseRunAux]
    split_ifs with hp
    · have hcr : c ∈ rest := by
        rcases List.mem_cons.mp hmem with h1 | h1
        · subst h1
          rw [hp] at hc
          exact absurd hc (by simp)
        · exact h1
      exact collapse_mem_keep p rest (d :: runRev) c hc hcr
    · rcases List.mem_cons.mp hmem with h1 | h1
      · subst h1
        exact List.mem_append.mpr (Or.inr (by simp))
      · exact List.mem_append.mpr (Or.inr (List.mem_cons.mpr
          (Or.inr (collapse_mem_keep p rest [] c hc h1))))
    · rcases List.mem_cons.mp hmem with h1 | h1
      · subst h1
        exact List.mem_append.mpr (Or.inr (by simp))
      · exact List.mem_append.mpr (Or.inr (List.mem_cons.mpr
          (Or.inr (collapse_mem_keep p rest [] c hc h1))))

theorem collapse_head_solid (p : Char → Bool) (c : Char) (rest : List Char)
    (hc : p c = false) :
    collapseRunAux p [] (c :: rest) = c :: collapseRunAux p [] rest := by
  rw [collapseRunAux]
  rw [if_neg (by simp [hc])]
  simp

theorem collapse_id (p : Char → Bool) :
    ∀ (s : List Char),
      noAdjPair (fun a b => p a && p b) s = true →
      collapseRunAux p [] s = s
  | [], _ => rfl
  | [c], _ => by
    by_cases hp : p c = true
    · rw [collapseRunAux]
      rw [if_pos hp]
      rw [collapseRunAux]
      rw [if_neg (by norm_num)]
      simp
    · rw [collapseRunAux]
      rw [if_neg hp]
      rw [show collapseRunAux p [] ([] : List Char) = [] from by
        rw [collapseRunAux]; norm_num]
      rw [if_neg (by norm_num)]
      simp
  | c :: d :: rest, h => by
    obtain ⟨hhd, htl⟩ := (noAdjPair_cons_iff _ c (d :: rest)).mp h
    by_cases hp : p c = true
    · have hd : p d = false := by
        have := hhd d rfl
        rw [hp] at this
        simpa using this
      rw [collapseRunAux]
      rw [if_pos hp]
      rw [collapseRunAux]
      rw [if_neg (by simp [hd])]
      rw [show (if ([c] : List Char).length ≥ 2 then [' ']
          else [c].reverse) = [c] from by norm_num]
      rw [collapse_id p rest ((noAdjPair_cons_iff _ d rest).mp htl).2]
      simp
    · rw [collapseRunAux]
      rw [if_neg hp]
      rw [collapse_id p (d :: rest) htl]
      simp

theorem collapse_out_head (p : Char → Bool) :
    ∀ (s runRev : List Char), (∀ c ∈ runRev, p c = true) →
      (collapseRunAux p runRev s).head? = none ∨
      (∃ x, (collapseRunAux p runRev s).head? = some x ∧
        (p x = true ∨ x = ' ')) ∨
      (runRev = [] ∧ (collapseRunAux p runRev s).head? = s.head? ∧
        ∀ y, s.head? = some y → p y = false)
  | [], [], _ => by
    left
    simp [collapseRunAux]
  | [], a :: t, hrun => by
    rw [collapseRunAux]
    split_ifs with hl
    · right; left
      exact ⟨' ', rfl, Or.inr rfl⟩
    · have ht : t = [] := by
        have h2 := Nat.not_le.mp hl
        rw [List.length_cons] at h2
        exact List.length_eq_zero.mp (by omega)
      subst ht
      right; left
      exact ⟨a, by simp, Or.inl (hrun a (by simp))⟩
  | d :: rest, runRev, hrun => by
    by_cases hd : p d = true
    · rw [collapseRunAux, if_pos hd]
      have hrun2 : ∀ c ∈ d :: runRev, p c = true := by
        intro c hc
        rcases List.mem_cons.mp hc with h1 | h1
        · subst h1
          exact hd
        · exact hrun c h1
      rcases collapse_out_head p rest (d :: runRev) hrun2 with h | h | h
      · left
        exact h
      · right; left
        exact h
      · exact absurd h.1 (by simp)
    · rw [collapseRunAux, if_neg hd]
      cases runRev with
      | nil =>
        right; right
        refine ⟨rfl, by simp, ?_⟩
        intro y hy
        injection hy with hy
        subst hy
        simpa using hd
      | cons a t =>
        right; left
        split_ifs with hl
        · exact ⟨' ', by simp, Or.inr rfl⟩
        · have ht : t = [] := by
            have h2 := Nat.not_le.mp hl
            rw [List.length_cons] at h2
            exact List.length_eq_zero.mp (by omega)
          subst ht
          exact ⟨a, by simp, Or.inl (hrun a (by simp))⟩

theorem dropWhile_head_false {α : Type} (p : α → Bool) :
    ∀ (l : List α) (x : α) (xs : List α), l.dropWhile p = x :: xs → p x = false
  | [], x, xs, h => by simp at h
  | c :: rest, x, xs, h => by
    rw [List.dropWhile_cons] at h
    split_ifs at h with hc
    · exact dropWhile_head_false p rest x xs h
    · injection h with h1 h2
      subst h1
      simpa using hc

theorem dropWhile_mem_keep {α : Type} (p : α → Bool) :
    ∀ (l : List α) (c : α), c ∈ l → p c = false → c ∈ l.dropWhile p
  | [], c, h, _ => absurd h (List.not_mem_nil c)
  | d :: rest, c, h, hc => by
    rw [List.dropWhile_cons]
    split_ifs with hd
    · rcases List.mem_cons.mp h with h1 | h1
      · rw [h1] at hc
        rw [hd] at hc
        exact absurd hc (by simp)
      · exact dropWhile_mem_keep p rest c h1 hc
    · exact h

theorem mem_of_dropWhile {α : Type} (p : α → Bool) :
    ∀ (l : List α) (c : α), c ∈ l.dropWhile p → c ∈ l
  | [], c, h => by simp at h
  | d :: rest, c, h => by
    rw [List.dropWhile_cons] at h
    split_ifs at h with hd
    · exact List.mem_cons.mpr (Or.inr (mem_of_dropWhile p rest c h))
    · exact h

theorem dropWhile_stop_suffix {α : Type} (p : α → Bool) (d : α) (rest : List α)
    (hd : p d = false) :
    ∀ (xs : List α), ∃ t, (xs ++ d :: rest).dropWhile p = t ++ d :: rest
  | [] => ⟨[], by rw [List.nil_append, List.dropWhile_cons,
      if_neg (by simp [hd])]⟩
  | x :: xs => by
    rw [List.cons_append, List.dropWhile_cons]
    split_ifs with hx
    · exact dropWhile_stop_suffix p d rest hd xs
    · exact ⟨x :: xs, rfl⟩

theorem trimStr_head_not_ws (s : List Char) (x : Char)
    (h : (trimStr s).head? = some x) : isJsSpace x = false := by
  have hsuf : (s.dropWhile isJsSpace).reverse.dropWhile isJsSpace <:+
      (s.dropWhile isJsSpace).reverse := List.dropWhile_suffix _
  obtain ⟨w, hw⟩ := hsuf
  have hfull : s.dropWhile isJsSpace = trimStr s ++ w.reverse := by
    have h2 := congrArg List.reverse hw
    rw [List.reverse_append, List.reverse_reverse] at h2
    exact h2.symm
  cases hv : trimStr s with
  | nil =>
    rw [hv] at h
    exact absurd h (by simp)
  | cons y t =>
    rw [hv] at h
    rw [List.head?_cons] at h
    injection h with h
    subst h
    rw [hv] at hfull
    exact dropWhile_head_false isJsSpace s _ (t ++ w.reverse) hfull

theorem trimStr_getLast_not_ws (s : List Char) (x : Char)
    (h : (trimStr s).getLast? = some x) : isJsSpace x = false := by
  have h2 : ((s.dropWhile isJsSpace).reverse.dropWhile isJsSpace).head? =
      some x := by
    rw [← List.getLast?_reverse]
    exact h
  cases hv : (s.dropWhile isJsSpace).reverse.dropWhile isJsSpace with
  | nil =>
    rw [hv] at h2
    exact absurd h2 (by simp)
  | cons y t =>
    rw [hv] at h2
    rw [List.head?_cons] at h2
    injection h2 with h2
    subst h2
    exact dropWhile_head_false isJsSpace _ _ t hv

theorem trim_mem_subset (s : List Char) (c : Char) (h : c ∈ trimStr s) :
    c ∈ s := by
  unfold trimStr at h
  rw [List.mem_reverse] at h
  have h2 := mem_of_dropWhile _ _ _ h
  rw [List.mem_reverse] at h2
  exact mem_of_dropWhile _ _ _ h2

theorem trim_mem_keep (s : List Char) (c : Char) (h : c ∈ s)
    (hc : isJsSpace c = false) : c ∈ trimStr s := by
  unfold trimStr
  rw [List.mem_reverse]
  apply dropWhile_mem_keep
  · rw [List.mem_reverse]
    exact dropWhile_mem_keep isJsSpace s c h hc
  · exact hc

theorem trim_head_solid (c : Char) (r : List Char)
    (hc : isJsSpace c = false) : ∃ t, trimStr (c :: r) = c :: t := by
  obtain ⟨t, ht⟩ := dropWhile_stop_suffix isJsSpace c [] hc r.reverse
  refine ⟨t.reverse, ?_⟩
  unfold trimStr
  rw [List.dropWhile_cons, if_neg (by simp [hc]), List.reverse_cons, ht]
  rw [List.reverse_append]
  rfl

theorem trim_pair_solid (c d : Char) (r : List Char)
    (hc : isJsSpace c = false) (hd : isJsSpace d = false) :
    ∃ t, trimStr (c :: d :: r) = c :: d :: t := by
  obtain ⟨t, ht⟩ := dropWhile_stop_suffix isJsSpace d [c] hd r.reverse
  refine ⟨t.reverse, ?_⟩
  unfold trimStr
  rw [List.dropWhile_cons, if_neg (by simp [hc])]
  rw [List.reverse_cons, List.reverse_cons, List.append_assoc,
    List.singleton_append, ht]
  rw [List.reverse_append]
  rfl

theorem trim_eq_self_of (v : List Char)
    (hh : ∀ x, v.head? = some x → isJsSpace x = false)
    (hl : ∀ x, v.getLast? = some x → isJsSpace x = false) :
    trimStr v = v := by
  have h1 : v.dropWhile isJsSpace = v := by
    cases v with
    | nil => rfl
    | cons c r =>
      rw [List.dropWhile_cons, if_neg (by simp [hh c rfl])]
  have h2 : v.reverse.dropWhile isJsSpace = v.reverse := by
    cases hv : v.reverse with
    | nil => rfl
    | cons c r =>
      have hcx : v.getLast? = some c := by
        rw [← List.head?_reverse, hv, List.head?_cons]
      rw [List.dropWhile_cons, if_neg (by simp [hl c hcx])]
  unfold trimStr
  rw [h1, h2, List.reverse_reverse]

theorem trim_idem (s : List Char) : trimStr (trimStr s) = trimStr s :=
  trim_eq_self_of (trimStr s) (trimStr_head_not_ws s)
    (trimStr_getLast_not_ws s)

theorem ws_not_digit (c : Char) (h : isJsSpace c = true) :
    isDigit c = false := by
  simp only [isJsSpace, Bool.or_eq_true, decide_eq_true_eq] at h
  rcases h with ((((((h | h) | h) | h) | h) | h) | h) | h <;> subst h <;> decide

theorem digit_not_ws (c : Char) (h : isDigit c = true) :
    isJsSpace c = false := by
  cases hw : isJsSpace c
  · rfl
  · rw [ws_not_digit c hw] at h
    exact absurd h (by simp)

theorem ws_lowerChar_self (c : Char) (h : isJsSpace c = true) :
    lowerChar c = c := by
  simp only [isJsSpace, Bool.or_eq_true, decide_eq_true_eq] at h
  rcases h with ((((((h | h) | h) | h) | h) | h) | h) | h <;> subst h <;> decide

theorem bullet_class (c : Char) (h : isBulletAudio c = true) :
    isDigit c = false ∧ isJsSpace c = false ∧ inPageClass c = false := by
  simp only [isBulletAudio, Bool.or_eq_true, decide_eq_true_eq] at h
  rcases h with ((((h | h) | h) | h) | h) | h <;> subst h <;>
    exact ⟨by decide, by decide, by decide⟩

theorem char_eq_of_toNat (c d : Char) (h : c.toNat = d.toNat) : c = d :=
  Char.eq_of_val_eq (UInt32.eq_of_toBitVec_eq (BitVec.eq_of_toNat_eq h))

theorem lowerChar_page_letter (c d : Char)
    (hd : d = 'p' ∨ d = 'a' ∨ d = 'g' ∨ d = 'e')
    (h : lowerChar c = d) : inPageClass c = true := by
  unfold lowerChar at h
  split_ifs at h with hr
  · simp only [Bool.and_eq_true, decide_eq_true_eq] at hr
    obtain ⟨h1, h2⟩ := hr
    rw [Char.le_def] at h1 h2
    have hb1 : (65 : Nat) ≤ c.toNat := h1
    have hb2 : c.toNat ≤ 90 := h2
    have hv : (c.toNat + 32).isValidChar := by
      left
      omega
    have h3 : (Char.ofNat (c.toNat + 32)).toNat = c.toNat + 32 := by
      rw [Char.ofNat, dif_pos hv]
      simp [Char.ofNatAux, Char.toNat, UInt32.toNat]
    rw [h] at h3
    rcases hd with hd | hd | hd | hd <;> subst hd
    · have hc : c = 'P' := char_eq_of_toNat c 'P' (by
        have ha : ('p' : Char).toNat = 112 := by decide
        have hb : ('P' : Char).toNat = 80 := by decide
        omega)
      subst hc
      decide
    · have hc : c = 'A' := char_eq_of_toNat c 'A' (by
        have ha : ('a' : Char).toNat = 97 := by decide
        have hb : ('A' : Char).toNat = 65 := by decide
        omega)
      subst hc
      decide
    · have hc : c = 'G' := char_eq_of_toNat c 'G' (by
        have ha : ('g' : Char).toNat = 103 := by decide
        have hb : ('G' : Char).toNat = 71 := by decide
        omega)
      subst hc
      decide
    · have hc : c = 'E' := char_eq_of_toNat c 'E' (by
        have ha : ('e' : Char).toNat = 101 := by decide
        have hb : ('E' : Char).toNat = 69 := by decide
        omega)
      subst hc
      decide
  · subst h
    rcases hd with hd | hd | hd | hd <;> subst hd <;> decide

theorem itemMatches_cons_not (c : Char) (r : List Char)
    (hc : isJsSpace c = false) (hne : c ≠ '-') :
    itemMatches (c :: r) = false := by
  unfold itemMatches
  rw [List.dropWhile_cons, if_neg (by simp [hc])]
  split
  next x heq =>
    injection heq with h1 h2
    exact absurd h1 hne
  next => rfl

theorem itemMatches_dash (d : Char) (r : List Char)
    (hd : isJsSpace d = false) :
    itemMatches ('-' :: d :: r) = false := by
  unfold itemMatches
  rw [List.dropWhile_cons, if_neg (by decide)]
  show (!((d :: r).takeWhile isJsSpace).isEmpty) = false
  rw [List.takeWhile_cons, if_neg (by simp [hd])]
  rfl

theorem itemMatches_dash_inv (d : Char) (r : List Char)
    (h : itemMatches ('-' :: d :: r) = false) : isJsSpace d = false := by
  cases hw : isJsSpace d
  · rfl
  · exfalso
    unfold itemMatches at h
    rw [List.dropWhile_cons, if_neg (by decide)] at h
    have h2 : (!((d :: r).takeWhile isJsSpace).isEmpty) = false := h
    rw [List.takeWhile_cons, if_pos (by simp [hw])] at h2
    simp at h2

theorem auxSome_cons_ws (acc : List Char) (c : Char)
    (hc : isJsSpace c = true) (y : List Char) :
    jsSplitRunsAux isJsSpace (some acc) (c :: y) =
      acc.reverse :: jsSplitRunsAux isJsSpace none y := by
  simp [jsSplitRunsAux, hc]

theorem auxSome_cons_solid (acc : List Char) (c : Char)
    (hc : isJsSpace c = false) (y : List Char) :
    jsSplitRunsAux isJsSpace (some acc) (c :: y) =
      jsSplitRunsAux isJsSpace (some (c :: acc)) y := by
  simp [jsSplitRunsAux, hc]

theorem auxNone_cons_ws (c : Char) (hc : isJsSpace c = true) (y : List Char) :
    jsSplitRunsAux isJsSpace none (c :: y) =
      jsSplitRunsAux isJsSpace none y := by
  simp [jsSplitRunsAux, hc]

theorem auxNone_cons_solid (c : Char) (hc : isJsSpace c = false)
    (y : List Char) :
    jsSplitRunsAux isJsSpace none (c :: y) =
      jsSplitRunsAux isJsSpace (some [c]) y := by
  simp [jsSplitRunsAux, hc]

theorem auxNone_ws_prepend :
    ∀ (w x : List Char), (∀ c ∈ w, isJsSpace c = true) →
      jsSplitRunsAux isJsSpace none (w ++ x) =
        jsSplitRunsAux isJsSpace none x
  | [], _, _ => rfl
  | c :: w2, x, h => by
    rw [List.cons_append, auxNone_cons_ws c (h c (by simp))]
    exact auxNone_ws_prepend w2 x (fun d hd => h d (by simp [hd]))

theorem auxSome_ws_prepend (acc : List Char) :
    ∀ (w x : List Char), (∀ c ∈ w, isJsSpace c = true) → w ≠ [] →
      jsSplitRunsAux isJsSpace (some acc) (w ++ x) =
        acc.reverse :: jsSplitRunsAux isJsSpace none x
  | [], _, _, hne => absurd rfl hne
  | c :: w2, x, h, _ => by
    rw [List.cons_append, auxSome_cons_ws acc c (h c (by simp))]
    rw [auxNone_ws_prepend w2 x (fun d hd => h d (by simp [hd]))]

theorem tokens_all_ws_prepend (w a : List Char)
    (h : ∀ c ∈ w, isJsSpace c = true) : tokens (w ++ a) = tokens a := by
  induction w with
  | nil => rw [List.nil_append]
  | cons c w2 ih =>
    rw [List.cons_append, tokens_ws_cons c (h c (by simp))]
    exact ih (fun d hd => h d (by simp [hd]))

theorem filter_auxSome_all_ws (acc : List Char) :
    ∀ (w : List Char), (∀ c ∈ w, isJsSpace c = true) →
      (jsSplitRunsAux isJsSpace (some acc) w).filter (fun t => t ≠ []) =
        [acc.reverse].filter (fun t => t ≠ [])
  | [], _ => rfl
  | c :: w2, h => by
    rw [auxSome_cons_ws acc c (h c (by simp))]
    have hrest : (jsSplitRunsAux isJsSpace none w2).filter
        (fun t => t ≠ []) = [] := by
      rw [tokensAux_none]
      exact tokens_all_ws w2 (fun d hd => h d (by simp [hd]))
    rw [List.filter_cons, List.filter_cons, hrest]
    split_ifs <;> rfl

theorem auxSome_ws_congr (acc : List Char) (w w2 x : List Char)
    (hw : ∀ c ∈ w, isJsSpace c = true) (hw2 : ∀ c ∈ w2, isJsSpace c = true)
    (hiff : w = [] ↔ w2 = []) :
    jsSplitRunsAux isJsSpace (some acc) (w ++ x) =
      jsSplitRunsAux isJsSpace (some acc) (w2 ++ x) := by
  by_cases hne : w = []
  · rw [hne, hiff.mp hne]
  · have hne2 : w2 ≠ [] := fun h2 => hne (hiff.mpr h2)
    rw [auxSome_ws_prepend acc w x hw hne,
      auxSome_ws_prepend acc w2 x hw2 hne2]

theorem tokens_collapse_master (p : Char → Bool)
    (hp : ∀ c, p c = true → isJsSpace c = true) :
    ∀ (s runRev acc : List Char), (∀ c ∈ runRev, p c = true) →
      (jsSplitRunsAux isJsSpace (some acc)
          (collapseRunAux p runRev s)).filter (fun t => t ≠ []) =
      (jsSplitRunsAux isJsSpace (some acc) (runRev.reverse ++ s)).filter
        (fun t => t ≠ [])
  | [], runRev, acc, hrun => by
    rw [collapseRunAux, List.append_nil]
    have hwsrev : ∀ c ∈ runRev.reverse, isJsSpace c = true := by
      intro d hd
      exact hp d (hrun d (List.mem_reverse.mp hd))
    have hwsfl : ∀ c ∈ (if runRev.length ≥ 2 then [' ']
        else runRev.reverse), isJsSpace c = true := by
      split_ifs with hl
      · intro d hd
        rw [List.mem_singleton.mp hd]
        decide
      · exact hwsrev
    rw [filter_auxSome_all_ws acc _ hwsfl, filter_auxSome_all_ws acc _ hwsrev]
  | c :: rest, runRev, acc, hrun => by
    rw [collapseRunAux]
    have hwsrev : ∀ d ∈ runRev.reverse, isJsSpace d = true := by
      intro d hd
      exact hp d (hrun d (List.mem_reverse.mp hd))
    by_cases hpc : p c = true
    · rw [if_pos hpc]
      rw [tokens_collapse_master p hp rest (c :: runRev) acc
        (fun d hd => by
          rcases List.mem_cons.mp hd with h1 | h1
          · rw [h1]
            exact hpc
          · exact hrun d h1)]
      rw [List.reverse_cons, List.append_assoc, List.singleton_append]
    · rw [if_neg hpc]
      have hwsfl : ∀ d ∈ (if runRev.length ≥ 2 then [' ']
          else runRev.reverse), isJsSpace d = true := by
        split_ifs with hl
        · intro d hd
          rw [List.mem_singleton.mp hd]
          decide
        · exact hwsrev
      have hiff : (if runRev.length ≥ 2 then [' ']
          else runRev.reverse) = [] ↔ runRev.reverse = [] := by
        split_ifs with hl
        · constructor
          · intro h2
            exact absurd h2 (by simp)
          · intro h2
            rw [List.reverse_eq_nil_iff] at h2
            rw [h2] at hl
            exact absurd hl (by simp)
        · exact Iff.rfl
      rw [auxSome_ws_congr acc _ runRev.reverse _ hwsfl hwsrev hiff]
      have htok : (jsSplitRunsAux isJsSpace none
          (collapseRunAux p [] rest)).filter (fun t => t ≠ []) =
          (jsSplitRunsAux isJsSpace none rest).filter (fun t => t ≠ []) := by
        rw [tokensAux_none, tokensAux_none]
        have h0 := tokens_collapse_master p hp rest [] []
          (fun d hd => absurd hd (List.not_mem_nil d))
        rw [show (([] : List Char)).reverse ++ rest = rest from rfl] at h0
        exact h0
      cases hW : runRev.reverse with
      | nil =>
        rw [List.nil_append, List.nil_append]
        by_cases hwc : isJsSpace c = true
        · rw [auxSome_cons_ws acc c hwc, auxSome_cons_ws acc c hwc]
          rw [List.filter_cons, List.filter_cons, htok]
        · rw [auxSome_cons_solid acc c (by simpa using hwc),
            auxSome_cons_solid acc c (by simpa using hwc)]
          have h0 := tokens_collapse_master p hp rest [] (c :: acc)
            (fun d hd => absurd hd (List.not_mem_nil d))
          rw [show (([] : List Char)).reverse ++ rest = rest from rfl] at h0
          exact h0
      | cons w0 W2 =>
        have hws2 : ∀ d ∈ w0 :: W2, isJsSpace d = true := by
          rw [← hW]
          exact hwsrev
        rw [auxSome_ws_prepend acc (w0 :: W2) _ hws2 (by simp),
          auxSome_ws_prepend acc (w0 :: W2) _ hws2 (by simp)]
        by_cases hwc : isJsSpace c = true
        · rw [auxNone_cons_ws c hwc, auxNone_cons_ws c hwc]
          rw [List.filter_cons, List.filter_cons, htok]
        · rw [auxNone_cons_solid c (by simpa using hwc),
            auxNone_cons_solid c (by simpa using hwc)]
          have h0 := tokens_collapse_master p hp rest [] [c]
            (fun d hd => absurd hd (List.not_mem_nil d))
          rw [show (([] : List Char)).reverse ++ rest = rest from rfl] at h0
          rw [List.filter_cons, List.filter_cons, h0]

theorem tokens_collapseSpaceTab2 (s : List Char) :
    tokens (collapseSpaceTab2 s) = tokens s := by
  have h := tokens_collapse_master (fun c => c = ' ' || c = '\t')
    (by
      intro c hc
      simp only [Bool.or_eq_true, decide_eq_true_eq] at hc
      rcases hc with hc | hc <;> subst hc <;> decide)
    s [] [] (fun d hd => absurd hd (List.not_mem_nil d))
  rw [show (([] : List Char)).reverse ++ s = s from rfl] at h
  exact h

theorem tokens_collapseWs2 (s : List Char) :
    tokens (collapseWs2 s) = tokens s := by
  have h := tokens_collapse_master isJsSpace (fun _ hc => hc)
    s [] [] (fun d hd => absurd hd (List.not_mem_nil d))
  rw [show (([] : List Char)).reverse ++ s = s from rfl] at h
  exact h

theorem auxSome_filter_ne :
    ∀ (t acc : List Char), acc ≠ [] →
      (jsSplitRunsAux isJsSpace (some acc) t).filter (fun x => x ≠ []) ≠ []
  | [], acc, hacc => by
    simp [jsSplitRunsAux, hacc]
  | c :: rest, acc, hacc => by
    by_cases hwc : isJsSpace c = true
    · rw [auxSome_cons_ws acc c hwc]
      rw [List.filter_cons, if_pos (by simp [hacc])]
      simp
    · rw [auxSome_cons_solid acc c (by simpa using hwc)]
      exact auxSome_filter_ne rest (c :: acc) (by simp)

theorem tokens_eq_nil_all_ws :
    ∀ (a : List Char), tokens a = [] → ∀ c ∈ a, isJsSpace c = true
  | [], _, c, hc => absurd hc (List.not_mem_nil c)
  | d :: rest, h, c, hc => by
    by_cases hwd : isJsSpace d = true
    · rw [tokens_ws_cons d hwd] at h
      rcases List.mem_cons.mp hc with h1 | h1
      · rw [h1]
        exact hwd
      · exact tokens_eq_nil_all_ws rest h c h1
    · exfalso
      have hne : tokens (d :: rest) ≠ [] := by
        rw [show tokens (d :: rest) = (jsSplitRunsAux isJsSpace (some [])
            (d :: rest)).filter (fun x => x ≠ []) from rfl]
        rw [auxSome_cons_solid [] d (by simpa using hwd)]
        exact auxSome_filter_ne rest [d] (by simp)
      exact hne h

theorem auxSome_one_token :
    ∀ (v acc B : List Char), acc ≠ [] →
      (jsSplitRunsAux isJsSpace (some acc) v).filter (fun t => t ≠ []) =
        [B] →
      ∃ a w2, v = a ++ w2 ∧ (∀ c ∈ a, isJsSpace c = false) ∧
        acc.reverse ++ a = B ∧ (∀ c ∈ w2, isJsSpace c = true)
  | [], acc, B, hacc, h => by
    rw [show jsSplitRunsAux isJsSpace (some acc) [] = [acc.reverse]
      from rfl] at h
    rw [List.filter_cons, if_pos (by simp [hacc])] at h
    injection h with h1 h2
    exact ⟨[], [], rfl, by simp, by rw [List.append_nil]; exact h1, by simp⟩
  | c :: rest, acc, B, hacc, h => by
    by_cases hwc : isJsSpace c = true
    · rw [auxSome_cons_ws acc c hwc] at h
      rw [List.filter_cons, if_pos (by simp [hacc])] at h
      injection h with h1 h2
      have hrest : ∀ d ∈ rest, isJsSpace d = true := by
        apply tokens_eq_nil_all_ws
        rw [← tokensAux_none]
        exact h2
      refine ⟨[], c :: rest, rfl, by simp,
        by rw [List.append_nil]; exact h1, ?_⟩
      intro d hd
      rcases List.mem_cons.mp hd with h3 | h3
      · rw [h3]
        exact hwc
      · exact hrest d h3
    · rw [auxSome_cons_solid acc c (by simpa using hwc)] at h
      obtain ⟨a, w2, hv, hna, hacc2, hw2⟩ :=
        auxSome_one_token rest (c :: acc) B (by simp) h
      refine ⟨c :: a, w2, by rw [hv]; rfl, ?_, ?_, hw2⟩
      · intro d hd
        rcases List.mem_cons.mp hd with h3 | h3
        · rw [h3]
          simpa using hwc
        · exact hna d h3
      · rw [← hacc2, List.reverse_cons, List.append_assoc,
          List.singleton_append]

theorem tokens_one_struct :
    ∀ (v B : List Char), tokens v = [B] →
      ∃ w1 b w2, v = w1 ++ b ++ w2 ∧ (∀ c ∈ w1, isJsSpace c = true) ∧
        b = B ∧ (∀ c ∈ b, isJsSpace c = false) ∧
        (∀ c ∈ w2, isJsSpace c = true)
  | [], B, h => by
    rw [show tokens ([] : List Char) = [] from rfl] at h
    exact absurd h (by simp)
  | c :: rest, B, h => by
    by_cases hwc : isJsSpace c = true
    · rw [tokens_ws_cons c hwc] at h
      obtain ⟨w1, b, w2, hv, hw1, hb, hnb, hw2⟩ := tokens_one_struct rest B h
      refine ⟨c :: w1, b, w2, by rw [hv]; rfl, ?_, hb, hnb, hw2⟩
      intro d hd
      rcases List.mem_cons.mp hd with h3 | h3
      · rw [h3]
        exact hwc
      · exact hw1 d h3
    · have h2 : (jsSplitRunsAux isJsSpace (some [c]) rest).filter
          (fun t => t ≠ []) = [B] := by
        rw [← auxSome_cons_solid [] c (by simpa using hwc)]
        exact h
      obtain ⟨a, w2, hv, hna, hB, hw2⟩ :=
        auxSome_one_token rest [c] B (by simp) h2
      refine ⟨[], c :: a, w2, by rw [hv]; rfl, by simp, ?_, ?_, hw2⟩
      · rw [← hB]
        rfl
      · intro d hd
        rcases List.mem_cons.mp hd with h3 | h3
        · rw [h3]
          simpa using hwc
        · exact hna d h3

theorem auxSome_two_tokens :
    ∀ (v acc A B : List Char), acc ≠ [] →
      (jsSplitRunsAux isJsSpace (some acc) v).filter (fun t => t ≠ []) =
        [A, B] →
      ∃ a w1 b w2, v = a ++ w1 ++ b ++ w2 ∧
        (∀ c ∈ a, isJsSpace c = false) ∧ acc.reverse ++ a = A ∧
        (∀ c ∈ w1, isJsSpace c = true) ∧ w1 ≠ [] ∧ b = B ∧
        (∀ c ∈ b, isJsSpace c = false) ∧ (∀ c ∈ w2, isJsSpace c = true)
  | [], acc, A, B, hacc, h => by
    rw [show jsSplitRunsAux isJsSpace (some acc) [] = [acc.reverse]
      from rfl] at h
    rw [List.filter_cons, if_pos (by simp [hacc])] at h
    injection h with h1 h2
    exact absurd h2 (by simp)
  | c :: rest, acc, A, B, hacc, h => by
    by_cases hwc : isJsSpace c = true
    · rw [auxSome_cons_ws acc c hwc, List.filter_cons,
        if_pos (by simp [hacc])] at h
      injection h with h1 h2
      have h3 : tokens rest = [B] := by
        rw [← tokensAux_none]
        exact h2
      obtain ⟨w1, b, w2, hv, hw1, hb, hnb, hw2⟩ := tokens_one_struct rest B h3
      refine ⟨[], c :: w1, b, w2, by rw [hv]; rfl, by simp,
        by rw [List.append_nil]; exact h1, ?_, by simp, hb, hnb, hw2⟩
      intro d hd
      rcases List.mem_cons.mp hd with h4 | h4
      · rw [h4]
        exact hwc
      · exact hw1 d h4
    · rw [auxSome_cons_solid acc c (by simpa using hwc)] at h
      obtain ⟨a, w1, b, w2, hv, hna, hA, hw1, hw1ne, hb, hnb, hw2⟩ :=
        auxSome_two_tokens rest (c :: acc) A B (by simp) h
      refine ⟨c :: a, w1, b, w2, by rw [hv]; rfl, ?_, ?_, hw1, hw1ne, hb,
        hnb, hw2⟩
      · intro d hd
        rcases List.mem_cons.mp hd with h4 | h4
        · rw [h4]
          simpa using hwc
        · exact hna d h4
      · rw [← hA, List.reverse_cons, List.append_assoc,
          List.singleton_append]

theorem tokens_two_struct (v A B : List Char)
    (hh : ∀ x, v.head? = some x → isJsSpace x = false)
    (hl : ∀ x, v.getLast? = some x → isJsSpace x = false)
    (h : tokens v = [A, B]) :
    ∃ w1, v = A ++ w1 ++ B ∧ w1 ≠ [] ∧ ∀ c ∈ w1, isJsSpace c = true := by
  cases v with
  | nil =>
    rw [show tokens ([] : List Char) = [] from rfl] at h
    exact absurd h (by simp)
  | cons c rest =>
    have hwc : isJsSpace c = false := hh c rfl
    have h2 : (jsSplitRunsAux isJsSpace (some [c]) rest).filter
        (fun t => t ≠ []) = [A, B] := by
      rw [← auxSome_cons_solid [] c hwc]
      exact h
    obtain ⟨a, w1, b, w2, hv, hna, hA, hw1, hw1ne, hb, hnb, hw2⟩ :=
      auxSome_two_tokens rest [c] A B (by simp) h2
    have hA2 : c :: a = A := by
      rw [← hA]
      rfl
    have hw2nil : w2 = [] := by
      cases hw2v : w2 with
      | nil => rfl
      | cons d w3 =>
        exfalso
        rw [hw2v] at hv
        have hlast : (c :: rest).getLast? =
            some ((d :: w3).getLast (by simp)) := by
          rw [show c :: rest = (c :: (a ++ w1 ++ b)) ++ (d :: w3) from by
            rw [hv]; rfl]
          rw [List.getLast?_append_of_ne_nil _ (by simp)]
          exact List.getLast?_eq_getLast _ _
        have hws := hl _ hlast
        have hmem : (d :: w3).getLast (by simp) ∈ d :: w3 :=
          List.getLast_mem _
        rw [hw2v] at hw2
        rw [hw2 _ hmem] at hws
        exact absurd hws (by simp)
    refine ⟨w1, ?_, hw1ne, hw1⟩
    rw [← hA2, ← hb, hv, hw2nil, List.append_nil]
    rfl

theorem takeWhile_all_prepend (p : Char → Bool) :
    ∀ (w x : List Char), (∀ c ∈ w, p c = true) →
      (w ++ x).takeWhile p = w ++ x.takeWhile p
  | [], _, _ => rfl
  | c :: w2, x, h => by
    rw [List.cons_append, List.takeWhile_cons, if_pos (h c (by simp))]
    rw [takeWhile_all_prepend p w2 x (fun d hd => h d (by simp [hd]))]
    rfl

theorem dropWhile_all_prepend (p : Char → Bool) :
    ∀ (w x : List Char), (∀ c ∈ w, p c = true) →
      (w ++ x).dropWhile p = x.dropWhile p
  | [], _, _ => rfl
  | c :: w2, x, h => by
    rw [List.cons_append, List.dropWhile_cons, if_pos (h c (by simp))]
    exact dropWhile_all_prepend p w2 x (fun d hd => h d (by simp [hd]))

theorem testPageNum_struct (u : List Char) (h : testPageNum u = true) :
    ∃ P4 W D, u = P4 ++ W ++ D ∧ P4.length = 4 ∧
      lowerStr P4 = "page".data ∧ W ≠ [] ∧
      (∀ c ∈ W, isJsSpace c = true) ∧ D ≠ [] ∧
      (∀ c ∈ D, isDigit c = true) := by
  simp only [testPageNum, Bool.and_eq_true, decide_eq_true_eq] at h
  obtain ⟨h1, h2, h3, h4⟩ := h
  refine ⟨u.take 4, (u.drop 4).takeWhile isJsSpace,
    (u.drop 4).dropWhile isJsSpace, ?_, ?_, h1, h2, ?_, h3, ?_⟩
  · rw [List.append_assoc, @List.takeWhile_append_dropWhile _ isJsSpace,
      List.take_append_drop]
  · have hc := congrArg List.length h1
    unfold lowerStr at hc
    rw [List.length_map] at hc
    simpa using hc
  · intro c hc
    exact List.mem_takeWhile_imp hc
  · intro c hc
    rw [List.all_eq_true] at h4
    exact h4 c hc

theorem testPageNum_class (u : List Char) (h : testPageNum u = true) :
    ∀ c ∈ u, inPageClass c = true := by
  obtain ⟨P4, W, D, hu, hlen, hlow, hWne, hWws, hDne, hDdig⟩ :=
    testPageNum_struct u h
  intro c hc
  rw [hu] at hc
  rcases List.mem_append.mp hc with hc2 | hc2
  · rcases List.mem_append.mp hc2 with hc3 | hc3
    · have hm : lowerChar c ∈ lowerStr P4 := List.mem_map_of_mem _ hc3
      rw [hlow] at hm
      rw [show ("page".data) = ['p', 'a', 'g', 'e'] from rfl] at hm
      simp only [List.mem_cons, List.not_mem_nil, or_false] at hm
      rcases hm with h1 | h1 | h1 | h1
      · exact lowerChar_page_letter c 'p' (by left; rfl) h1
      · exact lowerChar_page_letter c 'a' (by right; left; rfl) h1
      · exact lowerChar_page_letter c 'g' (by right; right; left; rfl) h1
      · exact lowerChar_page_letter c 'e' (by right; right; right; rfl) h1
    · simp [inPageClass, hWws c hc3]
  · simp [inPageClass, hDdig c hc2]

theorem testPageNum_tokens (u : List Char) (h : testPageNum u = true) :
    ∃ P4 D, tokens u = [P4, D] ∧ P4.length = 4 ∧
      lowerStr P4 = "page".data ∧ D ≠ [] ∧ ∀ c ∈ D, isDigit c = true := by
  obtain ⟨P4, W, D, hu, hlen, hlow, hWne, hWws, hDne, hDdig⟩ :=
    testPageNum_struct u h
  have hP4ws : ∀ c ∈ P4, isJsSpace c = false := by
    intro c hc
    have hm : lowerChar c ∈ lowerStr P4 := List.mem_map_of_mem _ hc
    rw [hlow] at hm
    cases hws : isJsSpace c
    · rfl
    · exfalso
      rw [ws_lowerChar_self c hws] at hm
      rw [show ("page".data) = ['p', 'a', 'g', 'e'] from rfl] at hm
      simp only [List.mem_cons, List.not_mem_nil, or_false] at hm
      rcases hm with h1 | h1 | h1 | h1 <;> rw [h1] at hws <;>
        exact absurd hws (by decide)
  have hP4ne : P4 ≠ [] := by
    intro h0
    rw [h0] at hlen
    exact absurd hlen (by simp)
  have hDws : ∀ c ∈ D, isJsSpace c = false :=
    fun c hc => digit_not_ws c (hDdig c hc)
  refine ⟨P4, D, ?_, hlen, hlow, hDne, hDdig⟩
  cases hW : W with
  | nil => exact absurd hW hWne
  | cons w0 W2 =>
    rw [hu, hW, List.append_assoc]
    rw [show (w0 :: W2) ++ D = w0 :: (W2 ++ D) from rfl]
    rw [tokens_ws_append w0 (by
      apply hWws
      rw [hW]
      simp)]
    rw [tokens_no_ws P4 hP4ne hP4ws]
    rw [tokens_all_ws_prepend W2 D (fun d hd => by
      apply hWws
      rw [hW]
      simp [hd])]
    rw [tokens_no_ws D hDne hDws]
    rfl

theorem testPageNum_of_struct (A W B : List Char) (hlen : A.length = 4)
    (hlow : lowerStr A = "page".data) (hWne : W ≠ [])
    (hWws : ∀ c ∈ W, isJsSpace c = true) (hBne : B ≠ [])
    (hBdig : ∀ c ∈ B, isDigit c = true) :
    testPageNum (A ++ W ++ B) = true := by
  have hB0ws : B.takeWhile isJsSpace = [] := by
    cases hB : B with
    | nil => rfl
    | cons b0 B2 =>
      rw [List.takeWhile_cons, if_neg (by
        rw [digit_not_ws b0 (hBdig b0 (by rw [hB]; simp))]
        simp)]
  have htake : (A ++ W ++ B).take 4 = A := by
    rw [List.append_assoc]
    exact List.take_left' hlen
  have hdrop : (A ++ W ++ B).drop 4 = W ++ B := by
    rw [List.append_assoc]
    exact List.drop_left' hlen
  have htw : (W ++ B).takeWhile isJsSpace = W := by
    rw [takeWhile_all_prepend isJsSpace W B hWws, hB0ws, List.append_nil]
  have hdw : (W ++ B).dropWhile isJsSpace = B := by
    rw [dropWhile_all_prepend isJsSpace W B hWws]
    cases hB : B with
    | nil => rfl
    | cons b0 B2 =>
      rw [List.dropWhile_cons, if_neg (by
        rw [digit_not_ws b0 (hBdig b0 (by rw [hB]; simp))]
        simp)]
  simp only [testPageNum]
  rw [htake, hdrop, htw, hdw, hlow]
  simp only [Bool.and_eq_true, decide_eq_true_eq]
  refine ⟨trivial, hWne, hBne, ?_⟩
  rw [List.all_eq_true]
  exact hBdig

theorem noAdjPair_mono (bad1 bad2 : Char → Char → Bool)
    (hm : ∀ a b, bad1 a b = true → bad2 a b = true) :
    ∀ (s : List Char), noAdjPair bad2 s = true → noAdjPair bad1 s = true
  | [], _ => rfl
  | [_], _ => rfl
  | a :: b :: r, h => by
    rw [show noAdjPair bad2 (a :: b :: r) =
        (!bad2 a b && noAdjPair bad2 (b :: r)) from rfl] at h
    rw [show noAdjPair bad1 (a :: b :: r) =
        (!bad1 a b && noAdjPair bad1 (b :: r)) from rfl]
    rw [Bool.and_eq_true] at h
    rw [Bool.and_eq_true]
    refine ⟨?_, noAdjPair_mono bad1 bad2 hm (b :: r) h.2⟩
    cases hb : bad1 a b
    · rfl
    · exfalso
      have h2 := h.1
      rw [hm a b hb] at h2
      exact absurd h2 (by simp)

theorem noAdjPair_tail (bad : Char → Char → Bool) (a : Char) (l : List Char)
    (h : noAdjPair bad (a :: l) = true) : noAdjPair bad l = true :=
  ((noAdjPair_cons_iff bad a l).mp h).2

theorem noAdjPair_dropWhile (bad : Char → Char → Bool) (p : Char → Bool) :
    ∀ (s : List Char), noAdjPair bad s = true →
      noAdjPair bad (s.dropWhile p) = true
  | [], h => h
  | c :: rest, h => by
    rw [List.dropWhile_cons]
    split_ifs with hc
    · exact noAdjPair_dropWhile bad p rest (noAdjPair_tail bad c rest h)
    · exact h

theorem noAdjPair_iff_chain (bad : Char → Char → Bool) :
    ∀ (s : List Char), noAdjPair bad s = true ↔
      List.Chain' (fun a b => bad a b = false) s
  | [] => by simp [noAdjPair]
  | [a] => by simp [noAdjPair]
  | a :: b :: r => by
    rw [show noAdjPair bad (a :: b :: r) =
        (!bad a b && noAdjPair bad (b :: r)) from rfl]
    rw [Bool.and_eq_true, Bool.not_eq_true']
    rw [List.chain'_cons]
    rw [noAdjPair_iff_chain bad (b :: r)]

theorem noAdjPair_reverse (bad : Char → Char → Bool)
    (hsym : ∀ a b, bad a b = bad b a) (s : List Char)
    (h : noAdjPair bad s = true) : noAdjPair bad s.reverse = true := by
  rw [noAdjPair_iff_chain] at h
  rw [noAdjPair_iff_chain, List.chain'_reverse]
  apply List.Chain'.imp ?_ h
  intro a b hab
  show bad b a = false
  rw [← hsym a b]
  exact hab

theorem noAdjPair_trim (bad : Char → Char → Bool)
    (hsym : ∀ a b, bad a b = bad b a) (s : List Char)
    (h : noAdjPair bad s = true) : noAdjPair bad (trimStr s) = true := by
  unfold trimStr
  apply noAdjPair_reverse bad hsym
  apply noAdjPair_dropWhile
  apply noAdjPair_reverse bad hsym
  exact noAdjPair_dropWhile bad isJsSpace s h

theorem noAdjPair_of_all (bad : Char → Char → Bool) :
    ∀ (s : List Char), (∀ a ∈ s, ∀ b, bad a b = false) →
      noAdjPair bad s = true
  | [], _ => rfl
  | [_], _ => rfl
  | a :: b :: r, h => by
    rw [show noAdjPair bad (a :: b :: r) =
        (!bad a b && noAdjPair bad (b :: r)) from rfl]
    rw [h a (by simp) b]
    rw [noAdjPair_of_all bad (b :: r) (fun x hx => h x (by simp [hx]))]
    rfl

theorem collapse_out_noAdj (p : Char → Bool) :
    ∀ (s runRev : List Char), (∀ c ∈ runRev, p c = true) →
      noAdjPair (fun a b => p a && p b) (collapseRunAux p runRev s) = true
  | [], runRev, _ => by
    rw [collapseRunAux]
    split_ifs with hl
    · rfl
    · cases runRev with
      | nil => rfl
      | cons a t =>
        cases t with
        | nil => rfl
        | cons b t2 =>
          exfalso
          rw [List.length_cons, List.length_cons] at hl
          omega
  | c :: rest, runRev, hrun => by
    have hpp := collapse_out_noAdj p rest
    by_cases hpc : p c = true
    · rw [collapseRunAux, if_pos hpc]
      exact collapse_out_noAdj p rest (c :: runRev) (fun d hd => by
        rcases List.mem_cons.mp hd with h1 | h1
        · rw [h1]
          exact hpc
        · exact hrun d h1)
    · have hpcf : p c = false := by simpa using hpc
      rw [collapseRunAux, if_neg hpc]
      have hrec := collapse_out_noAdj p rest []
        (fun d hd => absurd hd (List.not_mem_nil d))
      have hcons : noAdjPair (fun a b => p a && p b)
          (c :: collapseRunAux p [] rest) = true :=
        (noAdjPair_cons_iff _ c _).mpr ⟨fun x _ => by simp [hpcf], hrec⟩
      split_ifs with hl
      · rw [List.singleton_append]
        refine (noAdjPair_cons_iff _ _ _).mpr ⟨fun x hx => ?_, hcons⟩
        rw [List.head?_cons] at hx
        injection hx with hx
        rw [← hx]
        simp [hpcf]
      · cases runRev with
        | nil =>
          rw [show (([] : List Char)).reverse ++
            c :: collapseRunAux p [] rest =
            c :: collapseRunAux p [] rest from rfl]
          exact hcons
        | cons a t =>
          cases t with
          | nil =>
            rw [show ([a] : List Char).reverse ++
              c :: collapseRunAux p [] rest =
              a :: c :: collapseRunAux p [] rest from rfl]
            refine (noAdjPair_cons_iff _ _ _).mpr ⟨fun x hx => ?_, hcons⟩
            rw [List.head?_cons] at hx
            injection hx with hx
            rw [← hx]
            simp [hpcf]
          | cons b t2 =>
            exfalso
            rw [List.length_cons, List.length_cons] at hl
            omega

theorem collapse_out_noAdj2 (p : Char → Bool) (bad : Char → Char → Bool)
    (hsp : p ' ' = true)
    (hbad : ∀ a b, bad a b = true → p a = false ∧ p b = false) :
    ∀ (s runRev : List Char), (∀ c ∈ runRev, p c = true) →
      noAdjPair bad s = true →
      noAdjPair bad (collapseRunAux p runRev s) = true
  | [], runRev, _, _ => by
    rw [collapseRunAux]
    split_ifs with hl
    · rfl
    · cases runRev with
      | nil => rfl
      | cons a t =>
        cases t with
        | nil => rfl
        | cons b t2 =>
          exfalso
          rw [List.length_cons, List.length_cons] at hl
          omega
  | c :: rest, runRev, hrun, hna => by
    by_cases hpc : p c = true
    · rw [collapseRunAux, if_pos hpc]
      exact collapse_out_noAdj2 p bad hsp hbad rest (c :: runRev)
        (fun d hd => by
          rcases List.mem_cons.mp hd with h1 | h1
          · rw [h1]
            exact hpc
          · exact hrun d h1)
        (noAdjPair_tail bad c rest hna)
    · rw [collapseRunAux, if_neg hpc]
      have hrec := collapse_out_noAdj2 p bad hsp hbad rest []
        (fun d hd => absurd hd (List.not_mem_nil d))
        (noAdjPair_tail bad c rest hna)
      have hcx : ∀ x, (collapseRunAux p [] rest).head? = some x →
          bad c x = false := by
        intro x hx
        rcases collapse_out_head p rest []
            (fun d hd => absurd hd (List.not_mem_nil d)) with h0 | h0 | h0
        · rw [h0] at hx
          exact Option.noConfusion hx
        · obtain ⟨y, hy, hyp⟩ := h0
          rw [hy] at hx
          injection hx with hx
          rw [← hx]
          cases hb : bad c y
          · rfl
          · exfalso
            rcases hyp with hyp | hyp
            · rw [(hbad c y hb).2] at hyp
              exact absurd hyp (by simp)
            · rw [hyp] at hb
              rw [(hbad c ' ' hb).2] at hsp
              exact absurd hsp (by simp)
        · obtain ⟨-, heq, -⟩ := h0
          rw [heq] at hx
          exact ((noAdjPair_cons_iff bad c rest).mp hna).1 x hx
      have hcons : noAdjPair bad (c :: collapseRunAux p [] rest) = true :=
        (noAdjPair_cons_iff _ c _).mpr ⟨hcx, hrec⟩
      have hflc : ∀ a, p a = true → bad a c = false := by
        intro a hap
        cases hb : bad a c
        · rfl
        · exfalso
          rw [(hbad a c hb).1] at hap
          exact absurd hap (by simp)
      split_ifs with hl
      · rw [List.singleton_append]
        refine (noAdjPair_cons_iff _ _ _).mpr ⟨fun x hx => ?_, hcons⟩
        rw [List.head?_cons] at hx
        injection hx with hx
        rw [← hx]
        exact hflc ' ' hsp
      · cases runRev with
        | nil =>
          rw [show (([] : List Char)).reverse ++
            c :: collapseRunAux p [] rest =
            c :: collapseRunAux p [] rest from rfl]
          exact hcons
        | cons a t =>
          cases t with
          | nil =>
            rw [show ([a] : List Char).reverse ++
              c :: collapseRunAux p [] rest =
              a :: c :: collapseRunAux p [] rest from rfl]
            refine (noAdjPair_cons_iff _ _ _).mpr ⟨fun x hx => ?_, hcons⟩
            rw [List.head?_cons] at hx
            injection hx with hx
            rw [← hx]
            exact hflc a (hrun a (by simp))
          | cons b t2 =>
            exfalso
            rw [List.length_cons, List.length_cons] at hl
            omega

theorem bangBad_symm : ∀ a b : Char,
    (((a = '!' || a = '?') && decide (b = a)) : Bool) =
    ((b = '!' || b = '?') && decide (a = b)) := by
  intro a b
  by_cases hab : a = b
  · subst hab
    rfl
  · rw [show (decide (b = a) : Bool) = false from decide_eq_false
      (fun h => hab h.symm)]
    rw [show (decide (a = b) : Bool) = false from decide_eq_false hab]
    rw [Bool.and_false, Bool.and_false]

theorem wsBad_symm : ∀ a b : Char,
    ((isJsSpace a && isJsSpace b) : Bool) = (isJsSpace b && isJsSpace a) :=
  fun _ _ => Bool.and_comm _ _

theorem bang_pair_shape (c d : Char) (r : List Char)
    (hc1 : c ≠ '!') (hc2 : c ≠ '?') :
    ∃ k, bangAux none (c :: d :: r) = c :: d :: bangAux k r := by
  rw [bangAux]
  rw [if_neg (by simp [hc1, hc2])]
  obtain ⟨k, hk⟩ := bang_cons_shape d r
  exact ⟨k, by rw [hk]⟩

theorem itemizeAux_mem_subset :
    ∀ (skip : Nat) (als : Bool) (s : List Char) (c : Char),
      c ∈ itemizeAux skip als s → c ∈ s ∨ c ∈ "Item: ".data
  | _, _, [], c, h => by simp [itemizeAux] at h
  | skip, als, d :: rest, c, h => by
    rw [itemizeAux] at h
    split_ifs at h with h1 h2
    · rcases itemizeAux_mem_subset _ _ rest c h with h3 | h3
      · left
        simp [h3]
      · right
        exact h3
    · rcases List.mem_append.mp h with h3 | h3
      · right
        exact h3
      · rcases itemizeAux_mem_subset _ _ rest c h3 with h4 | h4
        · left
          simp [h4]
        · right
          exact h4
    · rcases List.mem_cons.mp h with h3 | h3
      · left
        simp [h3]
      · rcases itemizeAux_mem_subset _ _ rest c h3 with h4 | h4
        · left
          simp [h4]
        · right
          exact h4

theorem replaceBullets_mem (s : List Char) (c : Char)
    (h : c ∈ replaceBullets s) :
    (c ∈ s ∧ isBulletAudio c = false) ∨ c = '-' := by
  rcases List.mem_map.mp h with ⟨d, hd, hdc⟩
  by_cases hb : isBulletAudio d = true
  · rw [if_pos hb] at hdc
    right
    exact hdc.symm
  · rw [if_neg hb] at hdc
    left
    rw [← hdc]
    exact ⟨hd, by simpa using hb⟩

theorem strip_singleton (l : List Char) :
    stripLikelyHeaderFooterLines [l] = [l] := by
  unfold stripLikelyHeaderFooterLines
  by_cases ht : trimStr l = []
  · simp [ht]
  · simp [ht, bumpAssoc]

theorem cleanTextForAudio_nil : cleanTextForAudio [] = [] := rfl

theorem cleanMid_mem (raw : List Char) (c : Char)
    (h : c ∈ trimStr (collapseSpaceTab2 (itemize (replaceBullets
      (trimStr raw))))) :
    (c ∈ raw ∧ isBulletAudio c = false) ∨ c = '-' ∨ c = ' ' ∨
      c ∈ "Item: ".data := by
  have h1 := trim_mem_subset _ _ h
  rcases collapse_mem_subset _ _ _ _ h1 with h2 | h2 | h2
  · rcases itemizeAux_mem_subset 0 true _ c h2 with h3 | h3
    · rcases replaceBullets_mem _ _ h3 with ⟨h4, h5⟩ | h4
      · left
        exact ⟨trim_mem_subset _ _ h4, h5⟩
      · right
        left
        exact h4
    · right
      right
      right
      exact h3
  · exact absurd h2 (List.not_mem_nil c)
  · right
    right
    left
    exact h2

theorem cleanFull_mem (raw : List Char) (c : Char)
    (h : c ∈ trimStr (collapseWs2 (bangCollapse (trimStr (collapseSpaceTab2
      (itemize (replaceBullets (trimStr raw)))))))) :
    (c ∈ raw ∧ isBulletAudio c = false) ∨ c = '-' ∨ c = ' ' ∨
      c ∈ "Item: ".data := by
  have h1 := trim_mem_subset _ _ h
  rcases collapse_mem_subset _ _ _ _ h1 with h2 | h2 | h2
  · exact cleanMid_mem raw c (bang_mem_subset _ _ _ h2)
  · exact absurd h2 (List.not_mem_nil c)
  · right
    right
    left
    exact h2

theorem audiobookPolish_no_abbrev (t : List Char) (hd : '.' ∉ t)
    (hs : '/' ∉ t) :
    audiobookPolish t = trimStr (collapseWs2 (bangCollapse t)) := by
  simp only [audiobookPolish]
  rw [show expandAbbrev "e.g.".data "for example".data false t = t from
    expandAbbrev_id _ _ (Or.inl (by decide)) t false hd hs]
  rw [show expandAbbrev "i.e.".data "that is".data false t = t from
    expandAbbrev_id _ _ (Or.inl (by decide)) t false hd hs]
  rw [show expandAbbrev "vs.".data "versus".data false t = t from
    expandAbbrev_id _ _ (Or.inl (by decide)) t false hd hs]
  rw [show expandAbbrev "w/".data "with".data false t = t from
    expandAbbrev_id _ _ (Or.inr (by decide)) t false hd hs]
  rw [show expandAbbrev "etc.".data "etcetera".data false t = t from
    expandAbbrev_id _ _ (Or.inl (by decide)) t false hd hs]

theorem cleanTextForAudio_reduce (raw : List Char)
    (hCR : '\x0d' ∉ raw) (hNL : '\n' ∉ raw)
    (hDot : '.' ∉ raw) (hSl : '/' ∉ raw) :
    cleanTextForAudio raw =
      if ((trimStr raw ≠ [] && !testPureDigits (trimStr raw)) &&
          !testPageNum (trimStr raw)) = true then
        trimStr (collapseWs2 (bangCollapse (trimStr (collapseSpaceTab2
          (itemize (replaceBullets (trimStr raw)))))))
      else [] := by
  have hnl6 : '\n' ∉ trimStr raw :=
    fun hmem => hNL (trim_mem_subset raw _ hmem)
  have hdot6 : '.' ∉ trimStr (collapseSpaceTab2 (itemize (replaceBullets
      (trimStr raw)))) := by
    intro hmem
    rcases cleanMid_mem raw '.' hmem with ⟨h, -⟩ | h | h | h
    · exact hDot h
    · exact absurd h (by decide)
    · exact absurd h (by decide)
    · exact absurd h (by decide)
  have hsl6 : '/' ∉ trimStr (collapseSpaceTab2 (itemize (replaceBullets
      (trimStr raw)))) := by
    intro hmem
    rcases cleanMid_mem raw '/' hmem with ⟨h, -⟩ | h | h | h
    · exact hSl h
    · exact absurd h (by decide)
    · exact absurd h (by decide)
    · exact absurd h (by decide)
  simp only [cleanTextForAudio]
  rw [replaceCRLF_id raw hCR, replaceCR_id raw hCR]
  rw [show jsSplitChar '\n' raw = [raw] from by
    unfold jsSplitChar
    rw [jsSplitCharAux_absent '\n' raw [] hNL]
    rfl]
  rw [show List.map trimStr [raw] = [trimStr raw] from rfl]
  simp only [List.filter_cons, List.filter_nil]
  by_cases hkeep : ((trimStr raw ≠ [] && !testPureDigits (trimStr raw)) &&
      !testPageNum (trimStr raw)) = true
  · rw [if_pos hkeep, if_pos hkeep]
    rw [strip_singleton (trimStr raw)]
    rw [show joinWith ['\n'] [trimStr raw] = trimStr raw from rfl]
    rw [show dehyphenate (trimStr raw) = trimStr raw from
      dehyphenate_id (trimStr raw) hnl6]
    rw [show collapseNewlines3 (trimStr raw) = trimStr raw from
      collapseNl3_id (trimStr raw) hnl6]
    rw [show joinSingleNewlines (trimStr raw) = trimStr raw from
      joinNl_id (trimStr raw) hnl6]
    rw [audiobookPolish_no_abbrev _ hdot6 hsl6]
  · rw [if_neg hkeep, if_neg hkeep]
    rfl

theorem chain_head_solid (c : Char) (X : List Char)
    (hc : isJsSpace c = false) :
    ∃ Z, trimStr (collapseWs2 (bangCollapse (trimStr (collapseSpaceTab2
      (c :: X))))) = c :: Z := by
  have hc1 : ¬(c = ' ') := fun he => by
    rw [he] at hc
    exact absurd hc (by decide)
  have hc2 : ¬(c = '\t') := fun he => by
    rw [he] at hc
    exact absurd hc (by decide)
  have hpc : ((c = ' ' || c = '\t') : Bool) = false := by simp [hc1, hc2]
  have h1 : collapseSpaceTab2 (c :: X) =
      c :: collapseRunAux (fun x => x = ' ' || x = '\t') [] X :=
    collapse_head_solid _ c X hpc
  rw [h1]
  obtain ⟨t1, ht1⟩ := trim_head_solid c _ hc
  rw [ht1]
  obtain ⟨k, hk⟩ := bang_cons_shape c t1
  rw [show bangCollapse (c :: t1) = c :: bangAux k t1 from hk]
  have h2 : collapseWs2 (c :: bangAux k t1) =
      c :: collapseRunAux isJsSpace [] (bangAux k t1) :=
    collapse_head_solid isJsSpace c _ hc
  rw [h2]
  exact trim_head_solid c _ hc

theorem chain_pair_solid (c d : Char) (X : List Char)
    (hc : isJsSpace c = false) (hd : isJsSpace d = false)
    (hc1 : c ≠ '!') (hc2 : c ≠ '?') :
    ∃ Z, trimStr (collapseWs2 (bangCollapse (trimStr (collapseSpaceTab2
      (c :: d :: X))))) = c :: d :: Z := by
  have hcs : ¬(c = ' ') := fun he => by
    rw [he] at hc
    exact absurd hc (by decide)
  have hct : ¬(c = '\t') := fun he => by
    rw [he] at hc
    exact absurd hc (by decide)
  have hds : ¬(d = ' ') := fun he => by
    rw [he] at hd
    exact absurd hd (by decide)
  have hdt : ¬(d = '\t') := fun he => by
    rw [he] at hd
    exact absurd hd (by decide)
  have hpc : ((c = ' ' || c = '\t') : Bool) = false := by simp [hcs, hct]
  have hpd : ((d = ' ' || d = '\t') : Bool) = false := by simp [hds, hdt]
  have h1 : collapseSpaceTab2 (c :: d :: X) =
      c :: d :: collapseRunAux (fun x => x = ' ' || x = '\t') [] X := by
    rw [show collapseSpaceTab2 (c :: d :: X) =
        collapseRunAux (fun x => x = ' ' || x = '\t') [] (c :: d :: X)
      from rfl]
    rw [collapse_head_solid _ c _ hpc, collapse_head_solid _ d _ hpd]
  rw [h1]
  obtain ⟨t1, ht1⟩ := trim_pair_solid c d _ hc hd
  rw [ht1]
  obtain ⟨k, hk⟩ := bang_pair_shape c d t1 hc1 hc2
  rw [show bangCollapse (c :: d :: t1) = c :: d :: bangAux k t1 from hk]
  have h2 : collapseWs2 (c :: d :: bangAux k t1) =
      c :: d :: collapseRunAux isJsSpace [] (bangAux k t1) := by
    rw [show collapseWs2 (c :: d :: bangAux k t1) =
        collapseRunAux isJsSpace [] (c :: d :: bangAux k t1) from rfl]
    rw [collapse_head_solid isJsSpace c _ hc,
      collapse_head_solid isJsSpace d _ hd]
  rw [h2]
  exact trim_pair_solid c d _ hc hd

theorem itemize_fire (c : Char) (rest : List Char)
    (hm : itemMatches (c :: rest) = true) :
    ∃ W, itemize (c :: rest) = 'I' :: W := by
  unfold itemize
  rw [itemizeAux]
  rw [if_neg (by omega)]
  rw [if_pos (by rw [hm]; rfl)]
  exact ⟨_, rfl⟩

theorem audioChain_not_item (L : List Char) (hLne : L ≠ [])
    (hh : ∀ x, L.head? = some x → isJsSpace x = false)
    (hnlL : '\n' ∉ L) :
    itemMatches (trimStr (collapseWs2 (bangCollapse (trimStr
      (collapseSpaceTab2 (itemize (replaceBullets L))))))) = false ∧
    trimStr (collapseWs2 (bangCollapse (trimStr (collapseSpaceTab2
      (itemize (replaceBullets L)))))) ≠ [] := by
  have hnl4 : '\n' ∉ replaceBullets L := by
    intro hmem
    rcases replaceBullets_mem L '\n' hmem with ⟨h, -⟩ | h
    · exact hnlL h
    · exact absurd h (by decide)
  cases L with
  | nil => exact absurd rfl hLne
  | cons l0 L2 =>
    have hl0 : isJsSpace l0 = false := hh l0 rfl
    have ht4 : replaceBullets (l0 :: L2) =
        (if isBulletAudio l0 then '-' else l0) :: replaceBullets L2 := rfl
    have hw4 : isJsSpace (if isBulletAudio l0 then '-' else l0) = false := by
      split_ifs with hb
      · decide
      · exact hl0
    rw [ht4] at hnl4 ⊢
    by_cases hit : itemMatches ((if isBulletAudio l0 then '-' else l0) ::
        replaceBullets L2) = true
    · obtain ⟨W, hW⟩ := itemize_fire _ _ hit
      rw [hW]
      obtain ⟨Z, hZ⟩ := chain_head_solid 'I' W (by decide)
      rw [hZ]
      exact ⟨itemMatches_cons_not 'I' Z (by decide) (by decide), by simp⟩
    · have hitf : itemMatches ((if isBulletAudio l0 then '-' else l0) ::
          replaceBullets L2) = false := by
        simpa using hit
      rw [itemize_id _ hnl4 hitf]
      by_cases hdash : (if isBulletAudio l0 then '-' else l0) = '-'
      · rw [hdash] at hitf ⊢
        cases hR : replaceBullets L2 with
        | nil => exact ⟨by decide, by decide⟩
        | cons d r4 =>
          rw [hR] at hitf
          have hwd := itemMatches_dash_inv d r4 hitf
          obtain ⟨Z, hZ⟩ := chain_pair_solid '-' d r4 (by decide) hwd
            (by decide) (by decide)
          rw [hZ]
          exact ⟨itemMatches_dash d Z hwd, by simp⟩
      · obtain ⟨Z, hZ⟩ := chain_head_solid _ (replaceBullets L2) hw4
        rw [hZ]
        exact ⟨itemMatches_cons_not _ Z hw4 hdash, by simp⟩

theorem trimmed_ws_no_single (s1 s2 : List Char) (cw : Char) (w : List Char)
    (hh : ∀ x, (s1 ++ cw :: s2).head? = some x → isJsSpace x = false)
    (hl : ∀ x, (s1 ++ cw :: s2).getLast? = some x → isJsSpace x = false)
    (hcww : isJsSpace cw = true) :
    tokens (s1 ++ cw :: s2) ≠ [w] := by
  intro htok
  rw [tokens_ws_append cw hcww] at htok
  cases h1 : tokens s1 with
  | nil =>
    have hall := tokens_eq_nil_all_ws s1 h1
    cases s1 with
    | nil =>
      have hx := hh cw rfl
      rw [hcww] at hx
      exact absurd hx (by simp)
    | cons a s1x =>
      have hx := hh a rfl
      rw [hall a (by simp)] at hx
      exact absurd hx (by simp)
  | cons A rest1 =>
    rw [h1] at htok
    have hlen := congrArg List.length htok
    rw [List.length_append, List.length_cons] at hlen
    rw [show ([w] : List (List Char)).length = 1 from rfl] at hlen
    have h2 : tokens s2 = [] := List.length_eq_zero.mp (by omega)
    have hall2 := tokens_eq_nil_all_ws s2 h2
    cases hs2 : s2 with
    | nil =>
      have hg : (s1 ++ cw :: s2).getLast? = some cw := by
        rw [hs2]
        rw [List.getLast?_append_of_ne_nil _ (by simp)]
        rfl
      have hx := hl cw hg
      rw [hcww] at hx
      exact absurd hx (by simp)
    | cons d s2x =>
      have hg : (s1 ++ cw :: s2).getLast? =
          some ((d :: s2x).getLast (by simp)) := by
        rw [hs2]
        rw [show s1 ++ cw :: d :: s2x = (s1 ++ [cw]) ++ (d :: s2x) from by
          rw [List.append_assoc]
          rfl]
        rw [List.getLast?_append_of_ne_nil _ (by simp)]
        exact List.getLast?_eq_getLast _ _
      have hwsg := hl _ hg
      have hmem : (d :: s2x).getLast (by simp) ∈ d :: s2x :=
        List.getLast_mem _
      rw [hall2 _ (by rw [hs2]; exact hmem)] at hwsg
      exact absurd hwsg (by simp)

theorem chain_mem_keep (X : List Char) (c : Char) (hc : c ∈ X)
    (hws : isJsSpace c = false) :
    c ∈ trimStr (collapseWs2 (bangCollapse (trimStr (collapseSpaceTab2
      X)))) := by
  have hc1 : ¬(c = ' ') := fun he => by
    rw [he] at hws
    exact absurd hws (by decide)
  have hc2 : ¬(c = '\t') := fun he => by
    rw [he] at hws
    exact absurd hws (by decide)
  have hpST : ((c = ' ' || c = '\t') : Bool) = false := by simp [hc1, hc2]
  have h1 : c ∈ collapseSpaceTab2 X :=
    collapse_mem_keep _ X [] c hpST hc
  have h2 := trim_mem_keep _ _ h1 hws
  have h3 : c ∈ bangCollapse (trimStr (collapseSpaceTab2 X)) := by
    rcases bang_mem_any _ none c h2 with h | h
    · exact h
    · exact Option.noConfusion h
  have h4 : c ∈ collapseWs2 (bangCollapse (trimStr (collapseSpaceTab2 X))) :=
    collapse_mem_keep isJsSpace _ [] c hws h3
  exact trim_mem_keep _ _ h4 hws

theorem audioChain_shape (L : List Char) (hLne : L ≠ [])
    (hnlL : '\n' ∉ L) :
    (∃ Z, trimStr (collapseWs2 (bangCollapse (trimStr (collapseSpaceTab2
      (itemize (replaceBullets L)))))) = 'I' :: Z) ∨
    itemize (replaceBullets L) = replaceBullets L := by
  have hnl4 : '\n' ∉ replaceBullets L := by
    intro hmem
    rcases replaceBullets_mem L '\n' hmem with ⟨h, -⟩ | h
    · exact hnlL h
    · exact absurd h (by decide)
  cases L with
  | nil => exact absurd rfl hLne
  | cons l0 L2 =>
    by_cases hit : itemMatches (replaceBullets (l0 :: L2)) = true
    · left
      have ht4 : replaceBullets (l0 :: L2) =
          (if isBulletAudio l0 then '-' else l0) :: replaceBullets L2 := rfl
      rw [ht4] at hit ⊢
      obtain ⟨W, hW⟩ := itemize_fire _ _ hit
      rw [hW]
      exact chain_head_solid 'I' W (by decide)
    · right
      exact itemize_id _ hnl4 (by simpa using hit)

theorem audioChain_not_digits (L : List Char) (hLne : L ≠ [])
    (hh : ∀ x, L.head? = some x → isJsSpace x = false)
    (hl : ∀ x, L.getLast? = some x → isJsSpace x = false)
    (hnlL : '\n' ∉ L) (hLd : testPureDigits L = false) :
    testPureDigits (trimStr (collapseWs2 (bangCollapse (trimStr
      (collapseSpaceTab2 (itemize (replaceBullets L))))))) = false := by
  rcases audioChain_shape L hLne hnlL with ⟨Z, hZ⟩ | hid
  · rw [hZ]
    unfold testPureDigits
    rw [List.all_cons]
    rw [show isDigit 'I' = false from rfl]
    simp
  · rw [hid]
    by_cases hQ : ∃ c ∈ L, isDigit c = false ∧ isJsSpace c = false
    · obtain ⟨c, hcm, hcd, hcw⟩ := hQ
      have hmem4 : (if isBulletAudio c then '-' else c) ∈ replaceBullets L := by
        have := List.mem_map_of_mem
          (fun x => if isBulletAudio x then '-' else x) hcm
        exact this
      have hw4 : isJsSpace (if isBulletAudio c then '-' else c) = false := by
        split_ifs with hb
        · decide
        · exact hcw
      have hd4 : isDigit (if isBulletAudio c then '-' else c) = false := by
        split_ifs with hb
        · decide
        · exact hcd
      have hmemu := chain_mem_keep _ _ hmem4 hw4
      cases hpd : testPureDigits (trimStr (collapseWs2 (bangCollapse
          (trimStr (collapseSpaceTab2 (replaceBullets L))))))
      · rfl
      · exfalso
        unfold testPureDigits at hpd
        rw [Bool.and_eq_true, List.all_eq_true] at hpd
        have := hpd.2 _ hmemu
        rw [hd4] at this
        exact absurd this (by simp)
    · push_neg at hQ
      have hdw : ∀ c ∈ L, isDigit c = true ∨ isJsSpace c = true := by
        intro c hcm
        by_cases hd : isDigit c = true
        · left
          exact hd
        · right
          cases hw : isJsSpace c
          · exfalso
            have hdf : isDigit c = false := by simpa using hd
            exact hQ c hcm hdf hw
          · rfl
      have hnb : ∀ c ∈ L, isBulletAudio c = false := by
        intro c hcm
        cases hb : isBulletAudio c
        · rfl
        · exfalso
          rcases hdw c hcm with h | h
          · rw [(bullet_class c hb).1] at h
            exact absurd h (by simp)
          · rw [(bullet_class c hb).2.1] at h
            exact absurd h (by simp)
      rw [replaceBullets_id L hnb]
      have hbang : ∀ a ∈ trimStr (collapseSpaceTab2 L), ∀ b,
          (((a = '!' || a = '?') && decide (b = a)) : Bool) = false := by
        intro a ha b
        have ha2 := trim_mem_subset _ _ ha
        rcases collapse_mem_subset _ _ _ _ ha2 with h | h | h
        · have ha3 : ¬(a = '!') := fun he => by
            rcases hdw a h with hx | hx <;> rw [he] at hx <;>
              exact absurd hx (by decide)
          have ha4 : ¬(a = '?') := fun he => by
            rcases hdw a h with hx | hx <;> rw [he] at hx <;>
              exact absurd hx (by decide)
          simp [ha3, ha4]
        · exact absurd h (List.not_mem_nil a)
        · rw [h]
          rw [show ((' ' = '!' || ' ' = '?') : Bool) = false from by decide]
          rw [Bool.false_and]
      have hbid : bangCollapse (trimStr (collapseSpaceTab2 L)) =
          trimStr (collapseSpaceTab2 L) :=
        bangAux_id _ none (noAdjPair_of_all _ _ hbang)
          (fun c hc => Option.noConfusion hc)
      rw [hbid]
      cases hpd : testPureDigits (trimStr (collapseWs2 (trimStr
          (collapseSpaceTab2 L))))
      · rfl
      · exfalso
        unfold testPureDigits at hpd
        rw [Bool.and_eq_true, List.all_eq_true, decide_eq_true_eq] at hpd
        have hUsolid : ∀ c ∈ trimStr (collapseWs2 (trimStr
            (collapseSpaceTab2 L))), isJsSpace c = false :=
          fun c hc => digit_not_ws c (hpd.2 c hc)
        have htU : tokens (trimStr (collapseWs2 (trimStr
            (collapseSpaceTab2 L)))) = [trimStr (collapseWs2 (trimStr
            (collapseSpaceTab2 L)))] :=
          tokens_no_ws _ hpd.1 hUsolid
        have htok : tokens (trimStr (collapseWs2 (trimStr
            (collapseSpaceTab2 L)))) = tokens L := by
          rw [tokens_trim, tokens_collapseWs2, tokens_trim,
            tokens_collapseSpaceTab2]
        rw [htU] at htok
        have hwsL : ∃ c ∈ L, isJsSpace c = true := by
          by_contra hno
          push_neg at hno
          have hall : testPureDigits L = true := by
            unfold testPureDigits
            rw [Bool.and_eq_true, List.all_eq_true, decide_eq_true_eq]
            refine ⟨hLne, fun c hcm => ?_⟩
            rcases hdw c hcm with h | h
            · exact h
            · exact absurd h (by simp [hno c hcm])
          rw [hall] at hLd
          exact absurd hLd (by simp)
        obtain ⟨cw, hcwm, hcww⟩ := hwsL
        obtain ⟨s1, s2, hsplit⟩ := List.append_of_mem hcwm
        rw [hsplit] at htok hh hl
        exact trimmed_ws_no_single s1 s2 cw _ hh hl hcww htok.symm

theorem audioChain_not_pagenum (L : List Char) (hLne : L ≠ [])
    (hh : ∀ x, L.head? = some x → isJsSpace x = false)
    (hl : ∀ x, L.getLast? = some x → isJsSpace x = false)
    (hnlL : '\n' ∉ L) (hLp : testPageNum L = false) :
    testPageNum (trimStr (collapseWs2 (bangCollapse (trimStr
      (collapseSpaceTab2 (itemize (replaceBullets L))))))) = false := by
  rcases audioChain_shape L hLne hnlL with ⟨Z, hZ⟩ | hid
  · rw [hZ]
    cases hpn : testPageNum ('I' :: Z)
    · rfl
    · exfalso
      have := testPageNum_class _ hpn 'I' (by simp)
      exact absurd this (by decide)
  · rw [hid]
    by_cases hQ : ∃ c ∈ L, inPageClass c = false
    · obtain ⟨c, hcm, hcc⟩ := hQ
      have hmem4 : (if isBulletAudio c then '-' else c) ∈ replaceBullets L := by
        have := List.mem_map_of_mem
          (fun x => if isBulletAudio x then '-' else x) hcm
        exact this
      have hcc4 : inPageClass (if isBulletAudio c then '-' else c) = false := by
        split_ifs with hb
        · decide
        · exact hcc
      have hw4 : isJsSpace (if isBulletAudio c then '-' else c) = false := by
        cases hw : isJsSpace (if isBulletAudio c then '-' else c)
        · rfl
        · exfalso
          have : inPageClass (if isBulletAudio c then '-' else c) = true := by
            simp [inPageClass, hw]
          rw [this] at hcc4
          exact absurd hcc4 (by simp)
      have hmemu := chain_mem_keep _ _ hmem4 hw4
      cases hpn : testPageNum (trimStr (collapseWs2 (bangCollapse
          (trimStr (collapseSpaceTab2 (replaceBullets L))))))
      · rfl
      · exfalso
        have := testPageNum_class _ hpn _ hmemu
        rw [this] at hcc4
        exact absurd hcc4 (by simp)
    · push_neg at hQ
      have hcl : ∀ c ∈ L, inPageClass c = true := by
        intro c hcm
        cases hx : inPageClass c
        · exact absurd hx (hQ c hcm)
        · rfl
      have hnb : ∀ c ∈ L, isBulletAudio c = false := by
        intro c hcm
        cases hb : isBulletAudio c
        · rfl
        · exfalso
          have := (bullet_class c hb).2.2
          rw [hcl c hcm] at this
          exact absurd this (by simp)
      rw [replaceBullets_id L hnb]
      have hbang : ∀ a ∈ trimStr (collapseSpaceTab2 L), ∀ b,
          (((a = '!' || a = '?') && decide (b = a)) : Bool) = false := by
        intro a ha b
        have ha2 := trim_mem_subset _ _ ha
        rcases collapse_mem_subset _ _ _ _ ha2 with h | h | h
        · have ha3 : ¬(a = '!') := fun he => by
            have := hcl a h
            rw [he] at this
            exact absurd this (by decide)
          have ha4 : ¬(a = '?') := fun he => by
            have := hcl a h
            rw [he] at this
            exact absurd this (by decide)
          simp [ha3, ha4]
        · exact absurd h (List.not_mem_nil a)
        · rw [h]
          rw [show ((' ' = '!' || ' ' = '?') : Bool) = false from by decide]
          rw [Bool.false_and]
      have hbid : bangCollapse (trimStr (collapseSpaceTab2 L)) =
          trimStr (collapseSpaceTab2 L) :=
        bangAux_id _ none (noAdjPair_of_all _ _ hbang)
          (fun c hc => Option.noConfusion hc)
      rw [hbid]
      cases hpn : testPageNum (trimStr (collapseWs2 (trimStr
          (collapseSpaceTab2 L))))
      · rfl
      · exfalso
        obtain ⟨P4, D, htoku, hlen, hlow, hDne, hDdig⟩ :=
          testPageNum_tokens _ hpn
        have htok : tokens (trimStr (collapseWs2 (trimStr
            (collapseSpaceTab2 L)))) = tokens L := by
          rw [tokens_trim, tokens_collapseWs2, tokens_trim,
            tokens_collapseSpaceTab2]
        rw [htoku] at htok
        obtain ⟨W1, hLsplit, hW1ne, hW1ws⟩ :=
          tokens_two_struct L P4 D hh hl htok.symm
        have := testPageNum_of_struct P4 W1 D hlen hlow hW1ne hW1ws hDne
          hDdig
        rw [← hLsplit] at this
        rw [this] at hLp
        exact absurd hLp (by simp)

theorem trim_ws2_noDoubleWs (X : List Char) :
    noAdjPair (fun a b => isJsSpace a && isJsSpace b)
      (trimStr (collapseWs2 X)) = true := by
  apply noAdjPair_trim _ wsBad_symm
  exact collapse_out_noAdj isJsSpace X []
    (fun d hd => absurd hd (List.not_mem_nil d))

theorem trim_ws2_bang_noDupBang (X : List Char) :
    noAdjPair (fun a b => (a = '!' || a = '?') && decide (b = a))
      (trimStr (collapseWs2 (bangCollapse X))) = true := by
  apply noAdjPair_trim _ bangBad_symm
  apply collapse_out_noAdj2 isJsSpace _ (by decide) ?_ _ []
    (fun d hd => absurd hd (List.not_mem_nil d))
  · exact (bangAux_noDup _ none).1
  · intro a b hab
    simp only [Bool.and_eq_true, Bool.or_eq_true, decide_eq_true_eq] at hab
    obtain ⟨hor, hba⟩ := hab
    subst hba
    rcases hor with hx | hx <;> subst hx <;> exact ⟨by decide, by decide⟩

theorem word_of_lower (c : Char) (h : isWordChar (lowerChar c) = true) :
    isWordChar c = true := by
  by_cases hr : ('A' ≤ c && c ≤ 'Z') = true
  · unfold isWordChar
    rw [hr]
    simp
  · unfold lowerChar at h
    rw [if_neg hr] at h
    exact h

theorem ws_not_word (c : Char) (h : isJsSpace c = true) :
    isWordChar c = false := by
  simp only [isJsSpace, Bool.or_eq_true, decide_eq_true_eq] at h
  rcases h with ((((((h | h) | h) | h) | h) | h) | h) | h <;> subst h <;> decide

theorem abbrevMatches_iff (pat s : List Char) :
    abbrevMatches pat s = true ↔
      pat ≠ [] ∧ lowerStr (s.take pat.length) = pat ∧
      ∃ d r, s.drop pat.length = d :: r ∧ isWordChar d = true := by
  simp only [abbrevMatches, Bool.and_eq_true, decide_eq_true_eq]
  constructor
  · rintro ⟨⟨h1, h2⟩, h3⟩
    refine ⟨h1, h2, ?_⟩
    cases hd : s.drop pat.length with
    | nil =>
      rw [hd] at h3
      exact absurd h3 (by simp)
    | cons d r =>
      rw [hd] at h3
      exact ⟨d, r, rfl, h3⟩
  · rintro ⟨h1, h2, d, r, hd, hw⟩
    refine ⟨⟨h1, h2⟩, ?_⟩
    rw [hd]
    exact hw

theorem abbrevMatches_head (pat : List Char) (c : Char) (X : List Char)
    (h : abbrevMatches pat (c :: X) = true) :
    ∃ hd t, pat = hd :: t ∧ lowerChar c = hd := by
  obtain ⟨h1, h2, -⟩ := (abbrevMatches_iff pat (c :: X)).mp h
  cases hp : pat with
  | nil => exact absurd hp h1
  | cons hd t =>
    rw [hp] at h2
    rw [show (hd :: t).length = t.length + 1 from rfl,
      List.take_succ_cons] at h2
    rw [show lowerStr (c :: X.take t.length) =
      lowerChar c :: lowerStr (X.take t.length) from rfl] at h2
    injection h2 with h2a h2b
    exact ⟨hd, t, rfl, h2a⟩

theorem abbrevMatches_first_word (pat : List Char) (c : Char) (X : List Char)
    (hph : ∀ x, pat.head? = some x → isWordChar x = true)
    (h : abbrevMatches pat (c :: X) = true) : isWordChar c = true := by
  obtain ⟨hd, t, hp, hl⟩ := abbrevMatches_head pat c X h
  apply word_of_lower
  rw [hl]
  exact hph hd (by rw [hp]; rfl)

theorem abbrevMatches_ws_head (pat : List Char) (c : Char) (X : List Char)
    (hph : ∀ x, pat.head? = some x → isWordChar x = true)
    (hc : isJsSpace c = true) : abbrevMatches pat (c :: X) = false := by
  cases hm : abbrevMatches pat (c :: X)
  · rfl
  · exfalso
    have hw := abbrevMatches_first_word pat c X hph hm
    rw [ws_not_word c hc] at hw
    exact absurd hw (by simp)

theorem abbrevMatches_head_ne (pat : List Char) (c : Char) (X : List Char)
    (h : ∀ hd t, pat = hd :: t → lowerChar c ≠ hd) :
    abbrevMatches pat (c :: X) = false := by
  cases hm : abbrevMatches pat (c :: X)
  · rfl
  · exfalso
    obtain ⟨hd, t, hp, hl⟩ := abbrevMatches_head pat c X hm
    exact h hd t hp hl

theorem abbrevMatches_extend (pat l B : List Char)
    (h : abbrevMatches pat l = true) : abbrevMatches pat (l ++ B) = true := by
  obtain ⟨h1, h2, d, r, hd, hw⟩ := (abbrevMatches_iff pat l).mp h
  have hlen : pat.length < l.length := by
    by_contra hle
    rw [List.drop_eq_nil_iff.mpr (by omega)] at hd
    exact List.noConfusion hd
  refine (abbrevMatches_iff pat (l ++ B)).mpr ⟨h1, ?_, d, r ++ B, ?_, hw⟩
  · rw [List.take_append_of_le_length (by omega)]
    exact h2
  · rw [List.drop_append_of_le_length (by omega), hd]
    rfl

theorem abbrevMatches_agree (pat : List Char) (c : Char) (A X Y : List Char)
    (hlen : pat.length ≤ A.length) :
    abbrevMatches pat (c :: A ++ X) = abbrevMatches pat (c :: A ++ Y) := by
  by_cases hne : pat = []
  · rw [show abbrevMatches pat (c :: A ++ X) = false from by
      simp [abbrevMatches, hne]]
    rw [show abbrevMatches pat (c :: A ++ Y) = false from by
      simp [abbrevMatches, hne]]
  · have hlp : 1 ≤ pat.length := by
      cases hp : pat with
      | nil => exact absurd hp hne
      | cons a b => simp
    obtain ⟨m, hm⟩ : ∃ m, pat.length = m + 1 := ⟨pat.length - 1, by omega⟩
    have htk : ∀ Z : List Char, (c :: A ++ Z).take pat.length =
        c :: A.take m := by
      intro Z
      rw [hm, List.cons_append, List.take_succ_cons,
        List.take_append_of_le_length (by omega)]
    obtain ⟨d, r, hdr⟩ : ∃ d r, A.drop m = d :: r := by
      cases hd : A.drop m with
      | nil =>
        rw [List.drop_eq_nil_iff] at hd
        omega
      | cons d r => exact ⟨d, r, rfl⟩
    have hdd : ∀ Z : List Char, (c :: A ++ Z).drop pat.length =
        d :: (r ++ Z) := by
      intro Z
      rw [hm, List.cons_append, List.drop_succ_cons,
        List.drop_append_of_le_length (by omega), hdr]
      rfl
    cases hm2 : abbrevMatches pat (c :: A ++ Y)
    · cases hm3 : abbrevMatches pat (c :: A ++ X)
      · rfl
      · exfalso
        obtain ⟨h1, h2, d2, r2, hd2, hw2⟩ :=
          (abbrevMatches_iff _ _).mp hm3
        rw [htk X] at h2
        rw [hdd X] at hd2
        injection hd2 with hd2a hd2b
        have hy : abbrevMatches pat (c :: A ++ Y) = true :=
          (abbrevMatches_iff _ _).mpr ⟨h1, by rw [htk Y]; exact h2,
            d, r ++ Y, hdd Y, by rw [hd2a]; exact hw2⟩
        rw [hy] at hm2
        exact absurd hm2 (by simp)
    · obtain ⟨h1, h2, d2, r2, hd2, hw2⟩ := (abbrevMatches_iff _ _).mp hm2
      rw [htk Y] at h2
      rw [hdd Y] at hd2
      injection hd2 with hd2a hd2b
      exact (abbrevMatches_iff _ _).mpr ⟨h1, by rw [htk X]; exact h2,
        d, r ++ X, hdd X, by rw [hd2a]; exact hw2⟩

theorem noAbbrev_cons (pat : List Char) (pw : Bool) (c : Char)
    (T : List Char) :
    noAbbrev pat pw (c :: T) = true ↔
      (pw = true ∨ abbrevMatches pat (c :: T) = false) ∧
      noAbbrev pat (isWordChar c) T = true := by
  rw [show noAbbrev pat pw (c :: T) =
    ((pw || !abbrevMatches pat (c :: T)) && noAbbrev pat (isWordChar c) T)
    from rfl]
  rw [Bool.and_eq_true, Bool.or_eq_true, Bool.not_eq_true']

theorem noAbbrev_expand_id (pat rep : List Char) :
    ∀ (s : List Char) (pw : Bool), noAbbrev pat pw s = true →
      expandAbbrevAux pat rep 0 pw s = s
  | [], _, _ => rfl
  | c :: rest, pw, h => by
    obtain ⟨hA, hrec⟩ := (noAbbrev_cons pat pw c rest).mp h
    rw [expandAbbrevAux]
    rw [if_neg (by omega)]
    have hcond : (!pw && abbrevMatches pat (c :: rest)) = false := by
      rcases hA with hA | hA
      · rw [hA]
        rfl
      · rw [hA]
        rw [Bool.and_false]
    rw [hcond]
    simp only [Bool.false_eq_true, if_false]
    rw [noAbbrev_expand_id pat rep rest (isWordChar c) hrec]

theorem noAbbrev_cat (pat : List Char) :
    ∀ (A B : List Char) (pw : Bool), noAbbrev pat pw (A ++ B) = true →
      noAbbrev pat pw A = true
  | [], _, _, _ => rfl
  | c :: A2, B, pw, h => by
    obtain ⟨hA, hrec⟩ := (noAbbrev_cons pat pw c (A2 ++ B)).mp h
    refine (noAbbrev_cons pat pw c A2).mpr ⟨?_, noAbbrev_cat pat A2 B _ hrec⟩
    rcases hA with hA | hA
    · left
      exact hA
    · right
      cases hm : abbrevMatches pat (c :: A2)
      · rfl
      · exfalso
        have := abbrevMatches_extend pat (c :: A2) B hm
        rw [show (c :: A2) ++ B = c :: (A2 ++ B) from rfl] at this
        rw [this] at hA
        exact absurd hA (by simp)

theorem noAbbrev_dropWhile (pat : List Char) :
    ∀ (s : List Char), noAbbrev pat false s = true →
      noAbbrev pat false (s.dropWhile isJsSpace) = true
  | [], h => h
  | c :: rest, h => by
    obtain ⟨hA, hrec⟩ := (noAbbrev_cons pat false c rest).mp h
    rw [List.dropWhile_cons]
    split_ifs with hc
    · rw [show isWordChar c = false from ws_not_word c (by simpa using hc)]
        at hrec
      exact noAbbrev_dropWhile pat rest hrec
    · exact h

theorem trim_split (s : List Char) :
    trimStr s ++ ((s.dropWhile isJsSpace).reverse.takeWhile
      isJsSpace).reverse = s.dropWhile isJsSpace := by
  calc ((s.dropWhile isJsSpace).reverse.dropWhile isJsSpace).reverse ++
      ((s.dropWhile isJsSpace).reverse.takeWhile isJsSpace).reverse =
      ((s.dropWhile isJsSpace).reverse.takeWhile isJsSpace ++
        (s.dropWhile isJsSpace).reverse.dropWhile isJsSpace).reverse := by
        rw [List.reverse_append]
    _ = (s.dropWhile isJsSpace).reverse.reverse := by
        rw [@List.takeWhile_append_dropWhile _ isJsSpace]
    _ = s.dropWhile isJsSpace := List.reverse_reverse _

theorem noAbbrev_trim (pat : List Char) (s : List Char)
    (h : noAbbrev pat false s = true) :
    noAbbrev pat false (trimStr s) = true := by
  have h1 := noAbbrev_dropWhile pat s h
  rw [← trim_split s] at h1
  exact noAbbrev_cat pat _ _ _ h1

theorem noAbbrev_ws_prepend (pat : List Char)
    (hph : ∀ x, pat.head? = some x → isWordChar x = true) :
    ∀ (w T : List Char) (pw : Bool), (∀ c ∈ w, isJsSpace c = true) →
      (w = [] → pw = false) → noAbbrev pat false T = true →
      noAbbrev pat pw (w ++ T) = true
  | [], T, pw, _, hpw, hT => by
    rw [List.nil_append, hpw rfl]
    exact hT
  | c :: w2, T, pw, hws, _, hT => by
    rw [List.cons_append]
    refine (noAbbrev_cons pat pw c (w2 ++ T)).mpr ⟨?_, ?_⟩
    · right
      exact abbrevMatches_ws_head pat c _ hph (hws c (by simp))
    · rw [ws_not_word c (hws c (by simp))]
      by_cases hw2 : w2 = []
      · subst hw2
        rw [List.nil_append]
        exact hT
      · exact noAbbrev_ws_prepend pat hph w2 T false
          (fun d hd => hws d (by simp [hd])) (fun h => absurd h hw2) hT

theorem abbrevMatches_nil2 (pat : List Char) : abbrevMatches pat [] = false := by
  unfold abbrevMatches
  rw [List.take_nil, List.drop_nil]
  exact Bool.and_false _

/-- First-divergence decomposition of one abbreviation scan: either the scan
is the identity, or the input splits as `a ++ b` with a match at `b` and the
output starting `a ++ rep`. -/
theorem expandAux_diverge (pat rep : List Char) :
    ∀ (rest : List Char) (pw : Bool),
      expandAbbrevAux pat rep 0 pw rest = rest ∨
      ∃ a b, rest = a ++ b ∧ abbrevMatches pat b = true ∧
        ∃ Z, expandAbbrevAux pat rep 0 pw rest = a ++ (rep ++ Z)
  | [], _ => Or.inl rfl
  | c :: r2, pw => by
    rw [expandAbbrevAux]
    rw [if_neg (by omega)]
    by_cases hf : (!pw && abbrevMatches pat (c :: r2)) = true
    · rw [if_pos hf]
      right
      refine ⟨[], c :: r2, rfl, ((Bool.and_eq_true _ _).mp hf).2, _, rfl⟩
    · rw [if_neg hf]
      rcases expandAux_diverge pat rep r2 (isWordChar c) with hid |
        ⟨a, b, hs, hm, Z, hE⟩
      · left
        rw [hid]
      · right
        refine ⟨c :: a, b, by rw [hs]; rfl, hm, Z, ?_⟩
        rw [hE]
        rfl

theorem expandAux_mem (pat rep : List Char) :
    ∀ (s : List Char) (skip : Nat) (pw : Bool) (c : Char),
      c ∈ expandAbbrevAux pat rep skip pw s → c ∈ s ∨ c ∈ rep
  | [], _, _, _, h => absurd h (List.not_mem_nil _)
  | x :: rest, skip, pw, c, h => by
    rw [expandAbbrevAux] at h
    by_cases hskip : skip > 0
    · rw [if_pos hskip] at h
      rcases expandAux_mem pat rep rest (skip - 1) (isWordChar x) c h with
        h1 | h1
      · exact Or.inl (List.mem_cons_of_mem x h1)
      · exact Or.inr h1
    · rw [if_neg hskip] at h
      by_cases hf : (!pw && abbrevMatches pat (x :: rest)) = true
      · rw [if_pos hf] at h
        rcases List.mem_append.mp h with h1 | h1
        · exact Or.inr h1
        · rcases expandAux_mem pat rep rest (pat.length - 1) (isWordChar x)
            c h1 with h2 | h2
          · exact Or.inl (List.mem_cons_of_mem x h2)
          · exact Or.inr h2
      · rw [if_neg hf] at h
        rcases List.mem_cons.mp h with h1 | h1
        · exact Or.inl (by rw [h1]; exact List.mem_cons_self x rest)
        · rcases expandAux_mem pat rep rest 0 (isWordChar x) c h1 with
            h2 | h2
          · exact Or.inl (List.mem_cons_of_mem x h2)
          · exact Or.inr h2

theorem expandAux_dichot (pat rep : List Char) (x : Char) (hx : x ∈ rep)
    (rest : List Char) (pw : Bool) :
    expandAbbrevAux pat rep 0 pw rest = rest ∨
      x ∈ expandAbbrevAux pat rep 0 pw rest := by
  rcases expandAux_diverge pat rep rest pw with h | ⟨a, b, -, -, Z, hE⟩
  · exact Or.inl h
  · right
    rw [hE]
    exact List.mem_append.mpr (Or.inr (List.mem_append.mpr (Or.inl hx)))

/-- An abbreviation scan cannot create a `pat'`-match at an emitted
character where the input had none, provided `rep` is at least as long as
`pat'` and no proper suffix of `pat'` is a lowercased prefix of `rep`. -/
theorem expandAux_no_create (pat rep pat' : List Char)
    (hph : ∀ x, pat.head? = some x → isWordChar x = true)
    (hreplen : pat'.length ≤ rep.length)
    (hnov : ∀ m, m < pat'.length → 1 ≤ m →
      pat'.drop m ≠ lowerStr (rep.take (pat'.length - m)))
    (c : Char) (rest : List Char) (pw : Bool)
    (h : abbrevMatches pat' (c :: rest) = false) :
    abbrevMatches pat' (c :: expandAbbrevAux pat rep 0 pw rest) = false := by
  rcases expandAux_diverge pat rep rest pw with hid | ⟨a, b, hsplit, hm, Z, hE⟩
  · rw [hid]
    exact h
  · rw [hE]
    rw [hsplit] at h
    by_cases hlen : pat'.length ≤ a.length
    · rw [show c :: (a ++ (rep ++ Z)) = c :: a ++ (rep ++ Z) from rfl]
      rw [abbrevMatches_agree pat' c a (rep ++ Z) b hlen]
      exact h
    · cases hx : abbrevMatches pat' (c :: (a ++ (rep ++ Z))) with
      | false => rfl
      | true =>
        exfalso
        obtain ⟨hne', h2, d, r, hdd, hwd⟩ := (abbrevMatches_iff _ _).mp hx
        by_cases hmn : a.length + 1 = pat'.length
        · cases b with
          | nil =>
            rw [abbrevMatches_nil2] at hm
            exact absurd hm (by simp)
          | cons bh bt =>
            have hbw : isWordChar bh = true := by
              obtain ⟨hd2, t2, hp2, hl2⟩ := abbrevMatches_head pat bh bt hm
              apply word_of_lower
              rw [hl2]
              exact hph hd2 (by rw [hp2]; rfl)
            have ht1 : (c :: (a ++ (rep ++ Z))).take pat'.length =
                c :: a := by
              rw [← hmn, List.take_succ_cons, List.take_left]
            have ht2 : (c :: (a ++ bh :: bt)).take pat'.length = c :: a := by
              rw [← hmn, List.take_succ_cons, List.take_left]
            rw [ht1] at h2
            have hmatch : abbrevMatches pat' (c :: (a ++ bh :: bt)) = true := by
              refine (abbrevMatches_iff _ _).mpr ⟨hne', by rw [ht2]; exact h2,
                bh, bt, ?_, hbw⟩
              rw [← hmn, List.drop_succ_cons, List.drop_left]
            rw [hmatch] at h
            exact absurd h (by simp)
        · have hmlt : a.length + 1 < pat'.length := by omega
          have hq1 : 1 ≤ pat'.length - (a.length + 1) := by omega
          have hqr : pat'.length - (a.length + 1) ≤ rep.length := by omega
          have ht1 : (c :: (a ++ (rep ++ Z))).take pat'.length =
              c :: (a ++ rep.take (pat'.length - (a.length + 1))) := by
            rw [show pat'.length = (a.length + (pat'.length - (a.length + 1)))
              + 1 from by omega]
            rw [List.take_succ_cons, List.take_append_eq_append_take,
              List.take_of_length_le (by omega),
              List.take_append_of_le_length (by omega)]
            rw [show a.length + (pat'.length - (a.length + 1)) - a.length =
              pat'.length - (a.length + 1) from by omega]
            rw [show a.length + (pat'.length - (a.length + 1)) + 1 -
              (a.length + 1) = pat'.length - (a.length + 1) from by omega]
          rw [ht1] at h2
          have h3 := congrArg (List.drop (a.length + 1)) h2
          rw [show lowerStr (c :: (a ++ rep.take (pat'.length -
              (a.length + 1)))) = (lowerChar c :: lowerStr a) ++
              lowerStr (rep.take (pat'.length - (a.length + 1))) from by
            unfold lowerStr
            rw [List.map_cons, List.map_append]
            rfl] at h3
          rw [List.drop_left' (by
            rw [List.length_cons]
            unfold lowerStr
            rw [List.length_map])] at h3
          exact hnov (a.length + 1) hmlt (by omega) h3.symm

/-- Scanning across an emitted replacement `rep` meets no `pat'`-match:
every position inside `rep` that the word-boundary rule allows is excluded
by the seam condition, and the tail after `rep` (which ends in a word
character) is match-free by hypothesis. -/
theorem noAbbrev_rep_scan (pat' : List Char) :
    ∀ (rep : List Char) (pw : Bool) (Tail : List Char),
      rep ≠ [] →
      (∀ x, rep.getLast? = some x → isWordChar x = true) →
      noAbbrev pat' true Tail = true →
      (∀ j, j < rep.length →
        ((j = 0 ∧ pw = false) ∨
          (1 ≤ j ∧ isWordChar (rep.getD (j - 1) ' ') = false)) →
        (pat'.length + 1 ≤ rep.length - j →
          abbrevMatches pat' (rep.drop j) = false) ∧
        (rep.length - j ≤ pat'.length →
          lowerStr (rep.drop j) ≠ pat'.take (rep.length - j))) →
      noAbbrev pat' pw (rep ++ Tail) = true
  | [], _, _, hne, _, _, _ => absurd rfl hne
  | c :: rep2, pw, Tail, _, hlast, hTail, hseam => by
    rw [List.cons_append]
    refine (noAbbrev_cons pat' pw c (rep2 ++ Tail)).mpr ⟨?_, ?_⟩
    · by_cases hpw : pw = true
      · exact Or.inl hpw
      · right
        have hpwf : pw = false := by simpa using hpw
        have hs0 := hseam 0 (by simp) (Or.inl ⟨rfl, hpwf⟩)
        simp only [Nat.sub_zero, List.drop_zero] at hs0
        by_cases hl : pat'.length + 1 ≤ (c :: rep2).length
        · have hfalse := hs0.1 hl
          have hlen2 : pat'.length ≤ rep2.length := by
            rw [List.length_cons] at hl
            omega
          calc abbrevMatches pat' (c :: rep2 ++ Tail)
              = abbrevMatches pat' (c :: rep2 ++ ([] : List Char)) :=
                abbrevMatches_agree pat' c rep2 Tail [] hlen2
            _ = abbrevMatches pat' (c :: rep2) := by rw [List.append_nil]
            _ = false := hfalse
        · have hle : (c :: rep2).length ≤ pat'.length := by omega
          have hne2 := hs0.2 hle
          cases hmt : abbrevMatches pat' (c :: rep2 ++ Tail) with
          | false => exact hmt
          | true =>
            exfalso
            obtain ⟨hne', h2, -⟩ := (abbrevMatches_iff _ _).mp hmt
            have ht : (c :: rep2 ++ Tail).take pat'.length =
                (c :: rep2) ++ Tail.take (pat'.length -
                  (c :: rep2).length) := by
              rw [List.take_append_eq_append_take,
                List.take_of_length_le hle]
            rw [ht] at h2
            rw [show lowerStr ((c :: rep2) ++ Tail.take (pat'.length -
                (c :: rep2).length)) = lowerStr (c :: rep2) ++
                lowerStr (Tail.take (pat'.length - (c :: rep2).length))
              from List.map_append _ _ _] at h2
            apply hne2
            have h4 := congrArg (List.take (c :: rep2).length) h2
            rw [List.take_left' (by
              unfold lowerStr
              rw [List.length_map])] at h4
            exact h4
    · cases rep2 with
      | nil =>
        have hcw : isWordChar c = true := hlast c rfl
        rw [List.nil_append, hcw]
        exact hTail
      | cons r2h r2t =>
        apply noAbbrev_rep_scan pat' (r2h :: r2t) (isWordChar c) Tail
          (by simp) (fun x hx => hlast x (by
            rw [List.getLast?_cons_cons]
            exact hx)) hTail
        intro j hj hcond
        have hj2 : j + 1 < (c :: r2h :: r2t).length := by
          rw [List.length_cons]
          omega
        have hcond2 : (j + 1 = 0 ∧ pw = false) ∨ (1 ≤ j + 1 ∧
            isWordChar ((c :: r2h :: r2t).getD (j + 1 - 1) ' ') = false) := by
          right
          refine ⟨by omega, ?_⟩
          rw [show j + 1 - 1 = j from by omega]
          rcases hcond with ⟨hj0, hcw⟩ | ⟨hj1, hgw⟩
          · rw [hj0, List.getD_cons_zero]
            exact hcw
          · rw [show j = (j - 1) + 1 from by omega, List.getD_cons_succ]
            exact hgw
        have hmain := hseam (j + 1) hj2 hcond2
        rw [List.drop_succ_cons] at hmain
        rw [show (c :: r2h :: r2t).length - (j + 1) =
          (r2h :: r2t).length - j from by
            rw [List.length_cons]
            omega] at hmain
        exact hmain

/-- Master preservation theorem: the output of one abbreviation scan
satisfies `noAbbrev pat'` — unconditionally for `pat' = pat` (the scanner
removes every match of its own pattern), and given a match-free input for
any other `pat'` whose matches the replacement cannot create. -/
theorem expandAux_noAbbrev (pat rep pat' : List Char)
    (hph : ∀ x, pat.head? = some x → isWordChar x = true)
    (hrepne : rep ≠ [])
    (hlast : ∀ x, rep.getLast? = some x → isWordChar x = true)
    (hreplen : pat'.length ≤ rep.length)
    (hnov : ∀ m, m < pat'.length → 1 ≤ m →
      pat'.drop m ≠ lowerStr (rep.take (pat'.length - m)))
    (hseam : ∀ j, j < rep.length →
        (j = 0 ∨ (1 ≤ j ∧ isWordChar (rep.getD (j - 1) ' ') = false)) →
        (pat'.length + 1 ≤ rep.length - j →
          abbrevMatches pat' (rep.drop j) = false) ∧
        (rep.length - j ≤ pat'.length →
          lowerStr (rep.drop j) ≠ pat'.take (rep.length - j))) :
    ∀ (s : List Char) (skip : Nat) (pwI pwO : Bool),
      (pwO = true ∨ (skip = 0 ∧ pwO = pwI)) →
      (pat' = pat ∨ noAbbrev pat' pwI s = true) →
      noAbbrev pat' pwO (expandAbbrevAux pat rep skip pwI s) = true
  | [], _, _, _, _, _ => rfl
  | c :: rest, skip, pwI, pwO, hinv, hin => by
    have hinTail : pat' = pat ∨ noAbbrev pat' (isWordChar c) rest = true := by
      rcases hin with h | h
      · exact Or.inl h
      · exact Or.inr ((noAbbrev_cons pat' pwI c rest).mp h).2
    rw [expandAbbrevAux]
    by_cases hskip : skip > 0
    · rw [if_pos hskip]
      have hpwO : pwO = true := by
        rcases hinv with h | ⟨h1, -⟩
        · exact h
        · omega
      exact expandAux_noAbbrev pat rep pat' hph hrepne hlast hreplen hnov
        hseam rest (skip - 1) (isWordChar c) pwO (Or.inl hpwO) hinTail
    · rw [if_neg hskip]
      by_cases hf : (!pwI && abbrevMatches pat (c :: rest)) = true
      · rw [if_pos hf]
        apply noAbbrev_rep_scan pat' rep pwO _ hrepne hlast
        · exact expandAux_noAbbrev pat rep pat' hph hrepne hlast hreplen
            hnov hseam rest (pat.length - 1) (isWordChar c) true
            (Or.inl rfl) hinTail
        · intro j hj hcond
          apply hseam j hj
          rcases hcond with ⟨h0, -⟩ | hr
          · exact Or.inl h0
          · exact Or.inr hr
      · rw [if_neg hf]
        refine (noAbbrev_cons pat' pwO c _).mpr ⟨?_, ?_⟩
        · by_cases hpwO : pwO = true
          · exact Or.inl hpwO
          · right
            have hOf : pwO = false := by simpa using hpwO
            have hIf : pwI = false := by
              rcases hinv with h | ⟨-, h2⟩
              · rw [h] at hOf
                exact absurd hOf (by simp)
              · rw [← h2]
                exact hOf
            have hnomatch : abbrevMatches pat' (c :: rest) = false := by
              rcases hin with hpp | hNA
              · rw [hpp]
                cases hab : abbrevMatches pat (c :: rest)
                · rfl
                · exact absurd (show (!pwI && abbrevMatches pat
                    (c :: rest)) = true from by rw [hIf, hab]; rfl) hf
              · rcases ((noAbbrev_cons pat' pwI c rest).mp hNA).1 with
                  h1 | h1
                · rw [hIf] at h1
                  exact absurd h1 (by simp)
                · exact h1
            exact expandAux_no_create pat rep pat' hph hreplen hnov c rest
              (isWordChar c) hnomatch
        · exact expandAux_noAbbrev pat rep pat' hph hrepne hlast hreplen
            hnov hseam rest 0 (isWordChar c) (isWordChar c)
            (Or.inr ⟨rfl, rfl⟩) hinTail

theorem expandAbbrev_noAbbrev_id (pat rep : List Char) (s : List Char)
    (h : noAbbrev pat false s = true) : expandAbbrev pat rep false s = s :=
  noAbbrev_expand_id pat rep s false h

theorem noAbbrev_all_ws (pat2 : List Char)
    (hph2 : ∀ x, pat2.head? = some x → isWordChar x = true) :
    ∀ (w : List Char) (pw : Bool), (∀ c ∈ w, isJsSpace c = true) →
      noAbbrev pat2 pw w = true
  | [], _, _ => rfl
  | c :: w2, pw, hws => by
    refine (noAbbrev_cons pat2 pw c w2).mpr ⟨?_, ?_⟩
    · right
      exact abbrevMatches_ws_head pat2 c w2 hph2 (hws c (by simp))
    · exact noAbbrev_all_ws pat2 hph2 w2 (isWordChar c)
        (fun d hd => hws d (by simp [hd]))

/-- Lifting step for the first-deletion decomposition of `bangAux`. -/
theorem bangAux_step_lift (k : Option Char) (c : Char) (r2 : List Char)
    (k2 : Option Char) (hk2 : ∀ kc, k2 = some kc → kc = c)
    (hrec : bangAux k2 r2 = r2 ∨
      ∃ a d b, r2 = a ++ d :: b ∧ (d = '!' ∨ d = '?') ∧
        ((a = [] ∧ k2 = some d) ∨ (∃ a0, a = a0 ++ [d])) ∧
        bangAux k2 r2 = a ++ bangAux (some d) b) :
    c :: bangAux k2 r2 = c :: r2 ∨
      ∃ a d b, c :: r2 = a ++ d :: b ∧ (d = '!' ∨ d = '?') ∧
        ((a = [] ∧ k = some d) ∨ (∃ a0, a = a0 ++ [d])) ∧
        c :: bangAux k2 r2 = a ++ bangAux (some d) b := by
  rcases hrec with hid | ⟨a, d, b, hs, hd2, hrel, hout⟩
  · left
    rw [hid]
  · right
    refine ⟨c :: a, d, b, by rw [hs]; rfl, hd2, Or.inr ?_,
      by rw [hout]; rfl⟩
    rcases hrel with ⟨ha, hkd⟩ | ⟨a0, ha0⟩
    · have hdc : d = c := hk2 d hkd
      refine ⟨[], ?_⟩
      rw [ha, hdc]
      rfl
    · exact ⟨c :: a0, by rw [ha0]; rfl⟩

/-- First-deletion decomposition of `bangAux`: either it is the identity,
or the input splits as `a ++ d :: b` where `d` is the first dropped
character — a `!` or `?` equal to the previous surviving character. -/
theorem bangAux_diverge :
    ∀ (rest : List Char) (k : Option Char),
      (∀ kc, k = some kc → kc = '!' ∨ kc = '?') →
      bangAux k rest = rest ∨
      ∃ a d b, rest = a ++ d :: b ∧ (d = '!' ∨ d = '?') ∧
        ((a = [] ∧ k = some d) ∨ (∃ a0, a = a0 ++ [d])) ∧
        bangAux k rest = a ++ bangAux (some d) b
  | [], k, _ => by cases k <;> exact Or.inl rfl
  | c :: r2, k, hk => by
    cases k with
    | some kc =>
      by_cases hck : c = kc
      · right
        refine ⟨[], kc, r2, by rw [hck]; rfl, hk kc rfl,
          Or.inl ⟨rfl, rfl⟩, ?_⟩
        rw [bangAux, if_pos hck]
        rfl
      · by_cases hc : c = '!' ∨ c = '?'
        · rw [show bangAux (some kc) (c :: r2) = c :: bangAux (some c) r2
            from by rw [bangAux, if_neg hck,
              if_pos (by rcases hc with h4 | h4 <;> simp [h4])]]
          exact bangAux_step_lift (some kc) c r2 (some c)
            (fun kc2 h5 => by injection h5 with h5; exact h5.symm)
            (bangAux_diverge r2 (some c) (fun kc2 h5 => by
              injection h5 with h5
              rw [← h5]
              exact hc))
        · rw [show bangAux (some kc) (c :: r2) = c :: bangAux none r2
            from by rw [bangAux, if_neg hck, if_neg (by
              simp only [Bool.or_eq_true, decide_eq_true_eq]; exact hc)]]
          exact bangAux_step_lift (some kc) c r2 none
            (fun kc2 h5 => Option.noConfusion h5)
            (bangAux_diverge r2 none (fun kc2 h5 => Option.noConfusion h5))
    | none =>
      by_cases hc : c = '!' ∨ c = '?'
      · rw [show bangAux none (c :: r2) = c :: bangAux (some c) r2
          from by rw [bangAux,
            if_pos (by rcases hc with h4 | h4 <;> simp [h4])]]
        exact bangAux_step_lift none c r2 (some c)
          (fun kc2 h5 => by injection h5 with h5; exact h5.symm)
          (bangAux_diverge r2 (some c) (fun kc2 h5 => by
            injection h5 with h5
            rw [← h5]
            exact hc))
      · rw [show bangAux none (c :: r2) = c :: bangAux none r2
          from by rw [bangAux, if_neg (by
            simp only [Bool.or_eq_true, decide_eq_true_eq]; exact hc)]]
        exact bangAux_step_lift none c r2 none
          (fun kc2 h5 => Option.noConfusion h5)
          (bangAux_diverge r2 none (fun kc2 h5 => Option.noConfusion h5))

/-- `bangCollapse` cannot create an abbreviation match at an emitted
character: a deleted character is a duplicated `!` or `?`, its left
neighbour is the same character, and the patterns contain neither. -/
theorem bang_no_create (pat' : List Char) (hpb : '!' ∉ pat')
    (hpq : '?' ∉ pat') (c : Char) (rest : List Char) (k : Option Char)
    (hk : ∀ kc, k = some kc → kc = c ∧ (kc = '!' ∨ kc = '?'))
    (h : abbrevMatches pat' (c :: rest) = false) :
    abbrevMatches pat' (c :: bangAux k rest) = false := by
  rcases bangAux_diverge rest k (fun kc hkc => (hk kc hkc).2) with hid |
    ⟨a, d, b, hs, hd2, hrel, hout⟩
  · rw [hid]
    exact h
  · rw [hout]
    rw [hs] at h
    by_cases hlen : pat'.length ≤ a.length
    · rw [show c :: (a ++ bangAux (some d) b) =
        c :: a ++ bangAux (some d) b from rfl]
      rw [abbrevMatches_agree pat' c a (bangAux (some d) b) (d :: b) hlen]
      exact h
    · cases hx : abbrevMatches pat' (c :: (a ++ bangAux (some d) b)) with
      | false => rfl
      | true =>
        exfalso
        have hld : lowerChar d = d := by
          rcases hd2 with rfl | rfl <;> decide
        have hmem : d ∈ pat' := by
          rcases hrel with ⟨ha, hkd⟩ | ⟨a0, ha0⟩
          · have hdc : d = c := (hk d hkd).1
            obtain ⟨hd0, t0, hp0, hl0⟩ := abbrevMatches_head pat' c _ hx
            rw [← hdc, hld] at hl0
            rw [hp0, ← hl0]
            exact List.mem_cons_self _ _
          · have hlt : a.length < pat'.length := by omega
            obtain ⟨n2, hn2⟩ : ∃ n2, pat'.length = n2 + 1 :=
              ⟨pat'.length - 1, by omega⟩
            have hda : d ∈ a := by
              rw [ha0]
              simp
            obtain ⟨-, h2, -⟩ := (abbrevMatches_iff _ _).mp hx
            have hdw : d ∈ (c :: (a ++ bangAux (some d) b)).take
                pat'.length := by
              rw [hn2, List.take_succ_cons, List.take_append_eq_append_take,
                List.take_of_length_le (by omega)]
              exact List.mem_cons_of_mem c (List.mem_append_left _ hda)
            have hmm2 := List.mem_map_of_mem lowerChar hdw
            unfold lowerStr at h2
            rw [h2] at hmm2
            rw [hld] at hmm2
            exact hmm2
        rcases hd2 with rfl | rfl
        · exact hpb hmem
        · exact hpq hmem

/-- `bangAux` preserves the absence of abbreviation matches. -/
theorem noAbbrev_bang (pat' : List Char) (hpb : '!' ∉ pat')
    (hpq : '?' ∉ pat') :
    ∀ (s : List Char) (k : Option Char) (pw : Bool),
      (∀ kc, k = some kc → (kc = '!' ∨ kc = '?') ∧ pw = false) →
      noAbbrev pat' pw s = true →
      noAbbrev pat' pw (bangAux k s) = true
  | [], k, _, _, h => by cases k <;> exact h
  | c :: rest, k, pw, hk, h => by
    obtain ⟨hA, htail⟩ := (noAbbrev_cons pat' pw c rest).mp h
    cases k with
    | some kc =>
      obtain ⟨hkc2, hpwf⟩ := hk kc rfl
      by_cases hck : c = kc
      · rw [show bangAux (some kc) (c :: rest) = bangAux (some kc) rest
          from by rw [bangAux, if_pos hck]]
        have hwc : isWordChar c = false := by
          rw [hck]
          rcases hkc2 with rfl | rfl <;> decide
        rw [hwc] at htail
        rw [hpwf]
        exact noAbbrev_bang pat' hpb hpq rest (some kc) false
          (fun kc2 h5 => by
            injection h5 with h5
            exact ⟨by rw [← h5]; exact hkc2, rfl⟩)
          htail
      · by_cases hc : c = '!' ∨ c = '?'
        · rw [show bangAux (some kc) (c :: rest) = c :: bangAux (some c) rest
            from by rw [bangAux, if_neg hck,
              if_pos (by rcases hc with h4 | h4 <;> simp [h4])]]
          refine (noAbbrev_cons pat' pw c _).mpr ⟨?_, ?_⟩
          · rcases hA with h4 | h4
            · exact Or.inl h4
            · exact Or.inr (bang_no_create pat' hpb hpq c rest (some c)
                (fun kc2 h5 => by
                  injection h5 with h5
                  exact ⟨h5.symm, by rw [← h5]; exact hc⟩) h4)
          · exact noAbbrev_bang pat' hpb hpq rest (some c) (isWordChar c)
              (fun kc2 h5 => by
                injection h5 with h5
                refine ⟨by rw [← h5]; exact hc, ?_⟩
                rcases hc with h6 | h6 <;> rw [h6] <;> decide) htail
        · rw [show bangAux (some kc) (c :: rest) = c :: bangAux none rest
            from by rw [bangAux, if_neg hck, if_neg (by
              simp only [Bool.or_eq_true, decide_eq_true_eq]; exact hc)]]
          refine (noAbbrev_cons pat' pw c _).mpr ⟨?_, ?_⟩
          · rcases hA with h4 | h4
            · exact Or.inl h4
            · exact Or.inr (bang_no_create pat' hpb hpq c rest none
                (fun kc2 h5 => Option.noConfusion h5) h4)
          · exact noAbbrev_bang pat' hpb hpq rest none (isWordChar c)
              (fun kc2 h5 => Option.noConfusion h5) htail
    | none =>
      by_cases hc : c = '!' ∨ c = '?'
      · rw [show bangAux none (c :: rest) = c :: bangAux (some c) rest
          from by rw [bangAux,
            if_pos (by rcases hc with h4 | h4 <;> simp [h4])]]
        refine (noAbbrev_cons pat' pw c _).mpr ⟨?_, ?_⟩
        · rcases hA with h4 | h4
          · exact Or.inl h4
          · exact Or.inr (bang_no_create pat' hpb hpq c rest (some c)
              (fun kc2 h5 => by
                injection h5 with h5
                exact ⟨h5.symm, by rw [← h5]; exact hc⟩) h4)
        · exact noAbbrev_bang pat' hpb hpq rest (some c) (isWordChar c)
            (fun kc2 h5 => by
              injection h5 with h5
              refine ⟨by rw [← h5]; exact hc, ?_⟩
              rcases hc with h6 | h6 <;> rw [h6] <;> decide) htail
      · rw [show bangAux none (c :: rest) = c :: bangAux none rest
          from by rw [bangAux, if_neg (by
            simp only [Bool.or_eq_true, decide_eq_true_eq]; exact hc)]]
        refine (noAbbrev_cons pat' pw c _).mpr ⟨?_, ?_⟩
        · rcases hA with h4 | h4
          · exact Or.inl h4
          · exact Or.inr (bang_no_create pat' hpb hpq c rest none
              (fun kc2 h5 => Option.noConfusion h5) h4)
        · exact noAbbrev_bang pat' hpb hpq rest none (isWordChar c)
            (fun kc2 h5 => Option.noConfusion h5) htail

theorem collapseRun_flush :
    ∀ (r2 runRev : List Char), runRev.length ≥ 2 →
      ∃ Z, collapseRunAux isJsSpace runRev r2 = ' ' :: Z
  | [], runRev, h2 => by
    rw [collapseRunAux, if_pos h2]
    exact ⟨[], rfl⟩
  | c :: r4, runRev, h2 => by
    rw [collapseRunAux]
    by_cases hc : isJsSpace c = true
    · rw [if_pos hc]
      exact collapseRun_flush r4 (c :: runRev)
        (by rw [List.length_cons]; omega)
    · rw [if_neg hc, if_pos h2]
      exact ⟨c :: collapseRunAux isJsSpace [] r4, rfl⟩

/-- First-divergence decomposition of whitespace-run collapsing: either the
identity, or the input splits as `a ++ B` with the output `a ++ ' ' :: Z`
(the divergence point emits the collapsing space). -/
theorem collapseAux_diverge :
    ∀ (rest : List Char),
      collapseRunAux isJsSpace [] rest = rest ∨
      ∃ a B Z, rest = a ++ B ∧
        collapseRunAux isJsSpace [] rest = a ++ ' ' :: Z
  | [] => Or.inl rfl
  | [c] => by
    by_cases hc : isJsSpace c = true
    · left
      rw [collapseRunAux, if_pos hc, collapseRunAux, if_neg (by simp)]
      rfl
    · left
      rw [collapseRunAux, if_neg hc]
      rfl
  | c :: d :: r3 => by
    by_cases hc : isJsSpace c = true
    · by_cases hd : isJsSpace d = true
      · right
        have h1 : collapseRunAux isJsSpace [] (c :: d :: r3) =
            collapseRunAux isJsSpace [d, c] r3 := by
          rw [collapseRunAux, if_pos hc, collapseRunAux, if_pos hd]
        obtain ⟨Z, hZ⟩ := collapseRun_flush r3 [d, c] (by simp)
        exact ⟨[], c :: d :: r3, Z, rfl, by rw [h1, hZ]; rfl⟩
      · have h1 : collapseRunAux isJsSpace [] (c :: d :: r3) =
            c :: d :: collapseRunAux isJsSpace [] r3 := by
          rw [collapseRunAux, if_pos hc, collapseRunAux, if_neg hd,
            if_neg (by simp)]
          rfl
        rcases collapseAux_diverge r3 with hid | ⟨a, B, Z, hs, hout⟩
        · left
          rw [h1, hid]
        · right
          exact ⟨c :: d :: a, B, Z, by rw [hs]; rfl,
            by rw [h1, hout]; rfl⟩
    · have h1 : collapseRunAux isJsSpace [] (c :: d :: r3) =
          c :: collapseRunAux isJsSpace [] (d :: r3) := by
        rw [collapseRunAux, if_neg hc]
        rfl
      rcases collapseAux_diverge (d :: r3) with hid | ⟨a, B, Z, hs, hout⟩
      · left
        rw [h1, hid]
      · right
        exact ⟨c :: a, B, Z, by rw [hs]; rfl, by rw [h1, hout]; rfl⟩

/-- `collapseWs2` cannot create an abbreviation match at an emitted
character: a collapsed run is replaced by a space, patterns contain no
whitespace, and a space fails the trailing word-character requirement. -/
theorem collapse_no_create (pat' : List Char)
    (hpws : ∀ x ∈ pat', isJsSpace x = false)
    (c : Char) (rest : List Char)
    (h : abbrevMatches pat' (c :: rest) = false) :
    abbrevMatches pat' (c :: collapseRunAux isJsSpace [] rest) = false := by
  rcases collapseAux_diverge rest with hid | ⟨a, B, Z, hs, hout⟩
  · rw [hid]
    exact h
  · rw [hout]
    rw [hs] at h
    by_cases hlen : pat'.length ≤ a.length
    · rw [show c :: (a ++ ' ' :: Z) = c :: a ++ ' ' :: Z from rfl]
      rw [abbrevMatches_agree pat' c a (' ' :: Z) B hlen]
      exact h
    · cases hx : abbrevMatches pat' (c :: (a ++ ' ' :: Z)) with
      | false => rfl
      | true =>
        exfalso
        obtain ⟨hne', h2, dl, rl, hdd, hwd⟩ := (abbrevMatches_iff _ _).mp hx
        by_cases hmn : a.length + 1 = pat'.length
        · rw [← hmn, List.drop_succ_cons, List.drop_left] at hdd
          injection hdd with hdd1 hdd2
          rw [← hdd1] at hwd
          exact absurd hwd (by decide)
        · have hmlt : a.length + 1 < pat'.length := by omega
          obtain ⟨n2, hn2⟩ : ∃ n2, pat'.length = n2 + 1 :=
            ⟨pat'.length - 1, by omega⟩
          have hww : ' ' ∈ (c :: (a ++ ' ' :: Z)).take pat'.length := by
            rw [hn2, List.take_succ_cons, List.take_append_eq_append_take,
              List.take_of_length_le (by omega)]
            rw [show n2 - a.length = (n2 - a.length - 1) + 1 from by omega,
              List.take_succ_cons]
            exact List.mem_cons_of_mem c (List.mem_append_right _
              (List.mem_cons_self _ _))
          have hmm2 := List.mem_map_of_mem lowerChar hww
          unfold lowerStr at h2
          rw [h2] at hmm2
          rw [show lowerChar ' ' = ' ' from rfl] at hmm2
          have h7 := hpws ' ' hmm2
          exact absurd h7 (by decide)

/-- `collapseRunAux isJsSpace` preserves the absence of abbreviation
matches: collapsed runs never vanish entirely, so word boundaries cannot
close over a deleted run. -/
theorem noAbbrev_collapse (pat' : List Char)
    (hph2 : ∀ x, pat'.head? = some x → isWordChar x = true)
    (hpws : ∀ x ∈ pat', isJsSpace x = false) :
    ∀ (s runRev : List Char) (pwI pwO : Bool),
      (∀ x ∈ runRev, isJsSpace x = true) →
      (runRev = [] → pwO = pwI) →
      (runRev ≠ [] → pwI = false) →
      noAbbrev pat' pwI s = true →
      noAbbrev pat' pwO (collapseRunAux isJsSpace runRev s) = true
  | [], runRev, pwI, pwO, hrun, _, _, _ => by
    rw [collapseRunAux]
    split_ifs with h2
    · exact noAbbrev_all_ws pat' hph2 [' '] pwO
        (by intro x hx; rw [List.mem_singleton.mp hx]; decide)
    · exact noAbbrev_all_ws pat' hph2 runRev.reverse pwO
        (fun x hx => hrun x (List.mem_reverse.mp hx))
  | c :: rest, runRev, pwI, pwO, hrun, hemp, hne, h => by
    obtain ⟨hA, htail⟩ := (noAbbrev_cons pat' pwI c rest).mp h
    rw [collapseRunAux]
    by_cases hc : isJsSpace c = true
    · rw [if_pos hc]
      rw [ws_not_word c hc] at htail
      exact noAbbrev_collapse pat' hph2 hpws rest (c :: runRev) false pwO
        (by
          intro x hx
          rcases List.mem_cons.mp hx with h4 | h4
          · rw [h4]
            exact hc
          · exact hrun x h4)
        (fun h4 => absurd h4 (by simp))
        (fun _ => rfl)
        htail
    · rw [if_neg hc]
      cases hrr : runRev with
      | nil =>
        rw [show (if ([] : List Char).length ≥ 2 then [' ']
          else ([] : List Char).reverse) = [] from rfl]
        rw [List.nil_append]
        have hOI : pwO = pwI := hemp hrr
        refine (noAbbrev_cons pat' pwO c _).mpr ⟨?_, ?_⟩
        · rcases hA with h4 | h4
          · exact Or.inl (by rw [hOI]; exact h4)
          · exact Or.inr (collapse_no_create pat' hpws c rest h4)
        · exact noAbbrev_collapse pat' hph2 hpws rest [] (isWordChar c)
            (isWordChar c) (fun x hx => absurd hx (List.not_mem_nil x))
            (fun _ => rfl) (fun h5 => absurd rfl h5) htail
      | cons rh rt =>
        have hIf : pwI = false := by
          apply hne
          rw [hrr]
          simp
        have hfws : ∀ x ∈ (if (rh :: rt).length ≥ 2 then [' ']
            else (rh :: rt).reverse), isJsSpace x = true := by
          intro x hx
          split_ifs at hx with h6
          · rw [List.mem_singleton.mp hx]
            decide
          · refine hrun x ?_
            rw [hrr]
            exact List.mem_reverse.mp hx
        apply noAbbrev_ws_prepend pat' hph2 _ _ pwO hfws
          (fun h6 => absurd h6 (by split_ifs <;> simp))
        refine (noAbbrev_cons pat' false c _).mpr ⟨?_, ?_⟩
        · right
          rcases hA with h4 | h4
          · rw [hIf] at h4
            exact absurd h4 (by simp)
          · exact collapse_no_create pat' hpws c rest h4
        · exact noAbbrev_collapse pat' hph2 hpws rest [] (isWordChar c)
            (isWordChar c) (fun x hx => absurd hx (List.not_mem_nil x))
            (fun _ => rfl) (fun h5 => absurd rfl h5) htail

/-- Transport of `noAbbrev` through the tail of `audiobookPolish`. -/
theorem noAbbrev_polishTail (pat' : List Char)
    (hph2 : ∀ x, pat'.head? = some x → isWordChar x = true)
    (hpws : ∀ x ∈ pat', isJsSpace x = false)
    (hpb : '!' ∉ pat') (hpq : '?' ∉ pat')
    (X : List Char) (h : noAbbrev pat' false X = true) :
    noAbbrev pat' false (trimStr (collapseWs2 (bangCollapse X))) = true := by
  apply noAbbrev_trim
  have h1 : noAbbrev pat' false (bangCollapse X) = true :=
    noAbbrev_bang pat' hpb hpq X none false
      (fun kc hkc => Option.noConfusion hkc) h
  rw [show collapseWs2 (bangCollapse X) =
    collapseRunAux isJsSpace [] (bangCollapse X) from rfl]
  exact noAbbrev_collapse pat' hph2 hpws (bangCollapse X) [] false false
    (fun x hx => absurd hx (List.not_mem_nil x)) (fun _ => rfl)
    (fun h5 => absurd rfl h5) h1

theorem itemSafe_no_item (s : List Char) (h : itemSafe s) :
    itemMatches s = false ∧ s ≠ [] := by
  obtain ⟨c, Z, hs, hcw, hcase⟩ := h
  subst hs
  refine ⟨?_, by simp⟩
  rcases hcase with hc | hZ | ⟨d, Z2, hZ, hdw⟩
  · exact itemMatches_cons_not c Z hcw hc
  · subst hZ
    by_cases hc : c = '-'
    · subst hc
      decide
    · exact itemMatches_cons_not c [] hcw hc
  · subst hZ
    by_cases hc : c = '-'
    · subst hc
      exact itemMatches_dash d Z2 hdw
    · exact itemMatches_cons_not c (d :: Z2) hcw hc

/-- One abbreviation expansion preserves the safe head shape: a fired
replacement starts with a solid non-dash character, and after a surviving
dash head the scanner either keeps the solid next character or fires. -/
theorem expandAbbrev_itemSafe (pat rep : List Char)
    (r0 : Char) (rr : List Char) (hrep : rep = r0 :: rr)
    (hr0w : isJsSpace r0 = false) (hr0d : r0 ≠ '-')
    (s : List Char) (h : itemSafe s) :
    itemSafe (expandAbbrev pat rep false s) := by
  obtain ⟨c, Z, hs, hcw, hcase⟩ := h
  subst hs
  rw [show expandAbbrev pat rep false (c :: Z) =
    expandAbbrevAux pat rep 0 false (c :: Z) from rfl]
  rw [expandAbbrevAux, if_neg (by omega)]
  by_cases hf : (!false && abbrevMatches pat (c :: Z)) = true
  · rw [if_pos hf, hrep]
    exact ⟨r0, _, rfl, hr0w, Or.inl hr0d⟩
  · rw [if_neg hf]
    refine ⟨c, expandAbbrevAux pat rep 0 (isWordChar c) Z, rfl, hcw, ?_⟩
    rcases hcase with hc | hZ | ⟨d, Z2, hZ, hdw⟩
    · exact Or.inl hc
    · subst hZ
      right
      left
      rfl
    · subst hZ
      right
      rw [expandAbbrevAux, if_neg (by omega)]
      by_cases hf2 : (!isWordChar c && abbrevMatches pat (d :: Z2)) = true
      · rw [if_pos hf2, hrep]
        right
        exact ⟨r0, _, rfl, hr0w⟩
      · rw [if_neg hf2]
        right
        exact ⟨d, expandAbbrevAux pat rep 0 (isWordChar d) Z2, rfl, hdw⟩

theorem midchain_head_solid (c : Char) (X : List Char)
    (hc : isJsSpace c = false) :
    ∃ Z, trimStr (collapseSpaceTab2 (c :: X)) = c :: Z := by
  have hc1 : ¬(c = ' ') := fun he => by
    rw [he] at hc
    exact absurd hc (by decide)
  have hc2 : ¬(c = '\t') := fun he => by
    rw [he] at hc
    exact absurd hc (by decide)
  have hpc : ((c = ' ' || c = '\t') : Bool) = false := by simp [hc1, hc2]
  rw [show collapseSpaceTab2 (c :: X) =
    c :: collapseRunAux (fun x => x = ' ' || x = '\t') [] X from
    collapse_head_solid _ c X hpc]
  exact trim_head_solid c _ hc

theorem midchain_pair_solid (c d : Char) (X : List Char)
    (hc : isJsSpace c = false) (hd : isJsSpace d = false) :
    ∃ Z, trimStr (collapseSpaceTab2 (c :: d :: X)) = c :: d :: Z := by
  have hcs : ¬(c = ' ') := fun he => by
    rw [he] at hc
    exact absurd hc (by decide)
  have hct : ¬(c = '\t') := fun he => by
    rw [he] at hc
    exact absurd hc (by decide)
  have hds : ¬(d = ' ') := fun he => by
    rw [he] at hd
    exact absurd hd (by decide)
  have hdt : ¬(d = '\t') := fun he => by
    rw [he] at hd
    exact absurd hd (by decide)
  have hpc : ((c = ' ' || c = '\t') : Bool) = false := by simp [hcs, hct]
  have hpd : ((d = ' ' || d = '\t') : Bool) = false := by simp [hds, hdt]
  rw [show collapseSpaceTab2 (c :: d :: X) =
      c :: d :: collapseRunAux (fun x => x = ' ' || x = '\t') [] X from by
    rw [show collapseSpaceTab2 (c :: d :: X) =
        collapseRunAux (fun x => x = ' ' || x = '\t') [] (c :: d :: X)
      from rfl]
    rw [collapse_head_solid _ c _ hpc, collapse_head_solid _ d _ hpd]]
  exact trim_pair_solid c d _ hc hd

/-- The cleaning chain up to `collapseSpaceTab2` produces a safe head
shape on any kept line. -/
theorem midChain_itemSafe (L : List Char) (hLne : L ≠ [])
    (hh : ∀ x, L.head? = some x → isJsSpace x = false)
    (hnlL : '\n' ∉ L) :
    itemSafe (trimStr (collapseSpaceTab2 (itemize (replaceBullets L)))) := by
  have hnl4 : '\n' ∉ replaceBullets L := by
    intro hmem
    rcases replaceBullets_mem L '\n' hmem with ⟨h1, -⟩ | h1
    · exact hnlL h1
    · exact absurd h1 (by decide)
  cases L with
  | nil => exact absurd rfl hLne
  | cons l0 L2 =>
    have hl0 : isJsSpace l0 = false := hh l0 rfl
    have ht4 : replaceBullets (l0 :: L2) =
        (if isBulletAudio l0 then '-' else l0) :: replaceBullets L2 := rfl
    have hw4 : isJsSpace (if isBulletAudio l0 then '-' else l0) = false := by
      split_ifs with hb
      · decide
      · exact hl0
    rw [ht4] at hnl4 ⊢
    by_cases hit : itemMatches ((if isBulletAudio l0 then '-' else l0) ::
        replaceBullets L2) = true
    · obtain ⟨W, hW⟩ := itemize_fire _ _ hit
      rw [hW]
      obtain ⟨Z, hZ⟩ := midchain_head_solid 'I' W (by decide)
      rw [hZ]
      exact ⟨'I', Z, rfl, by decide, Or.inl (by decide)⟩
    · have hitf : itemMatches ((if isBulletAudio l0 then '-' else l0) ::
          replaceBullets L2) = false := by
        simpa using hit
      rw [itemize_id _ hnl4 hitf]
      by_cases hdash : (if isBulletAudio l0 then '-' else l0) = '-'
      · rw [hdash] at hitf ⊢
        cases hR : replaceBullets L2 with
        | nil =>
          exact ⟨'-', [], by decide, by decide, Or.inr (Or.inl rfl)⟩
        | cons d r4 =>
          rw [hR] at hitf
          have hwd := itemMatches_dash_inv d r4 hitf
          obtain ⟨Z, hZ⟩ := midchain_pair_solid '-' d r4 (by decide) hwd
          rw [hZ]
          exact ⟨'-', d :: Z, rfl, by decide,
            Or.inr (Or.inr ⟨d, Z, rfl, hwd⟩)⟩
      · obtain ⟨Z, hZ⟩ := midchain_head_solid _ (replaceBullets L2) hw4
        rw [hZ]
        exact ⟨_, Z, rfl, hw4, Or.inl hdash⟩

/-- The tail of `audiobookPolish` preserves the safe head shape. -/
theorem polishTail_itemSafe (X : List Char) (h : itemSafe X) :
    itemSafe (trimStr (collapseWs2 (bangCollapse X))) := by
  obtain ⟨c, Z, hs, hcw, hcase⟩ := h
  subst hs
  by_cases hc : c = '-'
  · subst hc
    have hcase2 : Z = [] ∨ ∃ d Z2, Z = d :: Z2 ∧ isJsSpace d = false := by
      rcases hcase with h1 | h1 | h1
      · exact absurd rfl h1
      · exact Or.inl h1
      · exact Or.inr h1
    rcases hcase2 with hZ | ⟨d, Z2, hZ, hdw⟩
    · subst hZ
      exact ⟨'-', [], by decide, by decide, Or.inr (Or.inl rfl)⟩
    · subst hZ
      obtain ⟨k, hk⟩ := bang_pair_shape '-' d Z2 (by decide) (by decide)
      rw [show bangCollapse ('-' :: d :: Z2) = '-' :: d :: bangAux k Z2
        from hk]
      rw [show collapseWs2 ('-' :: d :: bangAux k Z2) =
          '-' :: d :: collapseRunAux isJsSpace [] (bangAux k Z2) from by
        rw [show collapseWs2 ('-' :: d :: bangAux k Z2) =
            collapseRunAux isJsSpace [] ('-' :: d :: bangAux k Z2)
          from rfl]
        rw [collapse_head_solid isJsSpace '-' _ (by decide),
          collapse_head_solid isJsSpace d _ hdw]]
      obtain ⟨W, hW⟩ := trim_pair_solid '-' d _ (by decide) hdw
      rw [hW]
      exact ⟨'-', d :: W, rfl, by decide, Or.inr (Or.inr ⟨d, W, rfl, hdw⟩)⟩
  · obtain ⟨k, hk⟩ := bang_cons_shape c Z
    rw [show bangCollapse (c :: Z) = c :: bangAux k Z from hk]
    rw [show collapseWs2 (c :: bangAux k Z) =
      c :: collapseRunAux isJsSpace [] (bangAux k Z) from
      collapse_head_solid isJsSpace c _ hcw]
    obtain ⟨W, hW⟩ := trim_head_solid c _ hcw
    rw [hW]
    exact ⟨c, W, rfl, hcw, Or.inl hc⟩

theorem expandAbbrev_mem (pat rep : List Char) (s : List Char) (pw : Bool)
    (c : Char) (h : c ∈ expandAbbrev pat rep pw s) : c ∈ s ∨ c ∈ rep :=
  expandAux_mem pat rep s 0 pw c h

theorem polish_mem_keep (X : List Char) (x : Char) (hx : x ∈ X)
    (hws : isJsSpace x = false) :
    x ∈ trimStr (collapseWs2 (bangCollapse X)) := by
  have h3 : x ∈ bangCollapse X := by
    rcases bang_mem_any X none x hx with h | h
    · exact h
    · exact Option.noConfusion h
  have h4 : x ∈ collapseWs2 (bangCollapse X) :=
    collapse_mem_keep isJsSpace _ [] x hws h3
  exact trim_mem_keep _ _ h4 hws

/-- A non-whitespace, non-digit, non-page-class character in the polished
tail input defeats both line filters on the output. -/
theorem witness_kills (X : List Char) (x : Char) (hx : x ∈ X)
    (hws : isJsSpace x = false) (hdig : isDigit x = false)
    (hpc : inPageClass x = false) :
    testPureDigits (trimStr (collapseWs2 (bangCollapse X))) = false ∧
    testPageNum (trimStr (collapseWs2 (bangCollapse X))) = false := by
  have hmem := polish_mem_keep X x hx hws
  constructor
  · cases hpd : testPureDigits (trimStr (collapseWs2 (bangCollapse X)))
    · rfl
    · exfalso
      unfold testPureDigits at hpd
      rw [Bool.and_eq_true, List.all_eq_true] at hpd
      have h6 := hpd.2 _ hmem
      rw [hdig] at h6
      exact absurd h6 (by simp)
  · cases hpn : testPageNum (trimStr (collapseWs2 (bangCollapse X)))
    · rfl
    · exfalso
      have h6 := testPageNum_class _ hpn _ hmem
      rw [h6] at hpc
      exact absurd hpc (by simp)

/-- Reduction of `cleanTextForAudio` on CR/LF-free input: one line, no
dehyphenation or newline joining, with `audiobookPolish` kept intact. -/
theorem cleanTextForAudio_reduce2 (raw : List Char)
    (hCR : '\x0d' ∉ raw) (hNL : '\n' ∉ raw) :
    cleanTextForAudio raw =
      if ((trimStr raw ≠ [] && !testPureDigits (trimStr raw)) &&
          !testPageNum (trimStr raw)) = true then
        audiobookPolish (trimStr (collapseSpaceTab2 (itemize (replaceBullets
          (trimStr raw)))))
      else [] := by
  have hnl6 : '\n' ∉ trimStr raw :=
    fun hmem => hNL (trim_mem_subset raw _ hmem)
  simp only [cleanTextForAudio]
  rw [replaceCRLF_id raw hCR, replaceCR_id raw hCR]
  rw [show jsSplitChar '\n' raw = [raw] from by
    unfold jsSplitChar
    rw [jsSplitCharAux_absent '\n' raw [] hNL]
    rfl]
  rw [show List.map trimStr [raw] = [trimStr raw] from rfl]
  simp only [List.filter_cons, List.filter_nil]
  by_cases hkeep : ((trimStr raw ≠ [] && !testPureDigits (trimStr raw)) &&
      !testPageNum (trimStr raw)) = true
  · rw [if_pos hkeep, if_pos hkeep]
    rw [strip_singleton (trimStr raw)]
    rw [show joinWith ['\n'] [trimStr raw] = trimStr raw from rfl]
    rw [show dehyphenate (trimStr raw) = trimStr raw from
      dehyphenate_id (trimStr raw) hnl6]
    rw [show collapseNewlines3 (trimStr raw) = trimStr raw from
      collapseNl3_id (trimStr raw) hnl6]
    rw [show joinSingleNewlines (trimStr raw) = trimStr raw from
      joinNl_id (trimStr raw) hnl6]
  · rw [if_neg hkeep, if_neg hkeep]
    rfl

theorem expandAbbrev_dichot (pat rep : List Char) (x : Char) (hx : x ∈ rep)
    (X : List Char) :
    expandAbbrev pat rep false X = X ∨ x ∈ expandAbbrev pat rep false X :=
  expandAux_dichot pat rep x hx X false

/-- Second pass of `cleanTextForAudio` on a polished line: given the safe
head shape, character-level side conditions and the two line filters
already settled, cleaning `audiobookPolish T` again changes nothing — in
particular the five abbreviation scans find no match in the
already-expanded text. -/
theorem cleanTextForAudio_pass2 (T : List Char)
    (hTsafe : itemSafe T)
    (hmemT : ∀ c ∈ T, c ≠ '\x0d' ∧ c ≠ '\n' ∧ isBulletAudio c = false)
    (hDP : testPureDigits (audiobookPolish T) = false ∧
      testPageNum (audiobookPolish T) = false) :
    cleanTextForAudio (audiobookPolish T) = audiobookPolish T := by
  have hphE : ∀ x, ("e.g.".data).head? = some x → isWordChar x = true := by
    intro x hx
    rw [show ("e.g.".data).head? = some 'e' from by decide] at hx
    injection hx with hx
    rw [← hx]
    decide
  have hphI : ∀ x, ("i.e.".data).head? = some x → isWordChar x = true := by
    intro x hx
    rw [show ("i.e.".data).head? = some 'i' from by decide] at hx
    injection hx with hx
    rw [← hx]
    decide
  have hphV : ∀ x, ("vs.".data).head? = some x → isWordChar x = true := by
    intro x hx
    rw [show ("vs.".data).head? = some 'v' from by decide] at hx
    injection hx with hx
    rw [← hx]
    decide
  have hphW : ∀ x, ("w/".data).head? = some x → isWordChar x = true := by
    intro x hx
    rw [show ("w/".data).head? = some 'w' from by decide] at hx
    injection hx with hx
    rw [← hx]
    decide
  have hphT : ∀ x, ("etc.".data).head? = some x → isWordChar x = true := by
    intro x hx
    rw [show ("etc.".data).head? = some 'e' from by decide] at hx
    injection hx with hx
    rw [← hx]
    decide
  have hlaFE : ∀ x, ("for example".data).getLast? = some x → isWordChar x = true := by
    intro x hx
    rw [show ("for example".data).getLast? = some 'e' from by decide] at hx
    injection hx with hx
    rw [← hx]
    decide
  have hlaTI : ∀ x, ("that is".data).getLast? = some x → isWordChar x = true := by
    intro x hx
    rw [show ("that is".data).getLast? = some 's' from by decide] at hx
    injection hx with hx
    rw [← hx]
    decide
  have hlaVE : ∀ x, ("versus".data).getLast? = some x → isWordChar x = true := by
    intro x hx
    rw [show ("versus".data).getLast? = some 's' from by decide] at hx
    injection hx with hx
    rw [← hx]
    decide
  have hlaWI : ∀ x, ("with".data).getLast? = some x → isWordChar x = true := by
    intro x hx
    rw [show ("with".data).getLast? = some 'h' from by decide] at hx
    injection hx with hx
    rw [← hx]
    decide
  have hlaET : ∀ x, ("etcetera".data).getLast? = some x → isWordChar x = true := by
    intro x hx
    rw [show ("etcetera".data).getLast? = some 'a' from by decide] at hx
    injection hx with hx
    rw [← hx]
    decide
  have n11 : noAbbrev "e.g.".data false (expandAbbrev "e.g.".data "for example".data false (T)) = true :=
    expandAux_noAbbrev "e.g.".data "for example".data "e.g.".data hphE
      (by decide) hlaFE (by decide) (by decide) (by decide)
      (T) 0 false false (Or.inr ⟨rfl, rfl⟩) (Or.inl rfl)
  have n12 : noAbbrev "e.g.".data false (expandAbbrev "i.e.".data "that is".data false (expandAbbrev "e.g.".data "for example".data false (T))) = true :=
    expandAux_noAbbrev "i.e.".data "that is".data "e.g.".data hphI
      (by decide) hlaTI (by decide) (by decide) (by decide)
      (expandAbbrev "e.g.".data "for example".data false (T)) 0 false false (Or.inr ⟨rfl, rfl⟩) (Or.inr n11)
  have n22 : noAbbrev "i.e.".data false (expandAbbrev "i.e.".data "that is".data false (expandAbbrev "e.g.".data "for example".data false (T))) = true :=
    expandAux_noAbbrev "i.e.".data "that is".data "i.e.".data hphI
      (by decide) hlaTI (by decide) (by decide) (by decide)
      (expandAbbrev "e.g.".data "for example".data false (T)) 0 false false (Or.inr ⟨rfl, rfl⟩) (Or.inl rfl)
  have n13 : noAbbrev "e.g.".data false (expandAbbrev "vs.".data "versus".data false (expandAbbrev "i.e.".data "that is".data false (expandAbbrev "e.g.".data "for example".data false (T)))) = true :=
    expandAux_noAbbrev "vs.".data "versus".data "e.g.".data hphV
      (by decide) hlaVE (by decide) (by decide) (by decide)
      (expandAbbrev "i.e.".data "that is".data false (expandAbbrev "e.g.".data "for example".data false (T))) 0 false false (Or.inr ⟨rfl, rfl⟩) (Or.inr n12)
  have n23 : noAbbrev "i.e.".data false (expandAbbrev "vs.".data "versus".data false (expandAbbrev "i.e.".data "that is".data false (expandAbbrev "e.g.".data "for example".data false (T)))) = true :=
    expandAux_noAbbrev "vs.".data "versus".data "i.e.".data hphV
      (by decide) hlaVE (by decide) (by decide) (by decide)
      (expandAbbrev "i.e.".data "that is".data false (expandAbbrev "e.g.".data "for example".data false (T))) 0 false false (Or.inr ⟨rfl, rfl⟩) (Or.inr n22)
  have n33 : noAbbrev "vs.".data false (expandAbbrev "vs.".data "versus".data false (expandAbbrev "i.e.".data "that is".data false (expandAbbrev "e.g.".data "for example".data false (T)))) = true :=
    expandAux_noAbbrev "vs.".data "versus".data "vs.".data hphV
      (by decide) hlaVE (by decide) (by decide) (by decide)
      (expandAbbrev "i.e.".data "that is".data false (expandAbbrev "e.g.".data "for example".data false (T))) 0 false false (Or.inr ⟨rfl, rfl⟩) (Or.inl rfl)
  have n14 : noAbbrev "e.g.".data false (expandAbbrev "w/".data "with".data false (expandAbbrev "vs.".data "versus".data false (expandAbbrev "i.e.".data "that is".data false (expandAbbrev "e.g.".data "for example".data false (T))))) = true :=
    expandAux_noAbbrev "w/".data "with".data "e.g.".data hphW
      (by decide) hlaWI (by decide) (by decide) (by decide)
      (expandAbbrev "vs.".data "versus".data false (expandAbbrev "i.e.".data "that is".data false (expandAbbrev "e.g.".data "for example".data false (T)))) 0 false false (Or.inr ⟨rfl, rfl⟩) (Or.inr n13)
  have n24 : noAbbrev "i.e.".data false (expandAbbrev "w/".data "with".data false (expandAbbrev "vs.".data "versus".data false (expandAbbrev "i.e.".data "that is".data false (expandAbbrev "e.g.".data "for example".data false (T))))) = true :=
    expandAux_noAbbrev "w/".data "with".data "i.e.".data hphW
      (by decide) hlaWI (by decide) (by decide) (by decide)
      (expandAbbrev "vs.".data "versus".data false (expandAbbrev "i.e.".data "that is".data false (expandAbbrev "e.g.".data "for example".data false (T)))) 0 false false (Or.inr ⟨rfl, rfl⟩) (Or.inr n23)
  have n34 : noAbbrev "vs.".data false (expandAbbrev "w/".data "with".data false (expandAbbrev "vs.".data "versus".data false (expandAbbrev "i.e.".data "that is".data false (expandAbbrev "e.g.".data "for example".data false (T))))) = true :=
    expandAux_noAbbrev "w/".data "with".data "vs.".data hphW
      (by decide) hlaWI (by decide) (by decide) (by decide)
      (expandAbbrev "vs.".data "versus".data false (expandAbbrev "i.e.".data "that is".data false (expandAbbrev "e.g.".data "for example".data false (T)))) 0 false false (Or.inr ⟨rfl, rfl⟩) (Or.inr n33)
  have n44 : noAbbrev "w/".data false (expandAbbrev "w/".data "with".data false (expandAbbrev "vs.".data "versus".data false (expandAbbrev "i.e.".data "that is".data false (expandAbbrev "e.g.".data "for example".data false (T))))) = true :=
    expandAux_noAbbrev "w/".data "with".data "w/".data hphW
      (by decide) hlaWI (by decide) (by decide) (by decide)
      (expandAbbrev "vs.".data "versus".data false (expandAbbrev "i.e.".data "that is".data false (expandAbbrev "e.g.".data "for example".data false (T)))) 0 false false (Or.inr ⟨rfl, rfl⟩) (Or.inl rfl)
  have n15 : noAbbrev "e.g.".data false (expandAbbrev "etc.".data "etcetera".data false (expandAbbrev "w/".data "with".data false (expandAbbrev "vs.".data "versus".data false (expandAbbrev "i.e.".data "that is".data false (expandAbbrev "e.g.".data "for example".data false (T)))))) = true :=
    expandAux_noAbbrev "etc.".data "etcetera".data "e.g.".data hphT
      (by decide) hlaET (by decide) (by decide) (by decide)
      (expandAbbrev "w/".data "with".data false (expandAbbrev "vs.".data "versus".data false (expandAbbrev "i.e.".data "that is".data false (expandAbbrev "e.g.".data "for example".data false (T))))) 0 false false (Or.inr ⟨rfl, rfl⟩) (Or.inr n14)
  have n25 : noAbbrev "i.e.".data false (expandAbbrev "etc.".data "etcetera".data false (expandAbbrev "w/".data "with".data false (expandAbbrev "vs.".data "versus".data false (expandAbbrev "i.e.".data "that is".data false (expandAbbrev "e.g.".data "for example".data false (T)))))) = true :=
    expandAux_noAbbrev "etc.".data "etcetera".data "i.e.".data hphT
      (by decide) hlaET (by decide) (by decide) (by decide)
      (expandAbbrev "w/".data "with".data false (expandAbbrev "vs.".data "versus".data false (expandAbbrev "i.e.".data "that is".data false (expandAbbrev "e.g.".data "for example".data false (T))))) 0 false false (Or.inr ⟨rfl, rfl⟩) (Or.inr n24)
  have n35 : noAbbrev "vs.".data false (expandAbbrev "etc.".data "etcetera".data false (expandAbbrev "w/".data "with".data false (expandAbbrev "vs.".data "versus".data false (expandAbbrev "i.e.".data "that is".data false (expandAbbrev "e.g.".data "for example".data false (T)))))) = true :=
    expandAux_noAbbrev "etc.".data "etcetera".data "vs.".data hphT
      (by decide) hlaET (by decide) (by decide) (by decide)
      (expandAbbrev "w/".data "with".data false (expandAbbrev "vs.".data "versus".data false (expandAbbrev "i.e.".data "that is".data false (expandAbbrev "e.g.".data "for example".data false (T))))) 0 false false (Or.inr ⟨rfl, rfl⟩) (Or.inr n34)
  have n45 : noAbbrev "w/".data false (expandAbbrev "etc.".data "etcetera".data false (expandAbbrev "w/".data "with".data false (expandAbbrev "vs.".data "versus".data false (expandAbbrev "i.e.".data "that is".data false (expandAbbrev "e.g.".data "for example".data false (T)))))) = true :=
    expandAux_noAbbrev "etc.".data "etcetera".data "w/".data hphT
      (by decide) hlaET (by decide) (by decide) (by decide)
      (expandAbbrev "w/".data "with".data false (expandAbbrev "vs.".data "versus".data false (expandAbbrev "i.e.".data "that is".data false (expandAbbrev "e.g.".data "for example".data false (T))))) 0 false false (Or.inr ⟨rfl, rfl⟩) (Or.inr n44)
  have n55 : noAbbrev "etc.".data false (expandAbbrev "etc.".data "etcetera".data false (expandAbbrev "w/".data "with".data false (expandAbbrev "vs.".data "versus".data false (expandAbbrev "i.e.".data "that is".data false (expandAbbrev "e.g.".data "for example".data false (T)))))) = true :=
    expandAux_noAbbrev "etc.".data "etcetera".data "etc.".data hphT
      (by decide) hlaET (by decide) (by decide) (by decide)
      (expandAbbrev "w/".data "with".data false (expandAbbrev "vs.".data "versus".data false (expandAbbrev "i.e.".data "that is".data false (expandAbbrev "e.g.".data "for example".data false (T))))) 0 false false (Or.inr ⟨rfl, rfl⟩) (Or.inl rfl)
  have hA1 : noAbbrev "e.g.".data false (audiobookPolish T) = true := by
    rw [show audiobookPolish T = trimStr (collapseWs2 (bangCollapse (expandAbbrev "etc.".data "etcetera".data false (expandAbbrev "w/".data "with".data false (expandAbbrev "vs.".data "versus".data false (expandAbbrev "i.e.".data "that is".data false (expandAbbrev "e.g.".data "for example".data false (T)))))))) from rfl]
    exact noAbbrev_polishTail _ hphE (by decide) (by decide) (by decide)
      _ n15
  have hA2 : noAbbrev "i.e.".data false (audiobookPolish T) = true := by
    rw [show audiobookPolish T = trimStr (collapseWs2 (bangCollapse (expandAbbrev "etc.".data "etcetera".data false (expandAbbrev "w/".data "with".data false (expandAbbrev "vs.".data "versus".data false (expandAbbrev "i.e.".data "that is".data false (expandAbbrev "e.g.".data "for example".data false (T)))))))) from rfl]
    exact noAbbrev_polishTail _ hphI (by decide) (by decide) (by decide)
      _ n25
  have hA3 : noAbbrev "vs.".data false (audiobookPolish T) = true := by
    rw [show audiobookPolish T = trimStr (collapseWs2 (bangCollapse (expandAbbrev "etc.".data "etcetera".data false (expandAbbrev "w/".data "with".data false (expandAbbrev "vs.".data "versus".data false (expandAbbrev "i.e.".data "that is".data false (expandAbbrev "e.g.".data "for example".data false (T)))))))) from rfl]
    exact noAbbrev_polishTail _ hphV (by decide) (by decide) (by decide)
      _ n35
  have hA4 : noAbbrev "w/".data false (audiobookPolish T) = true := by
    rw [show audiobookPolish T = trimStr (collapseWs2 (bangCollapse (expandAbbrev "etc.".data "etcetera".data false (expandAbbrev "w/".data "with".data false (expandAbbrev "vs.".data "versus".data false (expandAbbrev "i.e.".data "that is".data false (expandAbbrev "e.g.".data "for example".data false (T)))))))) from rfl]
    exact noAbbrev_polishTail _ hphW (by decide) (by decide) (by decide)
      _ n45
  have hA5 : noAbbrev "etc.".data false (audiobookPolish T) = true := by
    rw [show audiobookPolish T = trimStr (collapseWs2 (bangCollapse (expandAbbrev "etc.".data "etcetera".data false (expandAbbrev "w/".data "with".data false (expandAbbrev "vs.".data "versus".data false (expandAbbrev "i.e.".data "that is".data false (expandAbbrev "e.g.".data "for example".data false (T)))))))) from rfl]
    exact noAbbrev_polishTail _ hphT (by decide) (by decide) (by decide)
      _ n55
  have hitem : itemMatches (audiobookPolish T) = false ∧
      audiobookPolish T ≠ [] := by
    apply itemSafe_no_item
    rw [show audiobookPolish T = trimStr (collapseWs2 (bangCollapse (expandAbbrev "etc.".data "etcetera".data false (expandAbbrev "w/".data "with".data false (expandAbbrev "vs.".data "versus".data false (expandAbbrev "i.e.".data "that is".data false (expandAbbrev "e.g.".data "for example".data false (T)))))))) from rfl]
    apply polishTail_itemSafe
    apply expandAbbrev_itemSafe _ _ 'e' ("tcetera".data) (by decide) (by decide)
      (by decide)
    apply expandAbbrev_itemSafe _ _ 'w' ("ith".data) (by decide) (by decide)
      (by decide)
    apply expandAbbrev_itemSafe _ _ 'v' ("ersus".data) (by decide) (by decide)
      (by decide)
    apply expandAbbrev_itemSafe _ _ 't' ("hat is".data) (by decide) (by decide)
      (by decide)
    apply expandAbbrev_itemSafe _ _ 'f' ("or example".data) (by decide) (by decide)
      (by decide)
    exact hTsafe
  have hmemU : ∀ c, c ∈ audiobookPolish T → c ∈ T ∨ c = ' ' ∨
      c ∈ "for example".data ∨ c ∈ "that is".data ∨ c ∈ "versus".data ∨
      c ∈ "with".data ∨ c ∈ "etcetera".data := by
    intro c hm
    rw [show audiobookPolish T = trimStr (collapseWs2 (bangCollapse (expandAbbrev "etc.".data "etcetera".data false (expandAbbrev "w/".data "with".data false (expandAbbrev "vs.".data "versus".data false (expandAbbrev "i.e.".data "that is".data false (expandAbbrev "e.g.".data "for example".data false (T)))))))) from rfl] at hm
    have h1 := trim_mem_subset _ _ hm
    rcases collapse_mem_subset _ _ _ _ h1 with h2 | h2 | h2
    · have h3 := bang_mem_subset _ _ _ h2
      rcases expandAbbrev_mem _ _ _ _ _ h3 with h3 | h4
      · rcases expandAbbrev_mem _ _ _ _ _ h3 with h3 | h4
        · rcases expandAbbrev_mem _ _ _ _ _ h3 with h3 | h4
          · rcases expandAbbrev_mem _ _ _ _ _ h3 with h3 | h4
            · rcases expandAbbrev_mem _ _ _ _ _ h3 with h3 | h4
              · exact Or.inl h3
              · exact Or.inr (Or.inr (Or.inl h4))
            · exact Or.inr (Or.inr (Or.inr (Or.inl h4)))
          · exact Or.inr (Or.inr (Or.inr (Or.inr (Or.inl h4))))
        · exact Or.inr (Or.inr (Or.inr (Or.inr (Or.inr (Or.inl h4)))))
      · exact Or.inr (Or.inr (Or.inr (Or.inr (Or.inr (Or.inr (h4))))))
    · exact absurd h2 (List.not_mem_nil c)
    · exact Or.inr (Or.inl h2)
  have hCRu : '\x0d' ∉ audiobookPolish T := by
    intro hm
    rcases hmemU _ hm with h1 | h1 | h1 | h1 | h1 | h1 | h1
    · exact (hmemT _ h1).1 rfl
    · exact absurd h1 (by decide)
    · exact absurd h1 (by decide)
    · exact absurd h1 (by decide)
    · exact absurd h1 (by decide)
    · exact absurd h1 (by decide)
    · exact absurd h1 (by decide)
  have hNLu : '\n' ∉ audiobookPolish T := by
    intro hm
    rcases hmemU _ hm with h1 | h1 | h1 | h1 | h1 | h1 | h1
    · exact (hmemT _ h1).2.1 rfl
    · exact absurd h1 (by decide)
    · exact absurd h1 (by decide)
    · exact absurd h1 (by decide)
    · exact absurd h1 (by decide)
    · exact absurd h1 (by decide)
    · exact absurd h1 (by decide)
  have hnbu : ∀ c ∈ audiobookPolish T, isBulletAudio c = false := by
    intro c hm
    rcases hmemU _ hm with h1 | h1 | h1 | h1 | h1 | h1 | h1
    · exact (hmemT _ h1).2.2
    · rw [h1]
      decide
    · exact (by decide : ∀ x ∈ "for example".data, isBulletAudio x = false) c h1
    · exact (by decide : ∀ x ∈ "that is".data, isBulletAudio x = false) c h1
    · exact (by decide : ∀ x ∈ "versus".data, isBulletAudio x = false) c h1
    · exact (by decide : ∀ x ∈ "with".data, isBulletAudio x = false) c h1
    · exact (by decide : ∀ x ∈ "etcetera".data, isBulletAudio x = false) c h1
  have hnd : noAdjPair (fun a b => isJsSpace a && isJsSpace b)
      (audiobookPolish T) = true := by
    rw [show audiobookPolish T = trimStr (collapseWs2 (bangCollapse (expandAbbrev "etc.".data "etcetera".data false (expandAbbrev "w/".data "with".data false (expandAbbrev "vs.".data "versus".data false (expandAbbrev "i.e.".data "that is".data false (expandAbbrev "e.g.".data "for example".data false (T)))))))) from rfl]
    exact trim_ws2_noDoubleWs _
  have hndb : noAdjPair (fun a b => (a = '!' || a = '?') && decide (b = a))
      (audiobookPolish T) = true := by
    rw [show audiobookPolish T = trimStr (collapseWs2 (bangCollapse (expandAbbrev "etc.".data "etcetera".data false (expandAbbrev "w/".data "with".data false (expandAbbrev "vs.".data "versus".data false (expandAbbrev "i.e.".data "that is".data false (expandAbbrev "e.g.".data "for example".data false (T)))))))) from rfl]
    exact trim_ws2_bang_noDupBang _
  have htrimu : trimStr (audiobookPolish T) = audiobookPolish T := by
    rw [show audiobookPolish T = trimStr (collapseWs2 (bangCollapse (expandAbbrev "etc.".data "etcetera".data false (expandAbbrev "w/".data "with".data false (expandAbbrev "vs.".data "versus".data false (expandAbbrev "i.e.".data "that is".data false (expandAbbrev "e.g.".data "for example".data false (T)))))))) from rfl]
    exact trim_idem _
  rw [cleanTextForAudio_reduce2 (audiobookPolish T) hCRu hNLu]
  rw [htrimu]
  rw [if_pos (show ((audiobookPolish T ≠ [] && !testPureDigits
      (audiobookPolish T)) && !testPageNum (audiobookPolish T)) = true by
    simp only [Bool.and_eq_true, Bool.not_eq_true', decide_eq_true_eq]
    exact ⟨⟨hitem.2, hDP.1⟩, hDP.2⟩)]
  rw [replaceBullets_id _ hnbu]
  rw [itemize_id _ hNLu hitem.1]
  have hST : noAdjPair (fun a b =>
      ((a = ' ' || a = '\t') && (b = ' ' || b = '\t')))
      (audiobookPolish T) = true := by
    apply noAdjPair_mono _ _ ?_ _ hnd
    intro a b hab
    simp only [Bool.and_eq_true, Bool.or_eq_true, decide_eq_true_eq] at hab
    obtain ⟨ha, hb⟩ := hab
    rw [Bool.and_eq_true]
    constructor
    · rcases ha with hx | hx <;> subst hx <;> decide
    · rcases hb with hx | hx <;> subst hx <;> decide
  rw [show collapseSpaceTab2 (audiobookPolish T) = audiobookPolish T from
    collapse_id _ _ hST]
  rw [htrimu]
  rw [show audiobookPolish (audiobookPolish T) = trimStr (collapseWs2
    (bangCollapse (expandAbbrev "etc.".data "etcetera".data false (expandAbbrev "w/".data "with".data false (expandAbbrev "vs.".data "versus".data false (expandAbbrev "i.e.".data "that is".data false (expandAbbrev "e.g.".data "for example".data false (audiobookPolish T)))))))) from rfl]
  rw [show expandAbbrev "e.g.".data "for example".data false (audiobookPolish T) =
      audiobookPolish T from expandAbbrev_noAbbrev_id _ _ _ hA1]
  rw [show expandAbbrev "i.e.".data "that is".data false (audiobookPolish T) =
      audiobookPolish T from expandAbbrev_noAbbrev_id _ _ _ hA2]
  rw [show expandAbbrev "vs.".data "versus".data false (audiobookPolish T) =
      audiobookPolish T from expandAbbrev_noAbbrev_id _ _ _ hA3]
  rw [show expandAbbrev "w/".data "with".data false (audiobookPolish T) =
      audiobookPolish T from expandAbbrev_noAbbrev_id _ _ _ hA4]
  rw [show expandAbbrev "etc.".data "etcetera".data false (audiobookPolish T) =
      audiobookPolish T from expandAbbrev_noAbbrev_id _ _ _ hA5]
  rw [show bangCollapse (audiobookPolish T) = audiobookPolish T from
    bangAux_id _ none hndb (fun c hc => Option.noConfusion hc)]
  rw [show collapseWs2 (audiobookPolish T) = audiobookPolish T from
    collapse_id isJsSpace _ hnd]
  exact htrimu

/-- C4: on inputs free of carriage returns and newlines,
`cleanTextForAudio` is idempotent: a second run of the Audio Text
Normalizer changes nothing — the abbreviation expansions included, since
the replacement texts contain no further `/\b…\b/i` matches.  (On inputs
with newlines the function is not idempotent, per the counterexample
theorem.) -/
theorem cleanTextForAudio_idem_no_newline (s : List Char)
    (h : ∀ c ∈ s, c ≠ '\x0d' ∧ c ≠ '\n') :
    cleanTextForAudio (cleanTextForAudio s) = cleanTextForAudio s := by
  have hCR : '\x0d' ∉ s := fun hm => (h _ hm).1 rfl
  have hNL : '\n' ∉ s := fun hm => (h _ hm).2 rfl
  rw [cleanTextForAudio_reduce2 s hCR hNL]
  by_cases hkeep : ((trimStr s ≠ [] && !testPureDigits (trimStr s)) &&
      !testPageNum (trimStr s)) = true
  · rw [if_pos hkeep]
    have hk2 := hkeep
    simp only [Bool.and_eq_true, Bool.not_eq_true', decide_eq_true_eq]
      at hk2
    obtain ⟨⟨hLne, hLd⟩, hLp⟩ := hk2
    have hhL := trimStr_head_not_ws s
    have hlL := trimStr_getLast_not_ws s
    have hnlL : '\n' ∉ trimStr s := fun hm => hNL (trim_mem_subset _ _ hm)
    apply cleanTextForAudio_pass2
    · exact midChain_itemSafe (trimStr s) hLne hhL hnlL
    · intro c hc
      rcases cleanMid_mem s c hc with ⟨h1, h2⟩ | h1 | h1 | h1
      · exact ⟨fun he => hCR (by rw [← he]; exact h1),
          fun he => hNL (by rw [← he]; exact h1), h2⟩
      · rw [h1]
        exact ⟨by decide, by decide, by decide⟩
      · rw [h1]
        exact ⟨by decide, by decide, by decide⟩
      · refine ⟨fun he => ?_, fun he => ?_, ?_⟩
        · rw [he] at h1
          exact absurd h1 (by decide)
        · rw [he] at h1
          exact absurd h1 (by decide)
        · exact (by decide : ∀ x ∈ "Item: ".data,
            isBulletAudio x = false) c h1
    · rw [show audiobookPolish (trimStr (collapseSpaceTab2 (itemize (replaceBullets (trimStr s))))) =
        trimStr (collapseWs2 (bangCollapse (expandAbbrev "etc.".data "etcetera".data false (expandAbbrev "w/".data "with".data false (expandAbbrev "vs.".data "versus".data false (expandAbbrev "i.e.".data "that is".data false (expandAbbrev "e.g.".data "for example".data false (trimStr (collapseSpaceTab2 (itemize (replaceBullets (trimStr s)))))))))))) from rfl]
      rcases expandAbbrev_dichot "etc.".data "etcetera".data 'r' (by decide)
          (expandAbbrev "w/".data "with".data false (expandAbbrev "vs.".data "versus".data false (expandAbbrev "i.e.".data "that is".data false (expandAbbrev "e.g.".data "for example".data false (trimStr (collapseSpaceTab2 (itemize (replaceBullets (trimStr s))))))))) with h5 | h5
      · rw [h5]
        rcases expandAbbrev_dichot "w/".data "with".data 'h' (by decide)
            (expandAbbrev "vs.".data "versus".data false (expandAbbrev "i.e.".data "that is".data false (expandAbbrev "e.g.".data "for example".data false (trimStr (collapseSpaceTab2 (itemize (replaceBullets (trimStr s)))))))) with h4 | h4
        · rw [h4]
          rcases expandAbbrev_dichot "vs.".data "versus".data 'u' (by decide)
              (expandAbbrev "i.e.".data "that is".data false (expandAbbrev "e.g.".data "for example".data false (trimStr (collapseSpaceTab2 (itemize (replaceBullets (trimStr s))))))) with h3 | h3
          · rw [h3]
            rcases expandAbbrev_dichot "i.e.".data "that is".data 'h' (by decide)
                (expandAbbrev "e.g.".data "for example".data false (trimStr (collapseSpaceTab2 (itemize (replaceBullets (trimStr s)))))) with h2 | h2
            · rw [h2]
              rcases expandAbbrev_dichot "e.g.".data "for example".data 'x'
                  (by decide) (trimStr (collapseSpaceTab2 (itemize (replaceBullets (trimStr s))))) with h1e | h1e
              · rw [h1e]
                exact ⟨audioChain_not_digits (trimStr s) hLne hhL hlL
                  hnlL hLd, audioChain_not_pagenum (trimStr s) hLne hhL
                  hlL hnlL hLp⟩
              · exact witness_kills _ 'x' h1e (by decide) (by decide)
                  (by decide)
            · exact witness_kills _ 'h' h2 (by decide) (by decide)
                (by decide)
          · exact witness_kills _ 'u' h3 (by decide) (by decide)
              (by decide)
        · exact witness_kills _ 'h' h4 (by decide) (by decide)
            (by decide)
      · exact witness_kills _ 'r' h5 (by decide) (by decide)
          (by decide)
  · rw [if_neg hkeep]
    exact cleanTextForAudio_nil

theorem cleanTextForAudio_idem_no_newline_witness :
    (∀ c ∈ ("• e.g. hello  world!! 33".data),
      c ≠ '\x0d' ∧ c ≠ '\n') ∧
    cleanTextForAudio (cleanTextForAudio
        ("• e.g. hello  world!! 33".data)) =
      cleanTextForAudio ("• e.g. hello  world!! 33".data) :=
  ⟨by decide, cleanTextForAudio_idem_no_newline _ (by decide)⟩

end PdfAudio
